import Mathlib

/-!
# EditorHouse book reader: renderer and reading session

A shallow embedding of `static/script.js`: the chapter markup renderer
`convertMarkdownToHTML`, the book loader `fetchBookDetails`, the handlers that
move the reading session (chapter navigation, bookmarks, font size), and the fallback
entry of the catalog.

JavaScript strings are modelled as lists of characters.  Each regular expression of the
source is embedded as a matcher that follows the backtracking order of the expression
(lazy quantifiers try the shortest repetition first), and a global `replace` is a
left-to-right scan that resumes after each match.
-/

namespace EditorHouse

/-- JavaScript strings, as character lists. -/
abbrev Str := List Char

/-! ## Regular-expression primitives -/

/-- Line terminators of ECMAScript: the characters that `.` does not match and around
which `^` and `$` match under the `m` flag (LF, CR, U+2028, U+2029). -/
def isLineTerminator (c : Char) : Bool :=
  c == '\n' || c == '\r' || c == Char.ofNat 0x2028 || c == Char.ofNat 0x2029

/-- Match a literal at the start of the input; the result is the input after it. -/
def stripPrefix : Str → Str → Option Str
  | [], s => some s
  | _ :: _, [] => none
  | p :: ps, c :: cs => if p = c then stripPrefix ps cs else none

/-- The fragment `(.*?)lit` closing a regular expression: the lazy group grows one
character (never a line terminator) at a time until `lit` follows.  The result is the
captured group and the input after `lit`. -/
def lazyUntil (lit : Str) : Str → Option (Str × Str)
  | [] => (stripPrefix lit []).map (fun r => ([], r))
  | c :: cs =>
    match stripPrefix lit (c :: cs) with
    | some r => some ([], r)
    | none =>
      if isLineTerminator c then none
      else (lazyUntil lit cs).map (fun p => (c :: p.1, p.2))

/-- A segment of a scanned string: a character copied as it is, or a match. -/
inductive Seg (α : Type) where
  | chr : Char → Seg α
  | hit : α → Seg α
  deriving DecidableEq, Repr

/-- The left-to-right scan behind `String.prototype.replace` with a global regular
expression.  `m bol s` matches the expression at the start of `s` (`bol` tells whether
that position starts a line) and returns the match data and the input after the match.
After a match the scan resumes behind it: the first argument counts the characters of
the current match still to be skipped.  None of the expressions of the source matches
the empty string. -/
def scanGo {α : Type} (m : Bool → Str → Option (α × Str)) : Nat → Bool → Str → List (Seg α)
  | _, _, [] => []
  | k + 1, _, c :: cs => scanGo m k (isLineTerminator c) cs
  | 0, bol, c :: cs =>
    match m bol (c :: cs) with
    | some (a, rest) =>
      Seg.hit a :: scanGo m (cs.length - rest.length) (isLineTerminator c) cs
    | none => Seg.chr c :: scanGo m 0 (isLineTerminator c) cs

/-- All matches of a global regular expression, with the text between them. -/
def scan {α : Type} (m : Bool → Str → Option (α × Str)) (s : Str) : List (Seg α) :=
  scanGo m 0 true s

/-- Put a scanned string back together, each match replaced by `f`. -/
def render {α : Type} (f : α → Str) : List (Seg α) → Str
  | [] => []
  | Seg.chr c :: segs => c :: render f segs
  | Seg.hit a :: segs => f a ++ render f segs

/-- The matches among the segments of a scan. -/
def hits {α : Type} : List (Seg α) → List α
  | [] => []
  | Seg.chr _ :: segs => hits segs
  | Seg.hit a :: segs => a :: hits segs

/-- The call `s.replace(/re/g, f)`. -/
def replaceAll {α : Type} (m : Bool → Str → Option (α × Str)) (f : α → Str) (s : Str) : Str :=
  render f (scan m s)

/-- The call `s.replace(pat, repl)` with a string pattern: only the first occurrence of
`pat` is replaced. -/
def replaceFirst (pat repl : Str) : Str → Str
  | [] => match stripPrefix pat [] with
    | some r => repl ++ r
    | none => []
  | c :: cs =>
    match stripPrefix pat (c :: cs) with
    | some r => repl ++ r
    | none => c :: replaceFirst pat repl cs

/-! ## The expressions of the renderer -/

/-- An image reference `![alt](src)`. -/
structure ImageRef where
  alt : Str
  src : Str
  deriving DecidableEq, Repr

/-- The text `![alt](src)` of an image reference (`match[0]`). -/
def ImageRef.text (r : ImageRef) : Str :=
  "![".toList ++ r.alt ++ "](".toList ++ r.src ++ ")".toList

/-- The fragment `(.*?)\]\((.*?)\)` after the opening `![`: the first group grows
lazily; at each length the rest `\]\((.*?)\)` is tried, and on failure the group takes
one more character. -/
def imageBody : Str → Option (ImageRef × Str)
  | [] => none
  | c :: cs =>
    match (stripPrefix "](".toList (c :: cs)).bind (lazyUntil ")".toList) with
    | some (src, rest) => some (⟨[], src⟩, rest)
    | none =>
      if isLineTerminator c then none
      else (imageBody cs).map (fun p => (⟨c :: p.1.alt, p.1.src⟩, p.2))

/-- The expression `/!\[(.*?)\]\((.*?)\)/` at the start of the input. -/
def matchImage (_bol : Bool) (s : Str) : Option (ImageRef × Str) :=
  (stripPrefix "![".toList s).bind imageBody

/-- The call `s.match(/!\[.*?\]\((.*?)\)/)`: the leftmost match, if any. -/
def execImage : Str → Option ImageRef
  | [] => none
  | c :: cs =>
    match matchImage true (c :: cs) with
    | some (r, _) => some r
    | none => execImage cs

/-- The expressions `/^# (.*?)$/gm`, `/^## (.*?)$/gm`, `/^### (.*?)$/gm` and
`/^#### (.*?)$/gm` for `k` = 1, 2, 3, 4: at the start of a line, `k` hashes and a space,
then the lazy group up to the first position where `$` matches, which is the end of the
line.  The result is the group. -/
def matchHeader (k : Nat) (bol : Bool) (s : Str) : Option (Str × Str) :=
  if bol then
    (stripPrefix (List.replicate k '#' ++ [' ']) s).map
      (fun r => (r.takeWhile (fun c => !isLineTerminator c),
                 r.dropWhile (fun c => !isLineTerminator c)))
  else none

/-- The expression `/\*\*(.*?)\*\*/`. -/
def matchBold (_bol : Bool) (s : Str) : Option (Str × Str) :=
  (stripPrefix "**".toList s).bind (lazyUntil "**".toList)

/-- The expression `/\*(.*?)\*/`. -/
def matchItalic (_bol : Bool) (s : Str) : Option (Str × Str) :=
  (stripPrefix "*".toList s).bind (lazyUntil "*".toList)

/-- The expression `/\n\n/`. -/
def matchBlankLine (_bol : Bool) (s : Str) : Option (Unit × Str) :=
  (stripPrefix "\n\n".toList s).map (fun r => ((), r))

/-- The expression `/<p><\/p>/`. -/
def matchEmptyParagraph (_bol : Bool) (s : Str) : Option (Unit × Str) :=
  (stripPrefix "<p></p>".toList s).map (fun r => ((), r))

/-- The replacement `<hk>$1</hk>`. -/
def headerTag (k : Nat) (t : Str) : Str :=
  "<h".toList ++ (Nat.repr k).toList ++ ">".toList ++ t ++ "</h".toList ++
    (Nat.repr k).toList ++ ">".toList

/-! ## Books and chapters -/

/-- A chapter as built by `fetchBookDetails`. -/
structure Chapter where
  number : Nat
  title : Str
  content : Str
  illustrationPath : Option Str
  deriving DecidableEq, Repr

/-- The `book_info` record of `book_metadata.json`, as far as the reader uses it. -/
structure Metadata where
  title : Str
  description : Str
  total_chapters : Nat
  deriving DecidableEq, Repr

/-- The object returned by `fetchBookDetails`: `metadata`, `chapters` and `folder`, and
no other property. -/
structure BookDetails where
  metadata : Metadata
  chapters : List Chapter
  folder : Str
  deriving DecidableEq, Repr

/-! ## The renderer -/

/-- The replacement function of the image rule of `convertMarkdownToHTML`. -/
def imageTag (currentBookDetails : Option BookDetails) (r : ImageRef) : Str :=
  let imagePath : Str :=
    match currentBookDetails with
    | some d =>
      if (stripPrefix "illustrations/".toList r.src).isSome then
        "books/".toList ++ d.folder ++ "/".toList ++ r.src
      else r.src
    | none => r.src
  "<img src=\"".toList ++ imagePath ++ "\" alt=\"".toList ++ r.alt ++
    "\" class=\"chapter-image\" onerror=\"this.onerror=null; this.style.display='none';\">".toList

/-- The first step of `convertMarkdownToHTML`: the text of the first image match is
replaced by the empty string. -/
def removeFirstImage (markdown : Str) : Str :=
  match execImage markdown with
  | some r => replaceFirst r.text [] markdown
  | none => markdown

/-- The four header replacements of `convertMarkdownToHTML`, in the order of the source. -/
def convertHeaders (s : Str) : Str :=
  replaceAll (matchHeader 4) (headerTag 4)
    (replaceAll (matchHeader 3) (headerTag 3)
      (replaceAll (matchHeader 2) (headerTag 2)
        (replaceAll (matchHeader 1) (headerTag 1) s)))

/-- The function `convertMarkdownToHTML(markdown)`; `currentBookDetails` is the session
variable the image rule reads. -/
def convertMarkdownToHTML (currentBookDetails : Option BookDetails) (markdown : Str) : Str :=
  let processedMarkdown := removeFirstImage markdown
  let html := convertHeaders processedMarkdown
  let html := replaceAll matchImage (imageTag currentBookDetails) html
  let html := replaceAll matchBold (fun t => "<strong>".toList ++ t ++ "</strong>".toList) html
  let html := replaceAll matchItalic (fun t => "<em>".toList ++ t ++ "</em>".toList) html
  let html := replaceAll matchBlankLine (fun _ => "</p><p>".toList) html
  let html := "<p>".toList ++ html ++ "</p>".toList
  let html := replaceAll matchEmptyParagraph (fun _ => []) html
  html

/-! ## Loading a book -/

/-- A catalog entry, the argument of `openBookDetails`. -/
structure Book where
  id : Str
  title : Str
  folder : Str
  deriving DecidableEq, Repr

/-- Errors raised while a handler runs. -/
inductive JsError where
  | error
  | typeError
  | referenceError
  deriving DecidableEq, Repr

/-- The content source behind `fetch`: for each URL the body of an `ok` response, or
`none` when the request fails or the response is not `ok`.  Metadata responses are given
as the parsed JSON. -/
structure ContentSource where
  fetchText : Str → Option Str
  fetchJson : Str → Option Metadata

/-- The call `str.padStart(2, '0')`. -/
def padStart2 (s : Str) : Str :=
  List.replicate (2 - s.length) '0' ++ s

/-- The URL of chapter `i`: `books/<folder>/chapter_<NN>_chapter_<i>.md`. -/
def chapterFile (folder : Str) (i : Nat) : Str :=
  "books/".toList ++ folder ++ "/chapter_".toList ++ padStart2 (Nat.repr i).toList ++
    "_chapter_".toList ++ (Nat.repr i).toList ++ ".md".toList

/-- The call `text.match(/# (.*)/)`: the leftmost `# `, then the greedy group up to the
end of the line.  The result is the group. -/
def execTitle : Str → Option Str
  | [] => none
  | c :: cs =>
    match stripPrefix "# ".toList (c :: cs) with
    | some r => some (r.takeWhile (fun x => !isLineTerminator x))
    | none => execTitle cs

/-- The title `Chapter <i>`. -/
def defaultTitle (i : Nat) : Str :=
  "Chapter ".toList ++ (Nat.repr i).toList

/-- The chapter built from the fetched text of chapter `i` (the `.then(text => ...)`
callback of `fetchBookDetails`). -/
def chapterOfText (folder : Str) (i : Nat) (text : Str) : Chapter :=
  { number := i
    title := (execTitle text).getD (defaultTitle i)
    content := text
    illustrationPath :=
      (execImage text).map (fun r => "books/".toList ++ folder ++ "/".toList ++ r.src) }

/-- The chapter that stands in for chapter `i` when its fetch fails (the `.catch`
callback of `fetchBookDetails`). -/
def placeholderChapter (i : Nat) : Chapter :=
  { number := i
    title := defaultTitle i
    content := "This chapter could not be loaded.".toList
    illustrationPath := none }

/-- The promise pushed for chapter `i`, settled. -/
def chapterPromise (src : ContentSource) (folder : Str) (i : Nat) : Chapter :=
  match src.fetchText (chapterFile folder i) with
  | some text => chapterOfText folder i text
  | none => placeholderChapter i

/-- The call `Promise.all`: the result array has one slot per promise; slot `k` receives the value
of promise `k` when that promise settles.  `order` lists the promises in the order in
which they settle.  The result is `none` as long as a slot is empty. -/
def promiseAll {α : Type} (order : List Nat) (values : List α) : Option (List α) :=
  let slots : List (Option α) :=
    order.foldl (fun acc k => acc.set k values[k]?) (List.replicate values.length none)
  if slots.all Option.isSome then some (slots.filterMap id) else none

/-- The function `fetchBookDetails(book)`.  `order` is the order in which the chapter
requests complete.  The result is `none` while the promise is pending, `error` when it is
rejected (the metadata request failed) and `ok details` when it is fulfilled. -/
def fetchBookDetails (src : ContentSource) (order : List Nat) (book : Book) :
    Option (Except JsError BookDetails) :=
  match src.fetchJson ("books/".toList ++ book.folder ++ "/book_metadata.json".toList) with
  | none => some (Except.error JsError.error)
  | some metadata =>
    let totalChapters := metadata.total_chapters
    let chapterPromises :=
      (List.range totalChapters).map (fun j => chapterPromise src book.folder (j + 1))
    (promiseAll order chapterPromises).map
      (fun chapters => Except.ok { metadata := metadata, chapters := chapters, folder := book.folder })

/-! ## The reading session -/

/-- The object `bookmarks`: property keys with arrays of chapter indices. -/
abbrev Bookmarks := List (Str × List Nat)

/-- The read `bookmarks[key]` (`none` is `undefined`). -/
def getProp : Bookmarks → Str → Option (List Nat)
  | [], _ => none
  | (k, w) :: o, key => if k = key then some w else getProp o key

/-- The write `bookmarks[key] = v`. -/
def setProp : Bookmarks → Str → List Nat → Bookmarks
  | [], key, v => [(key, v)]
  | (k, w) :: o, key, v => if k = key then (k, v) :: o else (k, w) :: setProp o key v

/-- The call `arr.indexOf(x)` (`none` is -1). -/
def indexOf (x : Nat) : List Nat → Option Nat
  | [] => none
  | y :: ys => if y = x then some 0 else (indexOf x ys).map (fun k => k + 1)

/-- The read `details.id` of an object returned by `fetchBookDetails`: that object has
the properties `metadata`, `chapters` and `folder` and no `id`, so the value is
`undefined` (`none`). -/
def BookDetails.id (_details : BookDetails) : Option Str := none

/-- A value used as a property key: `undefined` becomes the key `undefined`. -/
def propertyKey : Option Str → Str
  | none => "undefined".toList
  | some s => s

/-- What `modalContent` shows. -/
inductive View where
  | empty
  | loading
  | overview (details : BookDetails)
  | chapter (illustrationPath : Option Str) (number : Nat) (htmlContent : Str)
  | failed (title : Str)
  deriving DecidableEq, Repr

/-- The keys the `keydown` listener tells apart. -/
inductive Key where
  | escape
  | arrowLeft
  | arrowRight
  | other
  deriving DecidableEq, Repr

/-- The session: the variables of the `DOMContentLoaded` closure, the parts of the page
the handlers read back, the stored preferences and the work in flight. -/
structure Session where
  currentChapterIndex : Nat
  currentBookDetails : Option BookDetails
  fontSizeIndex : Nat
  bookmarks : Bookmarks
  /-- whether `modal.style.display === 'block'` holds -/
  modalDisplayBlock : Bool
  modalContent : View
  /-- the chapters behind the `.chapter-item` entries of the sidebar -/
  sidebar : List Chapter
  /-- the `data-chapter` values of the entries carrying the class `active` -/
  highlighted : List Nat
  bookmarkIconActive : Bool
  prevDisabled : Bool
  nextDisabled : Bool
  /-- the item `bookmarks` of `localStorage`, as the value its JSON text denotes -/
  storedBookmarks : Option Bookmarks
  /-- the `fetchBookDetails` promises not yet settled, with the book and the outcome each
  will have -/
  pendingLoads : List (Book × Except JsError BookDetails)
  /-- the timers started by `closeModal` that have not fired yet -/
  hideTimers : Nat

/-- The result of running a handler: the session it leaves and the error that ended it,
if any. -/
structure Outcome where
  state : Session
  error : Option JsError

/-- Run the next statements unless an error was raised. -/
def Outcome.andThen (o : Outcome) (f : Session → Outcome) : Outcome :=
  match o.error with
  | some _ => o
  | none => f o.state

/-- The session when the page has loaded, with the bookmarks read from `localStorage`
(`{}` when the item is missing) and the font size index read the same way. -/
def initialSession (storedBookmarks : Option Bookmarks) (fontSizeIndex : Nat) : Session :=
  { currentChapterIndex := 0
    currentBookDetails := none
    fontSizeIndex := fontSizeIndex
    bookmarks := storedBookmarks.getD []
    modalDisplayBlock := false
    modalContent := View.empty
    sidebar := []
    highlighted := []
    bookmarkIconActive := false
    prevDisabled := false
    nextDisabled := false
    storedBookmarks := storedBookmarks
    pendingLoads := []
    hideTimers := 0 }

/-- The test of line 1027, `bookmarks[bookId] && bookmarks[bookId].includes(index)`, for
the book `details`: whether chapter `index` of that book is bookmarked. -/
def isBookmarked (bookmarks : Bookmarks) (details : BookDetails) (index : Nat) : Bool :=
  match getProp bookmarks (propertyKey details.id) with
  | some arr => decide (index ∈ arr)
  | none => false

/-- The function `updateBookmarkState()`.  It is declared at the top level of the script,
after the listener of `DOMContentLoaded` has been closed, while `currentBookDetails`,
`currentChapterIndex`, `bookmarks` and `bookmarkBtn` are local to that listener.  Its
first statement reads the identifier `currentBookDetails`, which has no binding in the
global scope: a ReferenceError. -/
def updateBookmarkState (s : Session) : Outcome :=
  { state := s, error := some JsError.referenceError }

/-- The function `updateChapterNav()`. -/
def updateChapterNav (s : Session) : Outcome :=
  { state :=
      { s with
        prevDisabled := decide (s.currentChapterIndex = 0)
        nextDisabled :=
          match s.currentBookDetails with
          | none => true
          | some d => decide ((s.currentChapterIndex : Int) = (d.chapters.length : Int) - 1) }
    error := none }

/-- The function `displayChapter(chapter)`; `none` is the value `undefined` of an index
outside the chapter array. -/
def displayChapter (s : Session) (chapter : Option Chapter) : Outcome :=
  match chapter with
  | none => { state := s, error := some JsError.typeError }
  | some ch =>
    let htmlContent := convertMarkdownToHTML s.currentBookDetails ch.content
    let s1 : Session :=
      { s with
        modalContent := View.chapter ch.illustrationPath ch.number htmlContent
        highlighted :=
          (s.sidebar.map (fun c => c.number - 1)).filter (fun k => k = s.currentChapterIndex) }
    updateBookmarkState s1

/-- The `click` listener of `prevChapterBtn`. -/
def prevChapterClick (s : Session) : Outcome :=
  if s.currentChapterIndex > 0 then
    let s1 : Session := { s with currentChapterIndex := s.currentChapterIndex - 1 }
    match s1.currentBookDetails with
    | none => { state := s1, error := some JsError.typeError }
    | some d => (displayChapter s1 d.chapters[s1.currentChapterIndex]?).andThen updateChapterNav
  else { state := s, error := none }

/-- The `click` listener of `nextChapterBtn`. -/
def nextChapterClick (s : Session) : Outcome :=
  match s.currentBookDetails with
  | none => { state := s, error := some JsError.typeError }
  | some d =>
    if (s.currentChapterIndex : Int) < (d.chapters.length : Int) - 1 then
      let s1 : Session := { s with currentChapterIndex := s.currentChapterIndex + 1 }
      (displayChapter s1 d.chapters[s1.currentChapterIndex]?).andThen updateChapterNav
    else { state := s, error := none }

/-- The function `closeModal()`: it removes the class `show` (not modelled) and starts the
timer that hides the modal 300 ms later. -/
def closeModal (s : Session) : Outcome :=
  { state := { s with hideTimers := s.hideTimers + 1 }, error := none }

/-- The callback of the timer started by `closeModal`. -/
def hideTimerFires (s : Session) : Outcome :=
  if s.hideTimers > 0 then
    { state := { s with modalDisplayBlock := false, hideTimers := s.hideTimers - 1 }, error := none }
  else { state := s, error := none }

/-- The `keydown` listener of the document. -/
def keydown (s : Session) (key : Key) : Outcome :=
  if s.modalDisplayBlock then
    match key with
    | Key.escape => closeModal s
    | Key.arrowLeft =>
      if s.currentChapterIndex > 0 then
        let s1 : Session := { s with currentChapterIndex := s.currentChapterIndex - 1 }
        match s1.currentBookDetails with
        | none => { state := s1, error := some JsError.typeError }
        | some d => (displayChapter s1 d.chapters[s1.currentChapterIndex]?).andThen updateChapterNav
      else { state := s, error := none }
    | Key.arrowRight =>
      match s.currentBookDetails with
      | none => { state := s, error := some JsError.typeError }
      | some d =>
        if (s.currentChapterIndex : Int) < (d.chapters.length : Int) - 1 then
          let s1 : Session := { s with currentChapterIndex := s.currentChapterIndex + 1 }
          (displayChapter s1 d.chapters[s1.currentChapterIndex]?).andThen updateChapterNav
        else { state := s, error := none }
    | Key.other => { state := s, error := none }
  else { state := s, error := none }

/-- The `click` listener of `bookmarkBtn`. -/
def toggleBookmark (s : Session) : Outcome :=
  match s.currentBookDetails with
  | none => { state := s, error := none }
  | some d =>
    let bookId := propertyKey d.id
    let bookmarks :=
      match getProp s.bookmarks bookId with
      | none => setProp s.bookmarks bookId []
      | some _ => s.bookmarks
    let arr := (getProp bookmarks bookId).getD []
    match indexOf s.currentChapterIndex arr with
    | none =>
      let bookmarks := setProp bookmarks bookId (arr ++ [s.currentChapterIndex])
      { state := { s with bookmarks := bookmarks, bookmarkIconActive := true,
                          storedBookmarks := some bookmarks }
        error := none }
    | some chapterIndex =>
      let bookmarks := setProp bookmarks bookId (arr.eraseIdx chapterIndex)
      { state := { s with bookmarks := bookmarks, bookmarkIconActive := false,
                          storedBookmarks := some bookmarks }
        error := none }

/-- The function `showBookOverview(details)`. -/
def showBookOverview (s : Session) (details : BookDetails) : Outcome :=
  { state := { s with modalContent := View.overview details }, error := none }

/-- The function `populateSidebar(metadata, chapters)`. -/
def populateSidebar (s : Session) (chapters : List Chapter) : Outcome :=
  { state := { s with sidebar := chapters, highlighted := [] }, error := none }

/-- The function `displayBookDetails(details)`; the font class it puts on `.book-main` is
not part of the session model. -/
def displayBookDetails (s : Session) (details : BookDetails) : Outcome :=
  ((populateSidebar s details.chapters).andThen (fun s1 => showBookOverview s1 details)).andThen
    updateChapterNav

/-- The function `openBookDetails(book)` up to the point where it waits for
`fetchBookDetails(book)`; `src` and `order` fix what that promise will settle to. -/
def openBookDetails (s : Session) (book : Book) (src : ContentSource) (order : List Nat) :
    Outcome :=
  { state :=
      { s with
        currentChapterIndex := 0
        modalContent := View.loading
        sidebar := []
        highlighted := []
        modalDisplayBlock := true
        pendingLoads :=
          match fetchBookDetails src order book with
          | some r => s.pendingLoads ++ [(book, r)]
          | none => s.pendingLoads }
    error := none }

/-- The `.then` and `.catch` callbacks of `openBookDetails`, run when the pending
promise number `k` settles. -/
def loadSettles (s : Session) (k : Nat) : Outcome :=
  match s.pendingLoads[k]? with
  | none => { state := s, error := none }
  | some (book, r) =>
    let s1 : Session := { s with pendingLoads := s.pendingLoads.eraseIdx k }
    match r with
    | Except.ok details =>
      displayBookDetails { s1 with currentBookDetails := some details } details
    | Except.error _ => { state := { s1 with modalContent := View.failed book.title }, error := none }

/-- The `click` listener of the sidebar entry number `item`, installed by
`populateSidebar` over its argument `chapters`. -/
def chapterItemClick (s : Session) (item : Nat) : Outcome :=
  match s.sidebar[item]? with
  | none => { state := s, error := none }
  | some c =>
    let chapterIndex := c.number - 1
    let s1 : Session := { s with currentChapterIndex := chapterIndex }
    (displayChapter s1 s.sidebar[chapterIndex]?).andThen updateChapterNav

/-- The `click` listener of `startReadingBtn`, installed by `showBookOverview(details)`;
the button exists while the overview is shown. -/
def startReadingClick (s : Session) : Outcome :=
  match s.modalContent with
  | View.overview details =>
    ((displayChapter s details.chapters[0]?).andThen
      (fun s1 => { state := { s1 with currentChapterIndex := 0 }, error := none })).andThen
      updateChapterNav
  | _ => { state := s, error := none }

/-- The `click` listener of `bookInfoBtn`. -/
def bookInfoClick (s : Session) : Outcome :=
  match s.currentBookDetails with
  | some d => showBookOverview s d
  | none => { state := s, error := none }

/-- What can happen to a session. -/
inductive Event where
  | openBook (book : Book) (src : ContentSource) (order : List Nat)
  | loadSettles (k : Nat)
  | prevClick
  | nextClick
  | key (k : Key)
  | chapterItem (item : Nat)
  | startReading
  | bookInfo
  | bookmarkClick
  | close
  | hideTimer

/-- The session after an event; an error ends the handler and leaves the session as the
handler had changed it so far. -/
def step (s : Session) : Event → Session
  | Event.openBook book src order => (openBookDetails s book src order).state
  | Event.loadSettles k => (loadSettles s k).state
  | Event.prevClick => (prevChapterClick s).state
  | Event.nextClick => (nextChapterClick s).state
  | Event.key k => (keydown s k).state
  | Event.chapterItem item => (chapterItemClick s item).state
  | Event.startReading => (startReadingClick s).state
  | Event.bookInfo => (bookInfoClick s).state
  | Event.bookmarkClick => (toggleBookmark s).state
  | Event.close => (closeModal s).state
  | Event.hideTimer => (hideTimerFires s).state

/-- The session after a sequence of events. -/
def run (s : Session) (events : List Event) : Session :=
  events.foldl step s

/-- The invariant of the data model: while a book is open the current chapter index is
an index of its chapter list. -/
def indexInRange (s : Session) : Prop :=
  ∀ d, s.currentBookDetails = some d → s.currentChapterIndex < d.chapters.length

/-! ## Preferences -/

/-- The page around a session: the session variables, the item `fontSizeIndex` of
`localStorage` (as the integer its text denotes; the item `bookmarks` is the field
`storedBookmarks` of the session), and whether the document has an element `.book-main`.
The markup of the page is not part of the script, so the presence of that element is a
parameter. -/
structure Page where
  session : Session
  storedFontSizeIndex : Option Nat
  bookMain : Bool

/-- Reading the font size as the script does when it starts:
`parseInt(localStorage.getItem('fontSizeIndex') || '1')`. -/
def readFontSizeIndex (stored : Option Nat) : Nat :=
  stored.getD 1

/-- Reading the bookmarks as the script does when it starts:
`JSON.parse(localStorage.getItem('bookmarks') || '{}')`. -/
def readBookmarks (stored : Option Bookmarks) : Bookmarks :=
  stored.getD []

/-- The page when the script has started over the given store. -/
def startPage (storedBookmarks : Option Bookmarks) (storedFontSizeIndex : Option Nat)
    (bookMain : Bool) : Page :=
  { session := initialSession storedBookmarks (readFontSizeIndex storedFontSizeIndex)
    storedFontSizeIndex := storedFontSizeIndex
    bookMain := bookMain }

/-- The `click` listener of `fontSizeBtn`: the variable advances first; the class of
`.book-main` (not part of the model) and the stored item are set only if the element
exists. -/
def fontSizeClick (p : Page) : Page :=
  let fontSizeIndex := (p.session.fontSizeIndex + 1) % 3
  let session : Session := { p.session with fontSizeIndex := fontSizeIndex }
  if p.bookMain then
    { p with session := session, storedFontSizeIndex := some fontSizeIndex }
  else
    { p with session := session }

/-- What can happen to a page: an event of the reading session, or a click on the font
size button. -/
inductive PageEvent where
  | session (e : Event)
  | fontSize

/-- The page after an event. -/
def pageStep (p : Page) : PageEvent → Page
  | PageEvent.session e => { p with session := step p.session e }
  | PageEvent.fontSize => fontSizeClick p

/-- The page after a sequence of events. -/
def pageRun (p : Page) (events : List PageEvent) : Page :=
  events.foldl pageStep p

/-! ## The catalog -/

/-- The expression `/_/`. -/
def matchUnderscore (_bol : Bool) (s : Str) : Option (Unit × Str) :=
  (stripPrefix "_".toList s).map (fun r => ((), r))

/-- An entry of the catalog as the `catch` callback of `fetchStaticBooks` builds it. -/
structure CatalogEntry where
  id : Str
  title : Str
  description : Str
  date : Str
  chapters : Str
  folder : Str
  deriving DecidableEq, Repr

/-- The folders listed in `fetchStaticBooks`. -/
def bookFolders : List Str :=
  ["book_about_space_exploration_in_the_distant_future".toList,
   "book_about_an_indian_crime_thriller".toList,
   "book_about_i_love_you_maya".toList,
   "book_about_my_incomple_love_story_from_10th_grade".toList,
   "book_about_lost_in_your_memories_forever".toList,
   "book_about_dark_romance".toList]

/-- The `catch` callback of `fetchStaticBooks` for `folder`, run when the metadata of the
folder cannot be fetched: the title is
`folder.replace(/_/g, ' ').replace('book_about_', '')`. -/
def fallbackEntry (folder : Str) : CatalogEntry :=
  { id := folder
    title :=
      replaceFirst "book_about_".toList []
        (replaceAll matchUnderscore (fun _ => " ".toList) folder)
    description := "A generated story".toList
    date := "Unknown".toList
    chapters := "Unknown".toList
    folder := folder }

/-! ## Notions used in the statements and proofs -/

/-- The line-start flag after the characters `p` have been read. -/
def bolAfter (b : Bool) (p : Str) : Bool :=
  p.foldl (fun _ c => isLineTerminator c) b

/-- A matcher that can only succeed on inputs starting with the character `x`. -/
def Trigger {α : Type} (m : Bool → Str → Option (α × Str)) (x : Char) : Prop :=
  ∀ bol c cs, c ≠ x → m bol (c :: cs) = none

/-- A matcher that does not look at the line-start flag. -/
def BolFree {α : Type} (m : Bool → Str → Option (α × Str)) : Prop :=
  ∀ b b' s, m b s = m b' s

/-- Text without line terminators and without the characters `#`, `*`, `!`, `<`. -/
def Plain (s : Str) : Prop :=
  ∀ c ∈ s, isLineTerminator c = false ∧ c ≠ '#' ∧ c ≠ '*' ∧ c ≠ '!' ∧ c ≠ '<'

/-- Plainness of a given text can be checked by evaluation. -/
instance decidablePlain (s : Str) : Decidable (Plain s) := by
  unfold Plain; infer_instance

/-- A sample chapter with number `i`. -/
def sampleChapter (i : Nat) : Chapter :=
  { number := i
    title := defaultTitle i
    content := "# Title\n\nBody text".toList
    illustrationPath := none }

/-- A sample book with five chapters. -/
def sampleDetails : BookDetails :=
  { metadata := { title := "Sample".toList, description := [], total_chapters := 5 }
    chapters := (List.range 5).map (fun j => sampleChapter (j + 1))
    folder := "book_about_sample".toList }

/-- A session with the sample book open at its first chapter. -/
def sampleSession : Session :=
  { initialSession none 1 with
    currentBookDetails := some sampleDetails
    modalDisplayBlock := true
    sidebar := sampleDetails.chapters
    modalContent := View.overview sampleDetails }

/-- Details of a book kept in the folder `book_a`. -/
def detailsA : BookDetails :=
  { metadata := { title := "A".toList, description := [], total_chapters := 2 }
    chapters := [sampleChapter 1, sampleChapter 2]
    folder := "book_a".toList }

/-- Details of another book, kept in the folder `book_b`. -/
def detailsB : BookDetails :=
  { metadata := { title := "B".toList, description := [], total_chapters := 3 }
    chapters := [sampleChapter 1, sampleChapter 2, sampleChapter 3]
    folder := "book_b".toList }

/-- A session with the book of `book_a` open at its first chapter and no bookmark yet. -/
def sessionA : Session :=
  { initialSession none 1 with
    currentBookDetails := some detailsA
    modalDisplayBlock := true
    sidebar := detailsA.chapters }

/-- A content source for a book of five chapters whose third chapter cannot be fetched. -/
def sourceFive : ContentSource :=
  { fetchText := fun url =>
      if url = chapterFile "book_five".toList 3 then none
      else some "# Chapter\n\n![pic](illustrations/pic.png)\n\nText".toList
    fetchJson := fun _ => some { title := "Five".toList, description := [], total_chapters := 5 } }

/-- The catalog entry of that book. -/
def bookFive : Book :=
  { id := "book_five".toList, title := "Five".toList, folder := "book_five".toList }

/-- The guard of the amended session invariant: a book that is opened has at least one
chapter whenever its load succeeds, and no next-chapter step and no chapter selection
happens while a load is pending. -/
def guarded (s : Session) : Event → Bool
  | Event.openBook book src order =>
    match fetchBookDetails src order book with
    | some (Except.ok d) => !d.chapters.isEmpty
    | _ => true
  | Event.nextClick => s.pendingLoads.isEmpty
  | Event.key Key.arrowRight => s.pendingLoads.isEmpty
  | Event.chapterItem _ => s.pendingLoads.isEmpty
  | _ => true

/-- A sequence of events each of which passes the guard in the session it meets. -/
def admissible : Session → List Event → Bool
  | _, [] => true
  | s, e :: es => guarded s e && admissible (step s e) es

/-- Chapters numbered 1, 2, 3, ... in order. -/
def numbered (chs : List Chapter) : Prop :=
  ∀ k c, chs[k]? = some c → c.number = k + 1

/-- The inductive invariant behind the index bound. -/
structure SessionInv (s : Session) : Prop where
  inRange : ∀ d, s.currentBookDetails = some d → s.currentChapterIndex < d.chapters.length
  atStart : s.pendingLoads ≠ [] → s.currentChapterIndex = 0
  pendingOk : ∀ p ∈ s.pendingLoads, ∀ d, p.2 = Except.ok d → d.chapters ≠ [] ∧ numbered d.chapters
  sidebarOk : s.sidebar = [] ∨
    ∃ d, s.currentBookDetails = some d ∧ s.sidebar = d.chapters ∧ numbered d.chapters

/-- A content source for a book of two chapters. -/
def sourceTwo : ContentSource :=
  { fetchText := fun _ => some "Text".toList
    fetchJson := fun _ => some { title := "Two".toList, description := [], total_chapters := 2 } }

/-- A content source for a book of one chapter. -/
def sourceOne : ContentSource :=
  { fetchText := fun _ => some "Text".toList
    fetchJson := fun _ => some { title := "One".toList, description := [], total_chapters := 1 } }

/-- A content source for a book whose metadata reports no chapter. -/
def sourceNone : ContentSource :=
  { fetchText := fun _ => some "Text".toList
    fetchJson := fun _ => some { title := "None".toList, description := [], total_chapters := 0 } }

/-- Open a two-chapter book, let it load, open a one-chapter book, press ArrowRight while
it loads, then let it load. -/
def staleLoadTrace : List Event :=
  [Event.openBook bookFive sourceTwo [0, 1], Event.loadSettles 0,
   Event.openBook bookFive sourceOne [0], Event.key Key.arrowRight, Event.loadSettles 0]

/-- Open a book without chapters and let it load. -/
def emptyBookTrace : List Event :=
  [Event.openBook bookFive sourceNone [], Event.loadSettles 0]

/-- Open the five-chapter book, let it load, read forward, select a chapter, go back. -/
def quietTrace : List Event :=
  [Event.openBook bookFive sourceFive [4, 2, 0, 1, 3], Event.loadSettles 0, Event.startReading,
   Event.nextClick, Event.key Key.arrowRight, Event.chapterItem 4, Event.nextClick,
   Event.bookmarkClick, Event.prevClick, Event.bookInfo, Event.close, Event.hideTimer]

/-- Text without line terminators. -/
def NoLT (s : Str) : Prop := ∀ c ∈ s, isLineTerminator c = false

/-- The number of positions of a text at which `pat` starts. -/
def countOcc (pat : Str) : Str → Nat
  | [] => 0
  | c :: cs => (if (stripPrefix pat (c :: cs)).isSome then 1 else 0) + countOcc pat cs

/-- The number of inline image elements of an output: the occurrences of `<img`. -/
def imgCount (s : Str) : Nat := countOcc "<img".toList s

/-- The number of image references of a text: the matches of the image expression found
from left to right, each search resuming behind the previous match. -/
def imageRefs (s : Str) : List ImageRef := hits (scan matchImage s)

/-- One step of an automaton that reads the tag openings of an output.  The state is the
number of characters of `<img` just read (0 outside a tag opening); after `<` only the
first character of one of the tags of the renderer may follow.  The result is `none` when
the character cannot follow, else the number of `<img` completed (0 or 1) and the next
state. -/
def tagStep (q : Nat) (c : Char) : Option (Nat × Nat) :=
  match q with
  | 0 => if c = '<' then some (0, 1) else some (0, 0)
  | 1 =>
    if c = 'i' then some (0, 2)
    else if c = 'h' ∨ c = '/' ∨ c = 's' ∨ c = 'e' ∨ c = 'p' then some (0, 0)
    else none
  | 2 => if c = 'm' then some (0, 3) else none
  | 3 => if c = 'g' then some (1, 0) else none
  | _ => none

/-- The automaton run over a text from state `q`: the number of `<img` read and the final
state, or `none` when some character could not follow. -/
def tagRun (q : Nat) : Str → Option (Nat × Nat)
  | [] => some (0, q)
  | c :: cs =>
    match tagStep q c with
    | none => none
    | some (n1, q1) => (tagRun q1 cs).map (fun p => (n1 + p.1, p.2))

/-- The part of `<img` still to come in state `q`. -/
def pending (q : Nat) : Str := "<img".toList.drop q

/-- A matcher whose matches are the non-empty texts `g a`. -/
def Sound {α : Type} (m : Bool → Str → Option (α × Str)) (g : α → Str) : Prop :=
  ∀ b s a rest, m b s = some (a, rest) → s = g a ++ rest ∧ g a ≠ []

/-- The text matched by a header rule with group `t`. -/
def headerText (k : Nat) (t : Str) : Str := List.replicate k '#' ++ ' ' :: t

/-- The text matched by the bold rule with group `t`. -/
def boldText (t : Str) : Str := "**".toList ++ t ++ "**".toList

/-- The text matched by the italic rule with group `t`. -/
def italicText (t : Str) : Str := "*".toList ++ t ++ "*".toList

/-- A text no line-terminator-free prefix of which contains `)`: appended to another
text, it cannot complete an image reference begun there. -/
def Inert (y : Str) : Prop := ∀ y1 y2, y = y1 ++ y2 → NoLT y1 → ')' ∉ y1

/-- A text that is empty or starts with a line terminator. -/
def AtLineEnd (s : Str) : Prop := s = [] ∨ ∃ x r, s = x :: r ∧ isLineTerminator x = true

/-- The text before the leftmost image reference, that reference, and the text after it. -/
def splitFirstImage : Str → Option (Str × ImageRef × Str)
  | [] => none
  | c :: cs =>
    match matchImage true (c :: cs) with
    | some (r, rest) => some ([], r, rest)
    | none => (splitFirstImage cs).map (fun p => (c :: p.1, p.2.1, p.2.2))

/-- Whether the leftmost image reference stands directly between a `!` and a `[`, which
its removal joins. -/
def firstImageJoins (text : Str) : Bool :=
  match splitFirstImage text with
  | some (pre, _, post) => pre.getLast? == some '!' && post.head? == some '['
  | none => false

/-- The number of the chapter shown in the modal, if a chapter is shown. -/
def displayedNumber (s : Session) : Option Nat :=
  match s.modalContent with
  | View.chapter _ number _ => some number
  | _ => none

/-- A content source whose metadata requests fail. -/
def sourceFailing : ContentSource :=
  { fetchText := fun _ => some "Text".toList
    fetchJson := fun _ => none }

/-- Open the two-chapter book and let it load, then open a book whose metadata request
fails and let that load settle. -/
def failedAfterLoadTrace : List Event :=
  [Event.openBook bookFive sourceTwo [0, 1], Event.loadSettles 0,
   Event.openBook bookFive sourceFailing [], Event.loadSettles 0]

/-- Open a book whose metadata request fails and let that load settle. -/
def failedLoadTrace : List Event :=
  [Event.openBook bookFive sourceFailing [], Event.loadSettles 0]

/-- Go to the third chapter of the sample book, back to the overview, and press Start
Reading. -/
def startReadingTrace : List Event :=
  [Event.nextClick, Event.nextClick, Event.bookInfo, Event.startReading]

/-- The image element with the given attribute values, as the image rule writes it. -/
def imgElement (src alt : Str) : Str :=
  "<img src=\"".toList ++ src ++ "\" alt=\"".toList ++ alt ++
    "\" class=\"chapter-image\" onerror=\"this.onerror=null; this.style.display='none';\">".toList

/-- One step of an automaton that reads the tags of a text before the paragraph rule
has run: after `<` may follow `/` or the first character of `img`, `h1` to `h4`, `strong`
or `em`, and after `</` the first character of `h1` to `h4`, `strong` or `em`.  The states
are 0 (outside), 1 (after `<`) and 2 (after `</`); a text read this way has no `<p` and no
`</p`. -/
def markStep (q : Nat) (c : Char) : Option Nat :=
  match q with
  | 0 => if c = '<' then some 1 else some 0
  | 1 =>
    if c = '/' then some 2
    else if c = 'i' ∨ c = 'h' ∨ c = 's' ∨ c = 'e' then some 0
    else none
  | 2 => if c = 'h' ∨ c = 's' ∨ c = 'e' then some 0 else none
  | _ => none

/-- The automaton run over a text from state `q`: the final state, or `none` when some
character could not follow. -/
def markRun (q : Nat) : Str → Option Nat
  | [] => some q
  | c :: cs => (markStep q c).bind (fun q1 => markRun q1 cs)

/-- The paragraph rule: the call `html.replace(/\n\n/g, '</p><p>')`. -/
def paragraphs (s : Str) : Str :=
  replaceAll matchBlankLine (fun _ => "</p><p>".toList) s

/-- The last rule: the call `html.replace(/<p><\/p>/g, '')`. -/
def cleanup (s : Str) : Str :=
  replaceAll matchEmptyParagraph (fun _ => ([] : Str)) s

/-- The text with every underscore replaced by a space. -/
def spaced (s : Str) : Str :=
  s.map (fun c => if c = '_' then ' ' else c)

/-! # Properties -/

theorem stripPrefix_append (p r : Str) : stripPrefix p (p ++ r) = some r := by
  induction p with
  | nil => simp [stripPrefix]
  | cons x p ih => simp [stripPrefix, ih]

theorem stripPrefix_eq_some {p s r : Str} : stripPrefix p s = some r ↔ s = p ++ r := by
  constructor
  · induction p generalizing s with
    | nil => intro h; simp only [stripPrefix, Option.some.injEq] at h; simp [h]
    | cons x p ih =>
      cases s with
      | nil => simp [stripPrefix]
      | cons c cs =>
        simp only [stripPrefix]
        split
        · intro h; rename_i hxc; subst hxc; simp [ih h]
        · intro h; cases h
  · rintro rfl; exact stripPrefix_append p r

theorem stripPrefix_cons_ne {x c : Char} (p cs : Str) (h : c ≠ x) :
    stripPrefix (x :: p) (c :: cs) = none := by
  simp [stripPrefix, Ne.symm h]

theorem render_map_chr {α : Type} (f : α → Str) (a : Str) (segs : List (Seg α)) :
    render f (a.map Seg.chr ++ segs) = a ++ render f segs := by
  induction a with
  | nil => rfl
  | cons c a ih => simp [render, ih]

theorem render_map_chr_nil {α : Type} (f : α → Str) (a : Str) :
    render f (a.map (Seg.chr : Char → Seg α)) = a := by
  have := render_map_chr f a []
  simpa [render] using this

theorem scanGo_nil {α : Type} (m : Bool → Str → Option (α × Str)) (k : Nat) (b : Bool) :
    scanGo m k b [] = [] := by
  cases k <;> rfl

theorem scanGo_succ_cons {α : Type} (m : Bool → Str → Option (α × Str)) (k : Nat) (b : Bool)
    (c : Char) (cs : Str) : scanGo m (k + 1) b (c :: cs) = scanGo m k (isLineTerminator c) cs :=
  rfl

theorem scanGo_cons_none {α : Type} (m : Bool → Str → Option (α × Str)) (b : Bool)
    (c : Char) (cs : Str) (h : m b (c :: cs) = none) :
    scanGo m 0 b (c :: cs) = Seg.chr c :: scanGo m 0 (isLineTerminator c) cs := by
  simp only [scanGo, h]

theorem scanGo_cons_some {α : Type} (m : Bool → Str → Option (α × Str)) (b : Bool)
    (c : Char) (cs rest : Str) (a : α) (h : m b (c :: cs) = some (a, rest)) :
    scanGo m 0 b (c :: cs) =
      Seg.hit a :: scanGo m (cs.length - rest.length) (isLineTerminator c) cs := by
  simp only [scanGo, h]

theorem scanGo_skip {α : Type} (m : Bool → Str → Option (α × Str)) (p rest : Str) (b : Bool) :
    scanGo m p.length b (p ++ rest) = scanGo m 0 (bolAfter b p) rest := by
  induction p generalizing b with
  | nil => simp [bolAfter]
  | cons c p ih =>
    rw [List.cons_append, List.length_cons, scanGo_succ_cons, ih]
    simp [bolAfter]

theorem scanGo_hit {α : Type} (m : Bool → Str → Option (α × Str)) (b : Bool) (c : Char)
    (p rest : Str) (a : α) (h : m b (c :: (p ++ rest)) = some (a, rest)) :
    scanGo m 0 b (c :: (p ++ rest)) = Seg.hit a :: scanGo m 0 (bolAfter b (c :: p)) rest := by
  rw [scanGo_cons_some m b c _ rest a h]
  have : (p ++ rest).length - rest.length = p.length := by simp
  rw [this, scanGo_skip]
  simp [bolAfter]

theorem scanGo_append_of_not_mem {α : Type} {m : Bool → Str → Option (α × Str)} {x : Char}
    (hm : Trigger m x) (a rest : Str) (b : Bool) (ha : x ∉ a) :
    scanGo m 0 b (a ++ rest) = a.map Seg.chr ++ scanGo m 0 (bolAfter b a) rest := by
  induction a generalizing b with
  | nil => simp [bolAfter]
  | cons c a ih =>
    have hc : c ≠ x := fun h => ha (by simp [h])
    have hx : x ∉ a := fun h => ha (by simp [h])
    rw [List.cons_append, scanGo_cons_none m b c _ (hm b c (a ++ rest) hc), ih _ hx]
    simp [bolAfter]

theorem scanGo_of_not_mem {α : Type} {m : Bool → Str → Option (α × Str)} {x : Char}
    (hm : Trigger m x) (a : Str) (b : Bool) (ha : x ∉ a) :
    scanGo m 0 b a = a.map Seg.chr := by
  have := scanGo_append_of_not_mem hm a [] b ha
  simpa [scanGo] using this

theorem replaceAll_of_not_mem {α : Type} {m : Bool → Str → Option (α × Str)} {x : Char}
    (hm : Trigger m x) (f : α → Str) (s : Str) (hs : x ∉ s) : replaceAll m f s = s := by
  simp [replaceAll, scan, scanGo_of_not_mem hm s true hs, render_map_chr_nil]

theorem trigger_matchHeader (k : Nat) : Trigger (matchHeader (k + 1)) '#' := by
  intro bol c cs hc
  simp [matchHeader, List.replicate_succ, stripPrefix_cons_ne _ _ hc]

theorem trigger_matchImage : Trigger matchImage '!' := by
  intro bol c cs hc
  have : stripPrefix "![".toList (c :: cs) = none := stripPrefix_cons_ne _ _ hc
  simp only [matchImage, this, Option.none_bind]

theorem trigger_matchBold : Trigger matchBold '*' := by
  intro bol c cs hc
  have : stripPrefix "**".toList (c :: cs) = none := stripPrefix_cons_ne _ _ hc
  simp only [matchBold, this, Option.none_bind]

theorem trigger_matchItalic : Trigger matchItalic '*' := by
  intro bol c cs hc
  have : stripPrefix "*".toList (c :: cs) = none := stripPrefix_cons_ne _ _ hc
  simp only [matchItalic, this, Option.none_bind]

theorem trigger_matchBlankLine : Trigger matchBlankLine '\n' := by
  intro bol c cs hc
  have : stripPrefix "\n\n".toList (c :: cs) = none := stripPrefix_cons_ne _ _ hc
  simp only [matchBlankLine, this, Option.map_none']

theorem trigger_matchEmptyParagraph : Trigger matchEmptyParagraph '<' := by
  intro bol c cs hc
  have : stripPrefix "<p></p>".toList (c :: cs) = none := stripPrefix_cons_ne _ _ hc
  simp only [matchEmptyParagraph, this, Option.map_none']

theorem execImage_of_not_mem (s : Str) (hs : '!' ∉ s) : execImage s = none := by
  induction s with
  | nil => rfl
  | cons c cs ih =>
    have hc : c ≠ '!' := fun h => hs (by simp [h])
    have hx : '!' ∉ cs := fun h => hs (by simp [h])
    simp [execImage, trigger_matchImage true c cs hc, ih hx]

theorem removeFirstImage_of_not_mem (s : Str) (hs : '!' ∉ s) : removeFirstImage s = s := by
  simp [removeFirstImage, execImage_of_not_mem s hs]

theorem scanGo_bolFree {α : Type} {m : Bool → Str → Option (α × Str)} (hm : BolFree m)
    (k : Nat) (b b' : Bool) (s : Str) : scanGo m k b s = scanGo m k b' s := by
  induction s generalizing k b b' with
  | nil => simp [scanGo_nil]
  | cons c cs ih =>
    cases k with
    | succ k => simp [scanGo_succ_cons]
    | zero =>
      cases h : m b (c :: cs) with
      | none =>
        rw [scanGo_cons_none m b c cs h, scanGo_cons_none m b' c cs (hm b b' _ ▸ h)]
      | some p =>
        obtain ⟨a, rest⟩ := p
        rw [scanGo_cons_some m b c cs rest a h, scanGo_cons_some m b' c cs rest a (hm b b' _ ▸ h)]

theorem bolFree_matchImage : BolFree matchImage := fun _ _ _ => rfl
theorem bolFree_matchBold : BolFree matchBold := fun _ _ _ => rfl
theorem bolFree_matchItalic : BolFree matchItalic := fun _ _ _ => rfl
theorem bolFree_matchBlankLine : BolFree matchBlankLine := fun _ _ _ => rfl
theorem bolFree_matchEmptyParagraph : BolFree matchEmptyParagraph := fun _ _ _ => rfl

/-- Replacement over a prefix without the trigger character copies the prefix. -/
theorem render_scanGo_append {α : Type} {m : Bool → Str → Option (α × Str)} {x : Char}
    (hm : Trigger m x) (hb : BolFree m) (f : α → Str) (a s : Str) (b : Bool) (ha : x ∉ a) :
    render f (scanGo m 0 b (a ++ s)) = a ++ render f (scanGo m 0 true s) := by
  rw [scanGo_append_of_not_mem hm a s b ha, render_map_chr, scanGo_bolFree hb 0 _ true]

theorem render_scanGo_none {α : Type} {m : Bool → Str → Option (α × Str)}
    (hb : BolFree m) (f : α → Str) (c : Char) (cs : Str) (b : Bool) (h : m true (c :: cs) = none) :
    render f (scanGo m 0 b (c :: cs)) = c :: render f (scanGo m 0 true cs) := by
  rw [scanGo_cons_none m b c cs (hb true b _ ▸ h), scanGo_bolFree hb 0 _ true]
  rfl

theorem render_scanGo_hit {α : Type} {m : Bool → Str → Option (α × Str)}
    (hb : BolFree m) (f : α → Str) (c : Char) (p rest : Str) (a : α) (b : Bool)
    (h : m true (c :: (p ++ rest)) = some (a, rest)) :
    render f (scanGo m 0 b (c :: (p ++ rest))) = f a ++ render f (scanGo m 0 true rest) := by
  rw [scanGo_hit m b c p rest a (hb true b _ ▸ h), scanGo_bolFree hb 0 _ true]
  rfl

theorem plain_not_mem {s : Str} (h : Plain s) :
    '#' ∉ s ∧ '*' ∉ s ∧ '!' ∉ s ∧ '<' ∉ s ∧ '\n' ∉ s := by
  refine ⟨?_, ?_, ?_, ?_, ?_⟩ <;> intro hm <;> have := h _ hm <;> simp_all [isLineTerminator]

theorem takeWhile_append_lt (t rest : Str) (c : Char) (ht : ∀ x ∈ t, isLineTerminator x = false)
    (hc : isLineTerminator c = true) :
    (t ++ c :: rest).takeWhile (fun x => !isLineTerminator x) = t ∧
    (t ++ c :: rest).dropWhile (fun x => !isLineTerminator x) = c :: rest := by
  induction t with
  | nil => simp [List.takeWhile, List.dropWhile, hc]
  | cons y t ih =>
    have hy : isLineTerminator y = false := ht y (by simp)
    have := ih (fun x hx => ht x (by simp [hx]))
    simp [List.takeWhile, List.dropWhile, hy, this]

/-- Away from the start of a line the header rules copy the text up to the next line
terminator. -/
theorem scanGo_header_midline (j : Nat) (a rest : Str)
    (ha : ∀ x ∈ a, isLineTerminator x = false) :
    scanGo (matchHeader j) 0 false (a ++ rest) =
      a.map Seg.chr ++ scanGo (matchHeader j) 0 false rest := by
  induction a with
  | nil => simp
  | cons c a ih =>
    have hc : isLineTerminator c = false := ha c (by simp)
    rw [List.cons_append, scanGo_cons_none _ _ _ _ (by simp [matchHeader]), hc,
      ih (fun x hx => ha x (by simp [hx]))]
    simp

theorem replaceAll_header_other (j : Nat) (c : Char) (a rest : Str)
    (hc : isLineTerminator c = false) (ha : ∀ x ∈ a, isLineTerminator x = false)
    (hrest : '#' ∉ rest)
    (hno : matchHeader (j + 1) true (c :: (a ++ rest)) = none) :
    replaceAll (matchHeader (j + 1)) (headerTag (j + 1)) (c :: (a ++ rest)) = c :: (a ++ rest) := by
  unfold replaceAll scan
  rw [scanGo_cons_none _ _ _ _ hno, hc, scanGo_header_midline _ _ _ ha,
    scanGo_of_not_mem (trigger_matchHeader j) rest false hrest]
  simp [render, render_map_chr, render_map_chr_nil]

theorem replaceAll_header_same (k : Nat) (T rest : Str) (c : Char)
    (hT : ∀ x ∈ T, isLineTerminator x = false) (hc : isLineTerminator c = true)
    (hrest : '#' ∉ c :: rest) :
    replaceAll (matchHeader (k + 1)) (headerTag (k + 1))
        ('#' :: ((List.replicate k '#' ++ ' ' :: T) ++ c :: rest)) =
      headerTag (k + 1) T ++ c :: rest := by
  have hm : matchHeader (k + 1) true ('#' :: ((List.replicate k '#' ++ ' ' :: T) ++ c :: rest))
      = some (T, c :: rest) := by
    have hs : stripPrefix (List.replicate (k + 1) '#' ++ [' '])
        ('#' :: ((List.replicate k '#' ++ ' ' :: T) ++ c :: rest)) = some (T ++ c :: rest) := by
      rw [stripPrefix_eq_some]; simp [List.replicate_succ]
    have := takeWhile_append_lt T rest c hT hc
    simp only [matchHeader, hs, if_true, Option.map_some', this.1, this.2]
  unfold replaceAll scan
  rw [scanGo_hit _ _ _ _ _ _ hm, scanGo_of_not_mem (trigger_matchHeader k) _ _ hrest]
  simp [render, render_map_chr_nil]

theorem headerTag_one (t : Str) :
    headerTag 1 t = "<h1>".toList ++ t ++ "</h1>".toList := by
  have h : (Nat.repr 1).toList = ['1'] := by decide
  unfold headerTag
  rw [h]
  simp
theorem headerTag_two (t : Str) :
    headerTag 2 t = "<h2>".toList ++ t ++ "</h2>".toList := by
  have h : (Nat.repr 2).toList = ['2'] := by decide
  unfold headerTag
  rw [h]
  simp
theorem headerTag_three (t : Str) :
    headerTag 3 t = "<h3>".toList ++ t ++ "</h3>".toList := by
  have h : (Nat.repr 3).toList = ['3'] := by decide
  unfold headerTag
  rw [h]
  simp
theorem headerTag_four (t : Str) :
    headerTag 4 t = "<h4>".toList ++ t ++ "</h4>".toList := by
  have h : (Nat.repr 4).toList = ['4'] := by decide
  unfold headerTag
  rw [h]
  simp

theorem convertHeaders_heading (k : Nat) (T B : Str) (hk : 1 ≤ k ∧ k ≤ 4)
    (hT : Plain T) (hB : Plain B) :
    convertHeaders ((List.replicate k '#' ++ ' ' :: T) ++ '\n' :: '\n' :: B) =
      headerTag k T ++ '\n' :: '\n' :: B := by
  have hTl : ∀ x ∈ T, isLineTerminator x = false := fun x hx => (hT x hx).1
  have hB' := (plain_not_mem hB).1
  have hT' := (plain_not_mem hT).1
  have hrest : '#' ∉ '\n' :: '\n' :: B := by simp [hB']
  have hnl : isLineTerminator '\n' = true := by decide
  have htag : ∀ j, 1 ≤ j ∧ j ≤ 4 → '#' ∉ headerTag j T ++ '\n' :: '\n' :: B := by
    intro j hj
    obtain ⟨h1, h2⟩ := hj
    interval_cases j <;> simp [headerTag_one, headerTag_two, headerTag_three, headerTag_four, hT', hB']
  have hline : ∀ n, ∀ x ∈ List.replicate n '#' ++ ' ' :: T, isLineTerminator x = false := by
    intro n x hx
    simp only [List.mem_append, List.mem_replicate, List.mem_cons] at hx
    rcases hx with ⟨_, rfl⟩ | rfl | hx
    · decide
    · decide
    · exact hTl x hx
  obtain ⟨h1, h2⟩ := hk
  unfold convertHeaders
  interval_cases k
  · have e := replaceAll_header_same 0 T ('\n' :: B) '\n' hTl hnl hrest
    simp only [List.replicate, List.nil_append, List.cons_append, Nat.zero_add] at e ⊢
    rw [e]
    rw [replaceAll_of_not_mem (trigger_matchHeader 1) _ _ (htag 1 (by omega)),
      replaceAll_of_not_mem (trigger_matchHeader 2) _ _ (htag 1 (by omega)),
      replaceAll_of_not_mem (trigger_matchHeader 3) _ _ (htag 1 (by omega))]
  · have e := replaceAll_header_same 1 T ('\n' :: B) '\n' hTl hnl hrest
    have o1 := replaceAll_header_other 0 '#' (List.replicate 1 '#' ++ ' ' :: T) ('\n' :: '\n' :: B)
      (by decide) (hline 1) hrest (by simp [matchHeader, stripPrefix, List.replicate])
    simp only [List.replicate, List.nil_append, List.cons_append, Nat.zero_add] at e o1 ⊢
    rw [o1, e]
    rw [replaceAll_of_not_mem (trigger_matchHeader 2) _ _ (htag 2 (by omega)),
      replaceAll_of_not_mem (trigger_matchHeader 3) _ _ (htag 2 (by omega))]
  · have e := replaceAll_header_same 2 T ('\n' :: B) '\n' hTl hnl hrest
    have o1 := replaceAll_header_other 0 '#' (List.replicate 2 '#' ++ ' ' :: T) ('\n' :: '\n' :: B)
      (by decide) (hline 2) hrest (by simp [matchHeader, stripPrefix, List.replicate])
    have o2 := replaceAll_header_other 1 '#' (List.replicate 2 '#' ++ ' ' :: T) ('\n' :: '\n' :: B)
      (by decide) (hline 2) hrest (by simp [matchHeader, stripPrefix, List.replicate])
    simp only [List.replicate, List.nil_append, List.cons_append, Nat.zero_add] at e o1 o2 ⊢
    rw [o1, o2, e]
    rw [replaceAll_of_not_mem (trigger_matchHeader 3) _ _ (htag 3 (by omega))]
  · have e := replaceAll_header_same 3 T ('\n' :: B) '\n' hTl hnl hrest
    have o1 := replaceAll_header_other 0 '#' (List.replicate 3 '#' ++ ' ' :: T) ('\n' :: '\n' :: B)
      (by decide) (hline 3) hrest (by simp [matchHeader, stripPrefix, List.replicate])
    have o2 := replaceAll_header_other 1 '#' (List.replicate 3 '#' ++ ' ' :: T) ('\n' :: '\n' :: B)
      (by decide) (hline 3) hrest (by simp [matchHeader, stripPrefix, List.replicate])
    have o3 := replaceAll_header_other 2 '#' (List.replicate 3 '#' ++ ' ' :: T) ('\n' :: '\n' :: B)
      (by decide) (hline 3) hrest (by simp [matchHeader, stripPrefix, List.replicate])
    simp only [List.replicate, List.nil_append, List.cons_append, Nat.zero_add] at e o1 o2 o3 ⊢
    rw [o1, o2, o3, e]

theorem matchEmptyParagraph_none_of_second (b : Bool) (c : Char) (cs : Str) (h : c ≠ 'p') :
    matchEmptyParagraph b ('<' :: c :: cs) = none := by
  simp [matchEmptyParagraph, stripPrefix, Ne.symm h]

/-- The clean-up rule copies a plain stretch of text. -/
theorem cleanup_plain (f : Unit → Str) (a s : Str) (b : Bool) (ha : '<' ∉ a) :
    render f (scanGo matchEmptyParagraph 0 b (a ++ s)) =
      a ++ render f (scanGo matchEmptyParagraph 0 true s) :=
  render_scanGo_append trigger_matchEmptyParagraph bolFree_matchEmptyParagraph f a s b ha

/-- The clean-up rule copies a character at which `<p></p>` does not start. -/
theorem cleanup_char (f : Unit → Str) (c : Char) (cs : Str) (b : Bool)
    (h : matchEmptyParagraph true (c :: cs) = none) :
    render f (scanGo matchEmptyParagraph 0 b (c :: cs)) =
      c :: render f (scanGo matchEmptyParagraph 0 true cs) :=
  render_scanGo_none bolFree_matchEmptyParagraph f c cs b h

theorem render_scanGo_nil {α : Type} (m : Bool → Str → Option (α × Str)) (f : α → Str) (b : Bool) :
    render f (scanGo m 0 b []) = [] := rfl

theorem replaceAll_blankLine_once (f : Unit → Str) (X B : Str) (hX : '\n' ∉ X) (hB : '\n' ∉ B) :
    replaceAll matchBlankLine f (X ++ '\n' :: '\n' :: B) = X ++ f () ++ B := by
  have hbl : matchBlankLine true ('\n' :: (['\n'] ++ B)) = some ((), B) := rfl
  unfold replaceAll scan
  rw [render_scanGo_append trigger_matchBlankLine bolFree_matchBlankLine f X _ true hX,
    show '\n' :: '\n' :: B = '\n' :: (['\n'] ++ B) from rfl,
    render_scanGo_hit bolFree_matchBlankLine f '\n' ['\n'] B () true hbl,
    scanGo_of_not_mem trigger_matchBlankLine B true hB, render_map_chr_nil]
  simp

theorem lazyUntil_of_not_mem (x : Char) (l s : Str) (hs : x ∉ s) :
    lazyUntil (x :: l) s = none := by
  induction s with
  | nil => simp [lazyUntil, stripPrefix]
  | cons c cs ih =>
    have hc : c ≠ x := fun h => hs (by simp [h])
    have hx : x ∉ cs := fun h => hs (by simp [h])
    simp [lazyUntil, stripPrefix_cons_ne _ _ hc, ih hx]

theorem lazyUntil_append (x : Char) (l g r : Str) (hg : x ∉ g)
    (hlt : ∀ c ∈ g, isLineTerminator c = false) :
    lazyUntil (x :: l) (g ++ (x :: l) ++ r) = some (g, r) := by
  induction g with
  | nil =>
    have : stripPrefix (x :: l) (x :: (l ++ r)) = some r := by
      simpa using stripPrefix_append (x :: l) r
    simp [lazyUntil, this]
  | cons c g ih =>
    have hc : c ≠ x := fun h => hg (by simp [h])
    have hx : x ∉ g := fun h => hg (by simp [h])
    have hl : isLineTerminator c = false := hlt c (by simp)
    have ih' := ih hx (fun y hy => hlt y (by simp [hy]))
    simp only [List.append_assoc, List.cons_append] at ih'
    simp [lazyUntil, stripPrefix_cons_ne _ _ hc, hl, ih']

/-- Claim C2: for a heading level `k` from 1 to 4, a title `T` and a non-empty body `B`
without line terminators and without `#`, `*`, `!`, `<`, the text made of `k` hashes, a
space, `T`, a blank line and `B` renders to `<p><hk>T</hk></p><p>B</p>`: a heading of
level `k` (level 4 for four hashes, never level 1) followed by the paragraph `B`. -/
theorem C2_heading_then_paragraph (d : Option BookDetails) (k : Nat) (T B : Str)
    (hk : 1 ≤ k ∧ k ≤ 4) (hT : Plain T) (hB : Plain B) (hne : B ≠ []) :
    convertMarkdownToHTML d ((List.replicate k '#' ++ ' ' :: T) ++ "\n\n".toList ++ B) =
      "<p><h".toList ++ (Nat.repr k).toList ++ ">".toList ++ T ++ "</h".toList ++
        (Nat.repr k).toList ++ "></p><p>".toList ++ B ++ "</p>".toList := by
  obtain ⟨hT1, hT2, hT3, hT4, hT5⟩ := plain_not_mem hT
  obtain ⟨hB1, hB2, hB3, hB4, hB5⟩ := plain_not_mem hB
  have htext : (List.replicate k '#' ++ ' ' :: T) ++ "\n\n".toList ++ B =
      (List.replicate k '#' ++ ' ' :: T) ++ '\n' :: '\n' :: B := by simp
  have hbang : '!' ∉ (List.replicate k '#' ++ ' ' :: T) ++ '\n' :: '\n' :: B := by
    simp [hT3, hB3, List.mem_replicate]
  have hd : (Nat.repr 1).toList = ['1'] ∧ (Nat.repr 2).toList = ['2'] ∧
    (Nat.repr 3).toList = ['3'] ∧ (Nat.repr 4).toList = ['4'] := by decide
  unfold convertMarkdownToHTML
  simp only []
  rw [htext, removeFirstImage_of_not_mem _ hbang, convertHeaders_heading k T _ hk hT hB]
  obtain ⟨b0, B', rfl⟩ := List.exists_cons_of_ne_nil hne
  have hb0 : b0 ≠ '<' := fun h => hB4 (by simp [h])
  have hB'4 : '<' ∉ B' := fun h => hB4 (by simp [h])
  obtain ⟨h1, h2⟩ := hk
  interval_cases k
  · rw [headerTag_one, hd.1,
      replaceAll_of_not_mem trigger_matchImage _ _ (by simp [hT3, hB3]),
      replaceAll_of_not_mem trigger_matchBold _ _ (by simp [hT2, hB2]),
      replaceAll_of_not_mem trigger_matchItalic _ _ (by simp [hT2, hB2]),
      replaceAll_blankLine_once _ _ _ (by simp [hT5]) hB5]
    simp [replaceAll, scan, cleanup_plain, cleanup_char, hT4, hB'4, hb0, Ne.symm hb0,
      matchEmptyParagraph, stripPrefix, render_scanGo_nil]
  · rw [headerTag_two, hd.2.1,
      replaceAll_of_not_mem trigger_matchImage _ _ (by simp [hT3, hB3]),
      replaceAll_of_not_mem trigger_matchBold _ _ (by simp [hT2, hB2]),
      replaceAll_of_not_mem trigger_matchItalic _ _ (by simp [hT2, hB2]),
      replaceAll_blankLine_once _ _ _ (by simp [hT5]) hB5]
    simp [replaceAll, scan, cleanup_plain, cleanup_char, hT4, hB'4, hb0, Ne.symm hb0,
      matchEmptyParagraph, stripPrefix, render_scanGo_nil]
  · rw [headerTag_three, hd.2.2.1,
      replaceAll_of_not_mem trigger_matchImage _ _ (by simp [hT3, hB3]),
      replaceAll_of_not_mem trigger_matchBold _ _ (by simp [hT2, hB2]),
      replaceAll_of_not_mem trigger_matchItalic _ _ (by simp [hT2, hB2]),
      replaceAll_blankLine_once _ _ _ (by simp [hT5]) hB5]
    simp [replaceAll, scan, cleanup_plain, cleanup_char, hT4, hB'4, hb0, Ne.symm hb0,
      matchEmptyParagraph, stripPrefix, render_scanGo_nil]
  · rw [headerTag_four, hd.2.2.2,
      replaceAll_of_not_mem trigger_matchImage _ _ (by simp [hT3, hB3]),
      replaceAll_of_not_mem trigger_matchBold _ _ (by simp [hT2, hB2]),
      replaceAll_of_not_mem trigger_matchItalic _ _ (by simp [hT2, hB2]),
      replaceAll_blankLine_once _ _ _ (by simp [hT5]) hB5]
    simp [replaceAll, scan, cleanup_plain, cleanup_char, hT4, hB'4, hb0, Ne.symm hb0,
      matchEmptyParagraph, stripPrefix, render_scanGo_nil]

/-- Claim C2 at `# Title`, blank line, `Body text`. -/
theorem C2_heading_then_paragraph_witness :
    (1 ≤ 1 ∧ 1 ≤ 4) ∧ Plain "Title".toList ∧ Plain "Body text".toList ∧
      "Body text".toList ≠ [] ∧
      convertMarkdownToHTML none "# Title\n\nBody text".toList =
        "<p><h1>Title</h1></p><p>Body text</p>".toList :=
  ⟨by decide, by decide, by decide, by decide,
    C2_heading_then_paragraph none 1 "Title".toList "Body text".toList (by decide) (by decide)
      (by decide) (by decide)⟩

theorem plain_lt {s : Str} (h : Plain s) : ∀ c ∈ s, isLineTerminator c = false :=
  fun c hc => (h c hc).1

theorem convertHeaders_of_not_mem (s : Str) (hs : '#' ∉ s) : convertHeaders s = s := by
  unfold convertHeaders
  rw [replaceAll_of_not_mem (trigger_matchHeader 0) _ _ hs,
    replaceAll_of_not_mem (trigger_matchHeader 1) _ _ hs,
    replaceAll_of_not_mem (trigger_matchHeader 2) _ _ hs,
    replaceAll_of_not_mem (trigger_matchHeader 3) _ _ hs]

/-- No bold span starts at an asterisk followed by asterisk-free text and one asterisk. -/
theorem matchBold_none_single (b : Str) (hb : '*' ∉ b) :
    matchBold true ('*' :: (b ++ ['*'])) = none := by
  cases b with
  | nil => simp [matchBold, stripPrefix, lazyUntil]
  | cons c bs =>
    have hc : c ≠ '*' := fun h => hb (by simp [h])
    simp [matchBold, stripPrefix, Ne.symm hc]

theorem bold_stage_pair (a b : Str) (ha : Plain a) (hb : Plain b) :
    replaceAll matchBold (fun t => "<strong>".toList ++ t ++ "</strong>".toList)
        ("**".toList ++ a ++ "** and *".toList ++ b ++ "*".toList) =
      "<strong>".toList ++ a ++ "</strong> and *".toList ++ b ++ "*".toList := by
  obtain ⟨-, ha2, -, -, -⟩ := plain_not_mem ha
  obtain ⟨-, hb2, -, -, -⟩ := plain_not_mem hb
  have hm : matchBold true ('*' :: (('*' :: a ++ "**".toList) ++ (" and *".toList ++ b ++ "*".toList)))
      = some (a, " and *".toList ++ b ++ "*".toList) := by
    have h1 : stripPrefix "**".toList
        ('*' :: (('*' :: a ++ "**".toList) ++ (" and *".toList ++ b ++ "*".toList))) =
        some (a ++ "**".toList ++ (" and *".toList ++ b ++ "*".toList)) := by
      rw [stripPrefix_eq_some]; simp
    have h2 := lazyUntil_append '*' ['*'] a (" and *".toList ++ b ++ "*".toList) ha2 (plain_lt ha)
    simp only [matchBold, h1, Option.some_bind]
    exact h2
  have htext : "**".toList ++ a ++ "** and *".toList ++ b ++ "*".toList =
      '*' :: (('*' :: a ++ "**".toList) ++ (" and *".toList ++ b ++ "*".toList)) := by simp
  have hrest : " and *".toList ++ b ++ "*".toList = " and ".toList ++ ('*' :: (b ++ ['*'])) := by
    simp
  unfold replaceAll scan
  rw [htext, render_scanGo_hit bolFree_matchBold _ _ _ _ _ _ hm, hrest,
    render_scanGo_append trigger_matchBold bolFree_matchBold _ _ _ _ (by decide),
    render_scanGo_none bolFree_matchBold _ _ _ _ (matchBold_none_single b hb2),
    render_scanGo_append trigger_matchBold bolFree_matchBold _ _ _ _ hb2,
    render_scanGo_none bolFree_matchBold _ _ _ _ (by decide)]
  simp [render_scanGo_nil]

theorem italic_stage_pair (a b : Str) (ha : Plain a) (hb : Plain b) :
    replaceAll matchItalic (fun t => "<em>".toList ++ t ++ "</em>".toList)
        ("<strong>".toList ++ a ++ "</strong> and *".toList ++ b ++ "*".toList) =
      "<strong>".toList ++ a ++ "</strong> and <em>".toList ++ b ++ "</em>".toList := by
  obtain ⟨-, ha2, -, -, -⟩ := plain_not_mem ha
  obtain ⟨-, hb2, -, -, -⟩ := plain_not_mem hb
  have hm : matchItalic true ('*' :: ((b ++ "*".toList) ++ [])) = some (b, []) := by
    have h1 : stripPrefix "*".toList ('*' :: ((b ++ "*".toList) ++ [])) =
        some (b ++ "*".toList ++ []) := by
      rw [stripPrefix_eq_some]; simp
    have h2 := lazyUntil_append '*' [] b [] hb2 (plain_lt hb)
    simp only [matchItalic, h1, Option.some_bind]
    exact h2
  have htext : "<strong>".toList ++ a ++ "</strong> and *".toList ++ b ++ "*".toList =
      ("<strong>".toList ++ a ++ "</strong> and ".toList) ++ ('*' :: ((b ++ "*".toList) ++ [])) := by
    simp
  unfold replaceAll scan
  rw [htext, render_scanGo_append trigger_matchItalic bolFree_matchItalic _ _ _ _
      (by simp [ha2]),
    render_scanGo_hit bolFree_matchItalic _ _ _ _ _ _ hm]
  simp [render_scanGo_nil]

/-- Claim C3: for `a` and `b` without line terminators and without `*`, `#`, `!`, `<`,
the text `**a** and *b*` renders to `<p><strong>a</strong> and <em>b</em></p>`: one bold
span holding `a`, one italic span holding `b`, neither inside the other, no asterisk left. -/
theorem C3_bold_and_italic (d : Option BookDetails) (a b : Str) (ha : Plain a) (hb : Plain b) :
    convertMarkdownToHTML d ("**".toList ++ a ++ "** and *".toList ++ b ++ "*".toList) =
      "<p><strong>".toList ++ a ++ "</strong> and <em>".toList ++ b ++ "</em></p>".toList := by
  obtain ⟨ha1, ha2, ha3, ha4, ha5⟩ := plain_not_mem ha
  obtain ⟨hb1, hb2, hb3, hb4, hb5⟩ := plain_not_mem hb
  unfold convertMarkdownToHTML
  simp only []
  rw [removeFirstImage_of_not_mem _ (by simp [ha3, hb3]),
    convertHeaders_of_not_mem _ (by simp [ha1, hb1]),
    replaceAll_of_not_mem trigger_matchImage _ _ (by simp [ha3, hb3]),
    bold_stage_pair a b ha hb, italic_stage_pair a b ha hb,
    replaceAll_of_not_mem trigger_matchBlankLine _ _ (by simp [ha5, hb5])]
  simp [replaceAll, scan, cleanup_plain, cleanup_char, ha4, hb4,
    matchEmptyParagraph, stripPrefix, render_scanGo_nil]

/-- Claim C3 at `**bold** and *italic*`. -/
theorem C3_bold_and_italic_witness :
    Plain "bold".toList ∧ Plain "italic".toList ∧
      convertMarkdownToHTML none "**bold** and *italic*".toList =
        "<p><strong>bold</strong> and <em>italic</em></p>".toList :=
  ⟨by decide, by decide, C3_bold_and_italic none "bold".toList "italic".toList (by decide) (by decide)⟩

theorem matchBold_none_open (t : Str) (ht : '*' ∉ t) : matchBold true ('*' :: t) = none := by
  cases t with
  | nil => simp [matchBold, stripPrefix]
  | cons c cs =>
    have hc : c ≠ '*' := fun h => ht (by simp [h])
    simp [matchBold, stripPrefix, Ne.symm hc]

theorem matchBold_none_open2 (t : Str) (ht : '*' ∉ t) :
    matchBold true ('*' :: '*' :: t) = none := by
  have h1 : stripPrefix "**".toList ('*' :: '*' :: t) = some t := by
    rw [stripPrefix_eq_some]; simp
  simp only [matchBold, h1, Option.some_bind]
  exact lazyUntil_of_not_mem '*' ['*'] t ht

theorem matchItalic_none_open (t : Str) (ht : '*' ∉ t) : matchItalic true ('*' :: t) = none := by
  have h1 : stripPrefix "*".toList ('*' :: t) = some t := by
    rw [stripPrefix_eq_some]; simp
  simp only [matchItalic, h1, Option.some_bind]
  exact lazyUntil_of_not_mem '*' [] t ht

theorem matchItalic_empty (t : Str) : matchItalic true ('*' :: (['*'] ++ t)) = some ([], t) := by
  simp [matchItalic, stripPrefix, lazyUntil]

/-- An opening `**` without a closing pair is not left in the output: the italic rule
turns it into an empty italic span. -/
theorem convert_open_bold (d : Option BookDetails) (t : Str) (ht : Plain t) :
    convertMarkdownToHTML d ("**".toList ++ t) = "<p><em></em>".toList ++ t ++ "</p>".toList := by
  obtain ⟨h1, h2, h3, h4, h5⟩ := plain_not_mem ht
  have hbold : replaceAll matchBold (fun t => "<strong>".toList ++ t ++ "</strong>".toList)
      ("**".toList ++ t) = "**".toList ++ t := by
    unfold replaceAll scan
    rw [show "**".toList ++ t = '*' :: '*' :: t from rfl,
      render_scanGo_none bolFree_matchBold _ _ _ _ (matchBold_none_open2 t h2),
      render_scanGo_none bolFree_matchBold _ _ _ _ (matchBold_none_open t h2),
      scanGo_of_not_mem trigger_matchBold t true h2, render_map_chr_nil]
  have hital : replaceAll matchItalic (fun t => "<em>".toList ++ t ++ "</em>".toList)
      ("**".toList ++ t) = "<em></em>".toList ++ t := by
    unfold replaceAll scan
    rw [show "**".toList ++ t = '*' :: (['*'] ++ t) from rfl,
      render_scanGo_hit bolFree_matchItalic _ _ _ _ _ _ (matchItalic_empty t),
      scanGo_of_not_mem trigger_matchItalic t true h2, render_map_chr_nil]
    simp
  unfold convertMarkdownToHTML
  simp only []
  rw [removeFirstImage_of_not_mem _ (by simp [h3]),
    convertHeaders_of_not_mem _ (by simp [h1]),
    replaceAll_of_not_mem trigger_matchImage _ _ (by simp [h3]),
    hbold, hital,
    replaceAll_of_not_mem trigger_matchBlankLine _ _ (by simp [h5])]
  simp [replaceAll, scan, cleanup_plain, cleanup_char, h4,
    matchEmptyParagraph, stripPrefix, render_scanGo_nil]

theorem convert_open_italic (d : Option BookDetails) (t : Str) (ht : Plain t) :
    convertMarkdownToHTML d ("*".toList ++ t) = "<p>*".toList ++ t ++ "</p>".toList := by
  obtain ⟨h1, h2, h3, h4, h5⟩ := plain_not_mem ht
  have hbold : replaceAll matchBold (fun t => "<strong>".toList ++ t ++ "</strong>".toList)
      ("*".toList ++ t) = "*".toList ++ t := by
    unfold replaceAll scan
    rw [show "*".toList ++ t = '*' :: t from rfl,
      render_scanGo_none bolFree_matchBold _ _ _ _ (matchBold_none_open t h2),
      scanGo_of_not_mem trigger_matchBold t true h2, render_map_chr_nil]
  have hital : replaceAll matchItalic (fun t => "<em>".toList ++ t ++ "</em>".toList)
      ("*".toList ++ t) = "*".toList ++ t := by
    unfold replaceAll scan
    rw [show "*".toList ++ t = '*' :: t from rfl,
      render_scanGo_none bolFree_matchItalic _ _ _ _ (matchItalic_none_open t h2),
      scanGo_of_not_mem trigger_matchItalic t true h2, render_map_chr_nil]
  unfold convertMarkdownToHTML
  simp only []
  rw [removeFirstImage_of_not_mem _ (by simp [h3]),
    convertHeaders_of_not_mem _ (by simp [h1]),
    replaceAll_of_not_mem trigger_matchImage _ _ (by simp [h3]),
    hbold, hital,
    replaceAll_of_not_mem trigger_matchBlankLine _ _ (by simp [h5])]
  simp [replaceAll, scan, cleanup_plain, cleanup_char, h4,
    matchEmptyParagraph, stripPrefix, render_scanGo_nil]

/-- Claim C10, as amended: for `t` without line terminators and without `*`, `#`, `!`,
`<`, an opening `*` without a closing one stays in the output, `<p>*t</p>`, while an
opening `**` without a closing pair produces no bold span but is consumed by the italic
rule as an empty italic span, `<p><em></em>t</p>`. -/
theorem C10_unbalanced_emphasis (d : Option BookDetails) (t : Str) (ht : Plain t) :
    convertMarkdownToHTML d ("*".toList ++ t) = "<p>*".toList ++ t ++ "</p>".toList ∧
    convertMarkdownToHTML d ("**".toList ++ t) = "<p><em></em>".toList ++ t ++ "</p>".toList :=
  ⟨convert_open_italic d t ht, convert_open_bold d t ht⟩

/-- Claim C10, as amended, at `*text` and `**text`. -/
theorem C10_unbalanced_emphasis_witness :
    Plain "text".toList ∧
      convertMarkdownToHTML none "*text".toList = "<p>*text</p>".toList ∧
      convertMarkdownToHTML none "**text".toList = "<p><em></em>text</p>".toList :=
  ⟨by decide, C10_unbalanced_emphasis none "text".toList (by decide)⟩

/-- Claim C10 as stated fails at `**t`: the output is not `<p>**t</p>`. -/
theorem C10_open_bold_not_literal :
    Plain "t".toList ∧
      convertMarkdownToHTML none ("**".toList ++ "t".toList) ≠ "<p>**".toList ++ "t".toList ++ "</p>".toList := by
  decide

theorem displayChapter_index (s : Session) (ch : Option Chapter) :
    ((displayChapter s ch).andThen updateChapterNav).state.currentChapterIndex =
      s.currentChapterIndex := by
  cases ch <;> rfl

theorem displayChapter_details (s : Session) (ch : Option Chapter) :
    ((displayChapter s ch).andThen updateChapterNav).state.currentBookDetails =
      s.currentBookDetails := by
  cases ch <;> rfl

theorem prevChapterClick_index (s : Session) (d : BookDetails)
    (hd : s.currentBookDetails = some d) :
    (prevChapterClick s).state.currentChapterIndex = s.currentChapterIndex - 1 := by
  unfold prevChapterClick
  by_cases h : s.currentChapterIndex > 0
  · simp only [h, if_true, hd]
    rw [displayChapter_index]
  · simp only [h, if_false]
    omega

theorem nextChapterClick_index (s : Session) (d : BookDetails)
    (hd : s.currentBookDetails = some d) :
    (nextChapterClick s).state.currentChapterIndex =
      if s.currentChapterIndex + 1 < d.chapters.length then s.currentChapterIndex + 1
      else s.currentChapterIndex := by
  unfold nextChapterClick
  simp only [hd]
  by_cases h : s.currentChapterIndex + 1 < d.chapters.length
  · have h' : (s.currentChapterIndex : Int) < (d.chapters.length : Int) - 1 := by omega
    simp only [h', h, if_true]
    rw [displayChapter_index]
  · have h' : ¬ (s.currentChapterIndex : Int) < (d.chapters.length : Int) - 1 := by omega
    simp only [h', h, if_false]

theorem keydown_arrowLeft (s : Session) (h : s.modalDisplayBlock = true) :
    keydown s Key.arrowLeft = prevChapterClick s := by
  simp [keydown, prevChapterClick, h]

theorem keydown_arrowRight (s : Session) (h : s.modalDisplayBlock = true) :
    keydown s Key.arrowRight = nextChapterClick s := by
  simp [keydown, nextChapterClick, h]

/-- Claim C4, as amended: with a book of `n` chapters open at chapter index `i < n` (so
`n ≥ 1`), the previous-chapter button leaves the index at `max (i - 1) 0` and the
next-chapter button at `min (i + 1) (n - 1)`: no move past the first or last chapter, and
no wrapping.  The keys ArrowLeft and ArrowRight do the same while the modal is displayed;
once the modal is hidden the keydown listener does nothing for any key. -/
theorem C4_navigation_clamped (s : Session) (d : BookDetails)
    (hd : s.currentBookDetails = some d) (hi : s.currentChapterIndex < d.chapters.length) :
    ((prevChapterClick s).state.currentChapterIndex : Int) =
        max ((s.currentChapterIndex : Int) - 1) 0 ∧
    ((nextChapterClick s).state.currentChapterIndex : Int) =
        min ((s.currentChapterIndex : Int) + 1) ((d.chapters.length : Int) - 1) ∧
    (s.modalDisplayBlock = true →
      ((keydown s Key.arrowLeft).state.currentChapterIndex : Int) =
          max ((s.currentChapterIndex : Int) - 1) 0 ∧
      ((keydown s Key.arrowRight).state.currentChapterIndex : Int) =
          min ((s.currentChapterIndex : Int) + 1) ((d.chapters.length : Int) - 1)) ∧
    (s.modalDisplayBlock = false → ∀ k, keydown s k = { state := s, error := none }) := by
  have hp := prevChapterClick_index s d hd
  have hx := nextChapterClick_index s d hd
  have e1 : ((prevChapterClick s).state.currentChapterIndex : Int) =
      max ((s.currentChapterIndex : Int) - 1) 0 := by
    rw [hp]; omega
  have e2 : ((nextChapterClick s).state.currentChapterIndex : Int) =
      min ((s.currentChapterIndex : Int) + 1) ((d.chapters.length : Int) - 1) := by
    rw [hx]; split <;> omega
  refine ⟨e1, e2, fun hm => ?_, fun hm k => by simp [keydown, hm]⟩
  rw [keydown_arrowLeft s hm, keydown_arrowRight s hm]
  exact ⟨e1, e2⟩

/-- Claim C4 on a book of five chapters opened at index 0: the previous-chapter handler
leaves the index at 0, and four next-chapter steps followed by a fifth leave it at 4, by
the button and by the key; after the modal is closed and hidden the key ArrowRight leaves
the session as it is. -/
theorem C4_navigation_clamped_witness :
    (run sampleSession [Event.prevClick]).currentChapterIndex = 0 ∧
    (run sampleSession [Event.nextClick, Event.nextClick, Event.nextClick,
      Event.nextClick]).currentChapterIndex = 4 ∧
    (run sampleSession [Event.nextClick, Event.nextClick, Event.nextClick,
      Event.nextClick, Event.nextClick]).currentChapterIndex = 4 ∧
    (run sampleSession [Event.key Key.arrowRight, Event.key Key.arrowRight,
      Event.key Key.arrowRight, Event.key Key.arrowRight,
      Event.key Key.arrowRight]).currentChapterIndex = 4 ∧
    ((prevChapterClick sampleSession).state.currentChapterIndex : Int) = max ((0 : Int) - 1) 0 ∧
    ((nextChapterClick sampleSession).state.currentChapterIndex : Int) =
      min ((0 : Int) + 1) ((5 : Int) - 1) ∧
    (((keydown sampleSession Key.arrowLeft).state.currentChapterIndex : Int) =
        max ((0 : Int) - 1) 0 ∧
      ((keydown sampleSession Key.arrowRight).state.currentChapterIndex : Int) =
        min ((0 : Int) + 1) ((5 : Int) - 1)) ∧
    keydown (run sampleSession [Event.close, Event.hideTimer]) Key.arrowRight =
      { state := run sampleSession [Event.close, Event.hideTimer], error := none } :=
  ⟨by decide, by decide, by decide, by decide,
    (C4_navigation_clamped sampleSession sampleDetails rfl (by decide)).1,
    (C4_navigation_clamped sampleSession sampleDetails rfl (by decide)).2.1,
    (C4_navigation_clamped sampleSession sampleDetails rfl (by decide)).2.2.1 rfl,
    (C4_navigation_clamped (run sampleSession [Event.close, Event.hideTimer]) sampleDetails rfl
      (by decide)).2.2.2 rfl Key.arrowRight⟩

theorem getProp_setProp_same (o : Bookmarks) (key : Str) (v : List Nat) :
    getProp (setProp o key v) key = some v := by
  induction o with
  | nil => simp [setProp, getProp]
  | cons p o ih =>
    obtain ⟨k, w⟩ := p
    by_cases h : k = key
    · simp [setProp, getProp, h]
    · simp [setProp, getProp, h, ih]

theorem getProp_setProp_ne (o : Bookmarks) (key key' : Str) (v : List Nat) (h : key' ≠ key) :
    getProp (setProp o key v) key' = getProp o key' := by
  induction o with
  | nil => simp [setProp, getProp, Ne.symm h]
  | cons p o ih =>
    obtain ⟨k, w⟩ := p
    by_cases hk : k = key
    · subst hk
      simp [setProp, getProp, Ne.symm h]
    · by_cases hk' : k = key'
      · subst hk'
        simp [setProp, getProp, hk]
      · simp [setProp, getProp, hk, hk', ih]

theorem indexOf_eq_none {x : Nat} {l : List Nat} : indexOf x l = none ↔ x ∉ l := by
  induction l with
  | nil => simp [indexOf]
  | cons y ys ih =>
    by_cases h : y = x
    · simp [indexOf, h]
    · simp [indexOf, h, ih, Ne.symm h]

theorem indexOf_append_self (x : Nat) (l : List Nat) (h : x ∉ l) :
    indexOf x (l ++ [x]) = some l.length := by
  induction l with
  | nil => simp [indexOf]
  | cons y ys ih =>
    have hy : y ≠ x := fun e => h (by simp [e])
    have hx : x ∉ ys := fun e => h (by simp [e])
    simp [indexOf, hy, ih hx]

theorem eraseIdx_append_self (x : Nat) (l : List Nat) : (l ++ [x]).eraseIdx l.length = l := by
  induction l with
  | nil => rfl
  | cons y ys ih => simp [List.eraseIdx, ih]

/-- The bookmark array of the open book before a toggle (`[]` when there is none). -/
theorem toggleBookmark_add (s : Session) (d : BookDetails) (hd : s.currentBookDetails = some d)
    (arr : List Nat) (harr : (getProp s.bookmarks (propertyKey d.id)).getD [] = arr)
    (hc : s.currentChapterIndex ∉ arr) :
    (toggleBookmark s).state.currentBookDetails = some d ∧
    (toggleBookmark s).state.currentChapterIndex = s.currentChapterIndex ∧
    getProp (toggleBookmark s).state.bookmarks (propertyKey d.id) =
      some (arr ++ [s.currentChapterIndex]) := by
  unfold toggleBookmark
  simp only [hd]
  cases hg : getProp s.bookmarks (propertyKey d.id) with
  | none =>
    rw [hg] at harr
    simp only [Option.getD_none] at harr
    subst harr
    simp [getProp_setProp_same, indexOf]
  | some w =>
    rw [hg] at harr
    simp only [Option.getD_some] at harr
    subst harr
    simp only [hg, Option.getD_some, indexOf_eq_none.mpr hc, getProp_setProp_same]
    simp

theorem toggleBookmark_remove (s : Session) (d : BookDetails)
    (hd : s.currentBookDetails = some d) (arr : List Nat)
    (harr : getProp s.bookmarks (propertyKey d.id) = some (arr ++ [s.currentChapterIndex]))
    (hc : s.currentChapterIndex ∉ arr) :
    getProp (toggleBookmark s).state.bookmarks (propertyKey d.id) = some arr := by
  unfold toggleBookmark
  simp only [hd, harr, Option.getD_some, indexOf_append_self _ _ hc, getProp_setProp_same,
    eraseIdx_append_self]

/-- Claim C6: with a book open at a chapter index `c` that is not bookmarked, a toggle
makes `c` bookmarked for the current book, a second toggle makes it not bookmarked again,
and neither toggle changes whether any other chapter index of that book is bookmarked. -/
theorem C6_bookmark_round_trip (s : Session) (d : BookDetails)
    (hd : s.currentBookDetails = some d)
    (hnb : isBookmarked s.bookmarks d s.currentChapterIndex = false) :
    isBookmarked (toggleBookmark s).state.bookmarks d s.currentChapterIndex = true ∧
    isBookmarked (toggleBookmark (toggleBookmark s).state).state.bookmarks d
      s.currentChapterIndex = false ∧
    ∀ j, j ≠ s.currentChapterIndex →
      isBookmarked (toggleBookmark s).state.bookmarks d j = isBookmarked s.bookmarks d j ∧
      isBookmarked (toggleBookmark (toggleBookmark s).state).state.bookmarks d j =
        isBookmarked s.bookmarks d j := by
  have hc : s.currentChapterIndex ∉ (getProp s.bookmarks (propertyKey d.id)).getD [] := by
    unfold isBookmarked at hnb
    cases hg : getProp s.bookmarks (propertyKey d.id) with
    | none => simp
    | some w => rw [hg] at hnb; simpa using hnb
  obtain ⟨h1, h2, h3⟩ := toggleBookmark_add s d hd _ rfl hc
  have h4 := toggleBookmark_remove (toggleBookmark s).state d h1 _ (by rw [h2]; exact h3)
    (by rw [h2]; exact hc)
  have hold : ∀ j, isBookmarked s.bookmarks d j =
      decide (j ∈ (getProp s.bookmarks (propertyKey d.id)).getD []) := by
    intro j
    unfold isBookmarked
    cases getProp s.bookmarks (propertyKey d.id) <;> simp
  refine ⟨?_, ?_, fun j hj => ⟨?_, ?_⟩⟩
  · simp [isBookmarked, h3]
  · rw [hold] at hnb
    simpa [isBookmarked, h4] using hnb
  · rw [hold]
    simp [isBookmarked, h3, hj]
  · rw [hold]
    simp [isBookmarked, h4]

/-- Claim C6 on the sample session: chapter 0 is not bookmarked, is bookmarked after one
toggle and not bookmarked after two. -/
theorem C6_bookmark_round_trip_witness :
    isBookmarked sessionA.bookmarks detailsA sessionA.currentChapterIndex = false ∧
    (isBookmarked (toggleBookmark sessionA).state.bookmarks detailsA
        sessionA.currentChapterIndex = true ∧
      isBookmarked (toggleBookmark (toggleBookmark sessionA).state).state.bookmarks detailsA
        sessionA.currentChapterIndex = false ∧
      ∀ j, j ≠ sessionA.currentChapterIndex →
        isBookmarked (toggleBookmark sessionA).state.bookmarks detailsA j =
          isBookmarked sessionA.bookmarks detailsA j ∧
        isBookmarked (toggleBookmark (toggleBookmark sessionA).state).state.bookmarks detailsA j =
          isBookmarked sessionA.bookmarks detailsA j) :=
  ⟨by decide, C6_bookmark_round_trip sessionA detailsA rfl (by decide)⟩

/-- Claim C7 fails on the code: the bookmark key of every book is the same property name
`undefined`, and a toggle on chapter 0 while the book of `book_a` is open makes chapter 0
bookmarked for the book of `book_b` as well. -/
theorem C7_bookmarks_shared_between_books :
    detailsA ≠ detailsB ∧
    propertyKey detailsA.id = "undefined".toList ∧
    propertyKey detailsB.id = "undefined".toList ∧
    isBookmarked sessionA.bookmarks detailsB 0 = false ∧
    isBookmarked (toggleBookmark sessionA).state.bookmarks detailsB 0 = true := by
  decide

theorem foldl_slots {α : Type} (values : List α) (order : List Nat) (acc : List (Option α)) :
    (order.foldl (fun acc k => acc.set k values[k]?) acc).length = acc.length ∧
    ∀ k, k < acc.length →
      (order.foldl (fun acc k => acc.set k values[k]?) acc)[k]? =
        if k ∈ order then some values[k]? else acc[k]? := by
  induction order generalizing acc with
  | nil => simp
  | cons j rest ih =>
    obtain ⟨h1, h2⟩ := ih (acc.set j values[j]?)
    refine ⟨by simpa using h1, fun k hk => ?_⟩
    simp only [List.foldl_cons]
    rw [h2 k (by simpa using hk)]
    by_cases hkr : k ∈ rest
    · simp [hkr]
    · by_cases hjk : j = k
      · subst hjk
        simp [hkr, List.getElem?_set, hk]
      · simp [hkr, List.getElem?_set, hjk, Ne.symm hjk]

theorem promiseAll_perm {α : Type} (values : List α) (order : List Nat)
    (h : order.Perm (List.range values.length)) : promiseAll order values = some values := by
  obtain ⟨h1, h2⟩ := foldl_slots values order (List.replicate values.length none)
  have hslots : order.foldl (fun acc k => acc.set k values[k]?)
      (List.replicate values.length none) = values.map some := by
    apply List.ext_getElem?
    intro k
    by_cases hk : k < values.length
    · rw [h2 k (by simpa using hk)]
      have : k ∈ order := h.mem_iff.mpr (List.mem_range.mpr hk)
      simp [this, hk]
    · have e1 : (List.map some values)[k]? = none := by
        simp; omega
      rw [e1, List.getElem?_eq_none]
      rw [h1]; simp; omega
  unfold promiseAll
  simp only [hslots]
  simp

theorem fetchBookDetails_ok (src : ContentSource) (order : List Nat) (book : Book)
    (md : Metadata)
    (hmd : src.fetchJson ("books/".toList ++ book.folder ++ "/book_metadata.json".toList) =
      some md)
    (horder : order.Perm (List.range md.total_chapters)) :
    fetchBookDetails src order book = some (Except.ok
      { metadata := md
        chapters := (List.range md.total_chapters).map
          (fun j => chapterPromise src book.folder (j + 1))
        folder := book.folder }) := by
  unfold fetchBookDetails
  simp only [hmd]
  rw [promiseAll_perm _ _ (by simpa using horder)]
  rfl

/-- Claim C8: when the metadata of a book reports `N` chapters, then for every set of
failing chapter fetches and every order in which the chapter requests complete,
`fetchBookDetails` is fulfilled with exactly `N` chapters, the chapter at index `k` having
number `k + 1`; a chapter whose fetch failed is the placeholder (title `Chapter n`, the
body `This chapter could not be loaded.`, no illustration) and a chapter whose fetch
succeeded has the fetched text as content. -/
theorem C8_partial_failure (src : ContentSource) (order : List Nat) (book : Book)
    (md : Metadata)
    (hmd : src.fetchJson ("books/".toList ++ book.folder ++ "/book_metadata.json".toList) =
      some md)
    (horder : order.Perm (List.range md.total_chapters)) :
    ∃ details, fetchBookDetails src order book = some (Except.ok details) ∧
      details.chapters.length = md.total_chapters ∧
      details.chapters.map (fun c => c.number) =
        (List.range md.total_chapters).map (fun k => k + 1) ∧
      ∀ k, k < md.total_chapters → ∃ ch, details.chapters[k]? = some ch ∧
        ch.number = k + 1 ∧
        (src.fetchText (chapterFile book.folder (k + 1)) = none →
          ch.title = "Chapter ".toList ++ (Nat.repr (k + 1)).toList ∧
          ch.content = "This chapter could not be loaded.".toList ∧
          ch.illustrationPath = none) ∧
        (∀ text, src.fetchText (chapterFile book.folder (k + 1)) = some text →
          ch.content = text) := by
  refine ⟨_, fetchBookDetails_ok src order book md hmd horder, by simp, ?_, ?_⟩
  · simp only [List.map_map]
    apply List.map_congr_left
    intro k _
    simp only [Function.comp, chapterPromise]
    cases src.fetchText (chapterFile book.folder (k + 1)) <;> rfl
  · intro k hk
    refine ⟨chapterPromise src book.folder (k + 1), by simp [hk], ?_, ?_, ?_⟩
    · unfold chapterPromise
      cases src.fetchText (chapterFile book.folder (k + 1)) <;> rfl
    · intro hnone
      simp only [chapterPromise, hnone]
      exact ⟨rfl, rfl, rfl⟩
    · intro text htext
      simp only [chapterPromise, htext]
      rfl

/-- Claim C8 with chapter 3 of 5 failing and the requests completing in the order 5, 3, 1,
2, 4: five chapters numbered 1 to 5, the third being the placeholder. -/
theorem C8_partial_failure_witness :
    sourceFive.fetchJson ("books/".toList ++ bookFive.folder ++ "/book_metadata.json".toList) =
      some { title := "Five".toList, description := [], total_chapters := 5 } ∧
    [4, 2, 0, 1, 3].Perm (List.range 5) ∧
    (∃ details, fetchBookDetails sourceFive [4, 2, 0, 1, 3] bookFive = some (Except.ok details) ∧
      details.chapters.length = 5 ∧
      details.chapters.map (fun c => c.number) = [1, 2, 3, 4, 5] ∧
      details.chapters[2]? = some (placeholderChapter 3)) ∧
    (∃ details, fetchBookDetails sourceFive [4, 2, 0, 1, 3] bookFive = some (Except.ok details) ∧
      details.chapters.length = 5 ∧
      details.chapters.map (fun c => c.number) = (List.range 5).map (fun k => k + 1) ∧
      ∀ k, k < 5 → ∃ ch, details.chapters[k]? = some ch ∧
        ch.number = k + 1 ∧
        (sourceFive.fetchText (chapterFile bookFive.folder (k + 1)) = none →
          ch.title = "Chapter ".toList ++ (Nat.repr (k + 1)).toList ∧
          ch.content = "This chapter could not be loaded.".toList ∧
          ch.illustrationPath = none) ∧
        (∀ text, sourceFive.fetchText (chapterFile bookFive.folder (k + 1)) = some text →
          ch.content = text)) :=
  ⟨rfl, by decide,
    ⟨_, fetchBookDetails_ok sourceFive [4, 2, 0, 1, 3] bookFive _ rfl (by decide),
      by decide, by decide, by decide⟩,
    C8_partial_failure sourceFive [4, 2, 0, 1, 3] bookFive
      { title := "Five".toList, description := [], total_chapters := 5 } rfl (by decide)⟩

theorem promiseAll_eq_some {α : Type} (values : List α) (order : List Nat) (l : List α)
    (h : promiseAll order values = some l) : l = values := by
  obtain ⟨h1, h2⟩ := foldl_slots values order (List.replicate values.length none)
  unfold promiseAll at h
  simp only at h
  split at h
  · rename_i hall
    have hslots : order.foldl (fun acc k => acc.set k values[k]?)
        (List.replicate values.length none) = values.map some := by
      apply List.ext_getElem?
      intro k
      by_cases hk : k < values.length
      · rw [h2 k (by simpa using hk)]
        by_cases hko : k ∈ order
        · simp [hko, hk]
        · exfalso
          have hlen : k < (order.foldl (fun acc k => acc.set k values[k]?)
              (List.replicate values.length none)).length := by rw [h1]; simpa using hk
          have hget := h2 k (by simpa using hk)
          simp only [hko, if_false] at hget
          rw [List.all_eq_true] at hall
          have := hall _ (List.getElem_mem hlen)
          rw [List.getElem?_eq_getElem hlen] at hget
          simp [hk] at hget
          rw [hget] at this
          simp at this
      · have e1 : (List.map some values)[k]? = none := by
          simp; omega
        rw [e1, List.getElem?_eq_none]
        rw [h1]; simp; omega
    rw [hslots] at h
    simpa using h.symm
  · cases h

theorem fetchBookDetails_numbered (src : ContentSource) (order : List Nat) (book : Book)
    (d : BookDetails) (h : fetchBookDetails src order book = some (Except.ok d)) :
    numbered d.chapters := by
  unfold fetchBookDetails at h
  split at h
  · cases h
  · rename_i md hmd
    simp only [Option.map_eq_some'] at h
    obtain ⟨chs, hchs, hd⟩ := h
    have := promiseAll_eq_some _ _ _ hchs
    subst this
    cases hd
    intro k c hk
    simp only [List.getElem?_map, Option.map_eq_some'] at hk
    obtain ⟨j, hj, rfl⟩ := hk
    have : j = k := by
      have := List.getElem?_range (m := md.total_chapters) (n := k)
      by_cases hkm : k < md.total_chapters
      · rw [List.getElem?_range hkm] at hj; cases hj; rfl
      · rw [List.getElem?_eq_none (by simpa using hkm)] at hj; cases hj
    subst this
    unfold chapterPromise
    cases src.fetchText (chapterFile book.folder (j + 1)) <;> rfl

/-- What `displayChapter` followed by further statements leaves untouched. -/
theorem displayChapter_frame (s : Session) (ch : Option Chapter) (f : Session → Outcome) :
    ((displayChapter s ch).andThen f).state.currentChapterIndex = s.currentChapterIndex ∧
    ((displayChapter s ch).andThen f).state.currentBookDetails = s.currentBookDetails ∧
    ((displayChapter s ch).andThen f).state.pendingLoads = s.pendingLoads ∧
    ((displayChapter s ch).andThen f).state.sidebar = s.sidebar := by
  cases ch <;> exact ⟨rfl, rfl, rfl, rfl⟩

/-- An invariant that only reads the four session fields below carries over to any
session that agrees on them, with a possibly smaller index and fewer pending loads. -/
theorem SessionInv.transfer {s t : Session} (h : SessionInv s)
    (hi : t.currentChapterIndex ≤ s.currentChapterIndex)
    (hd : t.currentBookDetails = s.currentBookDetails)
    (hp : t.pendingLoads = s.pendingLoads) (hs : t.sidebar = s.sidebar) : SessionInv t where
  inRange := fun d hd' => lt_of_le_of_lt hi (h.inRange d (hd ▸ hd'))
  atStart := fun hne => by
    have := h.atStart (hp ▸ hne)
    omega
  pendingOk := fun p hp' => h.pendingOk p (hp ▸ hp')
  sidebarOk := by
    rw [hs, hd]
    exact h.sidebarOk

theorem inv_initial (stored : Option Bookmarks) (font : Nat) :
    SessionInv (initialSession stored font) where
  inRange := fun d hd => by cases hd
  atStart := fun hne => rfl
  pendingOk := fun p hp => by cases hp
  sidebarOk := Or.inl rfl

theorem inv_display (s : Session) (ch : Option Chapter) (f : Session → Outcome)
    (h : SessionInv s) : SessionInv ((displayChapter s ch).andThen f).state :=
  h.transfer (le_of_eq (displayChapter_frame s ch f).1) (displayChapter_frame s ch f).2.1
    (displayChapter_frame s ch f).2.2.1 (displayChapter_frame s ch f).2.2.2

theorem inv_setIndex (s : Session) (i : Nat) (h : SessionInv s)
    (hi : ∀ d, s.currentBookDetails = some d → i < d.chapters.length)
    (hq : s.pendingLoads ≠ [] → i = 0) :
    SessionInv { s with currentChapterIndex := i } where
  inRange := hi
  atStart := hq
  pendingOk := h.pendingOk
  sidebarOk := h.sidebarOk

theorem inv_prev (s : Session) (h : SessionInv s) : SessionInv (prevChapterClick s).state := by
  unfold prevChapterClick
  by_cases hpos : s.currentChapterIndex > 0
  · rw [if_pos hpos]
    simp only []
    split
    · exact h.transfer (Nat.sub_le _ _) rfl rfl rfl
    · refine inv_display _ _ _ ?_
      exact h.transfer (Nat.sub_le _ _) rfl rfl rfl
  · rw [if_neg hpos]
    exact h

theorem inv_next (s : Session) (h : SessionInv s) (hq : s.pendingLoads = []) :
    SessionInv (nextChapterClick s).state := by
  unfold nextChapterClick
  split
  · exact h
  · rename_i d hd
    by_cases hlt : (s.currentChapterIndex : Int) < (d.chapters.length : Int) - 1
    · rw [if_pos hlt]
      refine inv_display _ _ _ (inv_setIndex s _ h (fun d' hd' => ?_) (fun hne => absurd hq hne))
      rw [hd] at hd'
      cases hd'
      omega
    · rw [if_neg hlt]
      exact h

theorem inv_close (s : Session) (h : SessionInv s) : SessionInv (closeModal s).state :=
  h.transfer (le_refl _) rfl rfl rfl

theorem inv_hideTimer (s : Session) (h : SessionInv s) : SessionInv (hideTimerFires s).state := by
  unfold hideTimerFires
  split
  · exact h.transfer (le_refl _) rfl rfl rfl
  · exact h

theorem inv_key (s : Session) (k : Key) (h : SessionInv s)
    (hq : k = Key.arrowRight → s.pendingLoads = []) : SessionInv (keydown s k).state := by
  by_cases hm : s.modalDisplayBlock = true
  · cases k with
    | escape =>
      have : keydown s Key.escape = closeModal s := by simp [keydown, hm]
      rw [this]; exact inv_close s h
    | arrowLeft => rw [keydown_arrowLeft s hm]; exact inv_prev s h
    | arrowRight => rw [keydown_arrowRight s hm]; exact inv_next s h (hq rfl)
    | other =>
      have : keydown s Key.other = { state := s, error := none } := by simp [keydown, hm]
      rw [this]; exact h
  · have : keydown s k = { state := s, error := none } := by simp [keydown, hm]
    rw [this]; exact h

theorem inv_toggle (s : Session) (h : SessionInv s) : SessionInv (toggleBookmark s).state := by
  unfold toggleBookmark
  cases hd : s.currentBookDetails with
  | none => exact h
  | some d =>
    simp only []
    split
    · exact h.transfer (le_refl _) (by simp [hd]) rfl rfl
    · exact h.transfer (le_refl _) (by simp [hd]) rfl rfl

theorem inv_bookInfo (s : Session) (h : SessionInv s) : SessionInv (bookInfoClick s).state := by
  unfold bookInfoClick
  cases hd : s.currentBookDetails with
  | none => exact h
  | some d => exact h.transfer (le_refl _) (by simp [showBookOverview, hd]) rfl rfl

theorem inv_startReading (s : Session) (h : SessionInv s) :
    SessionInv (startReadingClick s).state := by
  unfold startReadingClick
  split
  · rename_i details _
    cases hch : details.chapters[0]? with
    | none => exact h
    | some ch => exact h.transfer (le_refl _) rfl rfl rfl
  · exact h

theorem inv_chapterItem (s : Session) (item : Nat) (h : SessionInv s)
    (hq : s.pendingLoads = []) : SessionInv (chapterItemClick s item).state := by
  unfold chapterItemClick
  split
  · exact h
  · rename_i c hc
    refine inv_display _ _ _ (inv_setIndex s _ h (fun d' hd' => ?_) (fun hne => absurd hq hne))
    rcases h.sidebarOk with hnil | ⟨d, hd, hsd, hnum⟩
    · rw [hnil] at hc; simp at hc
    · rw [hd] at hd'
      have hdd := Option.some.inj hd'
      subst hdd
      have hcn : c.number = item + 1 := hnum item c (hsd ▸ hc)
      have hlt : item < d.chapters.length := by
        rw [hsd] at hc
        exact (List.getElem?_eq_some_iff.mp hc).1
      omega

theorem inv_open (s : Session) (book : Book) (src : ContentSource) (order : List Nat)
    (h : SessionInv s)
    (hg : guarded s (Event.openBook book src order) = true) :
    SessionInv (openBookDetails s book src order).state := by
  unfold openBookDetails
  refine ⟨?_, fun _ => rfl, ?_, Or.inl rfl⟩
  · intro d hd
    have := h.inRange d hd
    simp only []
    omega
  · intro p hp d hpd
    simp only [] at hp
    cases hf : fetchBookDetails src order book with
    | none =>
      rw [hf] at hp
      exact h.pendingOk p hp d hpd
    | some r =>
      rw [hf] at hp
      simp only [List.mem_append, List.mem_singleton] at hp
      rcases hp with hp | rfl
      · exact h.pendingOk p hp d hpd
      · simp only [] at hpd
        subst hpd
        refine ⟨?_, fetchBookDetails_numbered src order book d hf⟩
        simp only [guarded, hf] at hg
        intro hnil
        simp [hnil] at hg

theorem inv_loadSettles (s : Session) (k : Nat) (h : SessionInv s) :
    SessionInv (loadSettles s k).state := by
  unfold loadSettles
  cases hk : s.pendingLoads[k]? with
  | none => exact h
  | some p =>
    obtain ⟨book, r⟩ := p
    have hmem : (book, r) ∈ s.pendingLoads := List.getElem?_mem hk
    have hne : s.pendingLoads ≠ [] := List.ne_nil_of_mem hmem
    have h0 := h.atStart hne
    have hsub : ∀ p ∈ s.pendingLoads.eraseIdx k, p ∈ s.pendingLoads :=
      fun p hp => List.mem_of_mem_eraseIdx hp
    cases r with
    | error e =>
      refine ⟨h.inRange, fun _ => h0, fun p hp => h.pendingOk p (hsub p hp), h.sidebarOk⟩
    | ok details =>
      obtain ⟨hne', hnum⟩ := h.pendingOk _ hmem details rfl
      refine ⟨?_, fun _ => h0, fun p hp => h.pendingOk p (hsub p hp), Or.inr ⟨details, rfl, rfl, hnum⟩⟩
      intro d hd
      have hd' : details = d := by
        simpa [displayBookDetails, populateSidebar, showBookOverview, updateChapterNav,
          Outcome.andThen] using hd
      subst hd'
      have : (displayBookDetails
          { s with pendingLoads := s.pendingLoads.eraseIdx k, currentBookDetails := some details }
          details).state.currentChapterIndex = s.currentChapterIndex := rfl
      rw [this, h0]
      exact List.length_pos.mpr hne'

theorem inv_step (s : Session) (e : Event) (h : SessionInv s) (hg : guarded s e = true) :
    SessionInv (step s e) := by
  cases e with
  | openBook book src order => exact inv_open s book src order h hg
  | loadSettles k => exact inv_loadSettles s k h
  | prevClick => exact inv_prev s h
  | nextClick => exact inv_next s h (by simpa [guarded] using hg)
  | key k =>
    refine inv_key s k h (fun hk => ?_)
    subst hk
    simpa [guarded] using hg
  | chapterItem item => exact inv_chapterItem s item h (by simpa [guarded] using hg)
  | startReading => exact inv_startReading s h
  | bookInfo => exact inv_bookInfo s h
  | bookmarkClick => exact inv_toggle s h
  | close => exact inv_close s h
  | hideTimer => exact inv_hideTimer s h

theorem inv_run (s : Session) (events : List Event) (h : SessionInv s)
    (ha : admissible s events = true) : SessionInv (run s events) := by
  induction events generalizing s with
  | nil => exact h
  | cons e es ih =>
    simp only [admissible, Bool.and_eq_true] at ha
    exact ih (step s e) (inv_step s e h ha.1) ha.2

/-- Claim C5, as amended: in every session reached from the start of the page by opening
books, loads settling in any order, next, previous, chapter selection, start reading,
overview, bookmark toggles and closing, provided every successfully loaded book has at
least one chapter and no next-chapter step or chapter selection happens while a load is
pending, the current chapter index is below the number of chapters of the open book. -/
theorem C5_index_in_range (stored : Option Bookmarks) (font : Nat) (events : List Event)
    (ha : admissible (initialSession stored font) events = true) :
    indexInRange (run (initialSession stored font) events) :=
  (inv_run _ events (inv_initial stored font) ha).inRange

/-- Claim C5, as amended, on a reading session over the five-chapter book. -/
theorem C5_index_in_range_witness :
    admissible (initialSession none 1) quietTrace = true ∧
    (run (initialSession none 1) quietTrace).currentChapterIndex = 3 ∧
    indexInRange (run (initialSession none 1) quietTrace) :=
  ⟨by decide, by decide, C5_index_in_range none 1 quietTrace (by decide)⟩

/-- Claim C5 as stated fails: a load that settles after a step to the next chapter leaves
index 1 on a book of one chapter, and a book without chapters leaves index 0 on an empty
chapter list. -/
theorem C5_index_out_of_range :
    ¬ indexInRange (run (initialSession none 1) staleLoadTrace) ∧
    ¬ indexInRange (run (initialSession none 1) emptyBookTrace) := by
  constructor
  · intro h
    have h1 : ∃ d, (run (initialSession none 1) staleLoadTrace).currentBookDetails = some d ∧
        ¬ (run (initialSession none 1) staleLoadTrace).currentChapterIndex < d.chapters.length :=
      ⟨_, rfl, by decide⟩
    obtain ⟨d, hd, hlt⟩ := h1
    exact hlt (h d hd)
  · intro h
    have h1 : ∃ d, (run (initialSession none 1) emptyBookTrace).currentBookDetails = some d ∧
        ¬ (run (initialSession none 1) emptyBookTrace).currentChapterIndex < d.chapters.length :=
      ⟨_, rfl, by decide⟩
    obtain ⟨d, hd, hlt⟩ := h1
    exact hlt (h d hd)

theorem noLT_nil : NoLT [] := fun _ h => by cases h

theorem noLT_cons {c : Char} {s : Str} : NoLT (c :: s) ↔ isLineTerminator c = false ∧ NoLT s := by
  simp [NoLT]

theorem noLT_append {a b : Str} : NoLT (a ++ b) ↔ NoLT a ∧ NoLT b := by
  simp only [NoLT, List.mem_append]
  constructor
  · intro h; exact ⟨fun c hc => h c (Or.inl hc), fun c hc => h c (Or.inr hc)⟩
  · rintro ⟨h1, h2⟩ c (hc | hc)
    · exact h1 c hc
    · exact h2 c hc

theorem lazyUntil_sound (lit : Str) (s g r : Str) (h : lazyUntil lit s = some (g, r)) :
    s = g ++ lit ++ r ∧ NoLT g := by
  induction s generalizing g with
  | nil =>
    simp only [lazyUntil, Option.map_eq_some'] at h
    obtain ⟨r', hr', he⟩ := h
    cases he
    rw [stripPrefix_eq_some] at hr'
    exact ⟨by simpa using hr', noLT_nil⟩
  | cons c cs ih =>
    simp only [lazyUntil] at h
    split at h
    · rename_i r' hr'
      cases h
      rw [stripPrefix_eq_some] at hr'
      exact ⟨by simpa using hr', noLT_nil⟩
    · split at h
      · cases h
      · rename_i hlt
        simp only [Option.map_eq_some'] at h
        obtain ⟨p, hp, he⟩ := h
        cases he
        obtain ⟨e1, e2⟩ := ih p.1 hp
        refine ⟨by rw [e1]; simp, noLT_cons.mpr ⟨by simpa using hlt, e2⟩⟩

theorem imageBody_sound (s : Str) (ref : ImageRef) (rest : Str)
    (h : imageBody s = some (ref, rest)) :
    s = ref.alt ++ "](".toList ++ ref.src ++ ")".toList ++ rest ∧ NoLT ref.alt ∧ NoLT ref.src := by
  induction s generalizing ref with
  | nil => simp [imageBody] at h
  | cons c cs ih =>
    simp only [imageBody] at h
    split at h
    · rename_i src rest' hm
      cases h
      simp only [Option.bind_eq_some] at hm
      obtain ⟨r1, hr1, hr2⟩ := hm
      rw [stripPrefix_eq_some] at hr1
      obtain ⟨e1, e2⟩ := lazyUntil_sound _ _ _ _ hr2
      refine ⟨?_, noLT_nil, e2⟩
      rw [hr1, e1]; simp
    · split at h
      · cases h
      · rename_i hlt
        simp only [Option.map_eq_some'] at h
        obtain ⟨p, hp, he⟩ := h
        cases he
        obtain ⟨e1, e2, e3⟩ := ih p.1 hp
        refine ⟨?_, noLT_cons.mpr ⟨by simpa using hlt, e2⟩, e3⟩
        simp only [List.cons_append]
        rw [← e1]

theorem matchImage_sound (b : Bool) (s : Str) (ref : ImageRef) (rest : Str)
    (h : matchImage b s = some (ref, rest)) :
    s = ref.text ++ rest ∧ NoLT ref.alt ∧ NoLT ref.src := by
  simp only [matchImage, Option.bind_eq_some] at h
  obtain ⟨r1, hr1, hr2⟩ := h
  rw [stripPrefix_eq_some] at hr1
  obtain ⟨e1, e2, e3⟩ := imageBody_sound _ _ _ hr2
  refine ⟨?_, e2, e3⟩
  rw [hr1, e1]
  simp [ImageRef.text]

theorem lazyUntil_isSome (lit g r : Str) (hg : NoLT g) :
    (lazyUntil lit (g ++ lit ++ r)).isSome = true := by
  induction g with
  | nil =>
    cases hl : lit ++ r with
    | nil =>
      have : lit = [] := (List.append_eq_nil.mp hl).1
      subst this
      simp [hl, lazyUntil, stripPrefix]
    | cons c cs =>
      have : stripPrefix lit (c :: cs) = some r := by rw [← hl]; exact stripPrefix_append lit r
      simp [hl, lazyUntil, this]
  | cons c g ih =>
    obtain ⟨h1, h2⟩ := noLT_cons.mp hg
    have ih' := ih h2
    simp only [List.cons_append, lazyUntil]
    split
    · rfl
    · simp only [h1, Bool.false_eq_true, if_false]
      simp only [List.append_assoc] at ih' ⊢
      simpa using ih'

theorem imageBody_isSome (a src r : Str) (ha : NoLT a) (hs : NoLT src) :
    (imageBody (a ++ "](".toList ++ src ++ ")".toList ++ r)).isSome = true := by
  induction a with
  | nil =>
    have h1 : stripPrefix "](".toList ("](".toList ++ (src ++ ")".toList ++ r)) =
        some (src ++ ")".toList ++ r) := stripPrefix_append _ _
    have h2 := lazyUntil_isSome ")".toList src r hs
    have e : [] ++ "](".toList ++ src ++ ")".toList ++ r =
        ']' :: '(' :: (src ++ ")".toList ++ r) := by simp
    have h1' : stripPrefix "](".toList (']' :: '(' :: (src ++ ")".toList ++ r)) =
        some (src ++ ")".toList ++ r) := h1
    rw [e]
    simp only [imageBody, h1', Option.some_bind]
    cases hl : lazyUntil ")".toList (src ++ ")".toList ++ r) with
    | none => rw [hl] at h2; cases h2
    | some p => rfl
  | cons c a ih =>
    obtain ⟨h1, h2⟩ := noLT_cons.mp ha
    have ih' := ih h2
    simp only [List.cons_append, imageBody]
    split
    · rfl
    · simp only [h1, Bool.false_eq_true, if_false]
      simpa using ih'

theorem matchImage_isSome (b : Bool) (ref : ImageRef) (r : Str) (ha : NoLT ref.alt)
    (hs : NoLT ref.src) : (matchImage b (ref.text ++ r)).isSome = true := by
  have h1 : stripPrefix "![".toList (ref.text ++ r) =
      some (ref.alt ++ "](".toList ++ ref.src ++ ")".toList ++ r) := by
    rw [stripPrefix_eq_some]; simp [ImageRef.text]
  simp only [matchImage, h1, Option.some_bind]
  exact imageBody_isSome _ _ _ ha hs

/-- A successful search returns the leftmost match. -/
theorem execImage_some (s : Str) (ref : ImageRef) (h : execImage s = some ref) :
    ∃ pre post, s = pre ++ ref.text ++ post ∧
      matchImage true (ref.text ++ post) = some (ref, post) ∧
      ∀ a b, pre = a ++ b → b ≠ [] → matchImage true (b ++ ref.text ++ post) = none := by
  induction s with
  | nil => simp [execImage] at h
  | cons c cs ih =>
    simp only [execImage] at h
    split at h
    · rename_i r rest hm
      cases h
      obtain ⟨e1, -, -⟩ := matchImage_sound _ _ _ _ hm
      refine ⟨[], rest, by simpa using e1, by rw [← e1]; exact hm, ?_⟩
      intro a b hab hb
      have := List.append_eq_nil.mp hab.symm
      exact absurd this.2 hb
    · rename_i hm
      obtain ⟨pre, post, e1, e2, e3⟩ := ih h
      refine ⟨c :: pre, post, by rw [e1]; simp, e2, ?_⟩
      intro a b hab hb
      cases a with
      | nil =>
        simp only [List.nil_append] at hab
        subst hab
        have : (c :: pre) ++ ref.text ++ post = c :: cs := by rw [e1]; simp
        rw [this]
        exact hm
      | cons x a =>
        simp only [List.cons_append, List.cons.injEq] at hab
        exact e3 a b hab.2 hb

/-- A failed search means that the expression matches at no position. -/
theorem execImage_none (s : Str) (h : execImage s = none) :
    ∀ a b, s = a ++ b → matchImage true b = none := by
  induction s with
  | nil =>
    intro a b hab
    have := List.append_eq_nil.mp hab.symm
    rw [this.2]
    rfl
  | cons c cs ih =>
    simp only [execImage] at h
    split at h
    · cases h
    · rename_i hm
      intro a b hab
      cases a with
      | nil =>
        simp only [List.nil_append] at hab
        rw [← hab]
        exact hm
      | cons x a =>
        simp only [List.cons_append, List.cons.injEq] at hab
        exact ih h a b hab.2

theorem replaceFirst_at (pat repl pre post : Str)
    (h : ∀ a b, pre = a ++ b → b ≠ [] → stripPrefix pat (b ++ pat ++ post) = none) :
    replaceFirst pat repl (pre ++ pat ++ post) = pre ++ repl ++ post := by
  induction pre with
  | nil =>
    simp only [List.nil_append]
    cases hl : pat ++ post with
    | nil =>
      have := List.append_eq_nil.mp hl
      simp [replaceFirst, this.1, this.2, stripPrefix]
    | cons c cs =>
      have : stripPrefix pat (c :: cs) = some post := by rw [← hl]; exact stripPrefix_append _ _
      simp [replaceFirst, this]
  | cons c pre ih =>
    have h0 := h [] (c :: pre) rfl (by simp)
    have ih' := ih (fun a b hab hb => h (c :: a) b (by simp [hab]) hb)
    simp only [List.cons_append] at h0 ⊢
    simp only [replaceFirst, h0]
    rw [ih']

theorem lazyUntil_not_mem (x : Char) (s g r : Str) (h : lazyUntil [x] s = some (g, r)) :
    x ∉ g := by
  induction s generalizing g with
  | nil =>
    simp [lazyUntil, stripPrefix] at h
  | cons c cs ih =>
    simp only [lazyUntil] at h
    split at h
    · simp only [Option.some.injEq, Prod.mk.injEq] at h
      rw [← h.1]
      simp
    · rename_i hn
      split at h
      · cases h
      · simp only [Option.map_eq_some'] at h
        obtain ⟨⟨g1, r1⟩, hp, he⟩ := h
        simp only [Prod.mk.injEq] at he
        rw [← he.1]
        have hc : c ≠ x := by
          intro e
          subst e
          simp [stripPrefix] at hn
        have := ih g1 (he.2 ▸ hp)
        simp [this, Ne.symm hc]

/-- The second group of an image match holds no `)`. -/
theorem imageBody_src (s : Str) (ref : ImageRef) (rest : Str)
    (h : imageBody s = some (ref, rest)) : ')' ∉ ref.src := by
  induction s generalizing ref with
  | nil => simp [imageBody] at h
  | cons c cs ih =>
    simp only [imageBody] at h
    split at h
    · rename_i src rest' hm
      simp only [Option.some.injEq, Prod.mk.injEq] at h
      rw [← h.1]
      simp only [Option.bind_eq_some] at hm
      obtain ⟨r1, -, hr2⟩ := hm
      exact lazyUntil_not_mem ')' _ _ _ hr2
    · split at h
      · cases h
      · simp only [Option.map_eq_some'] at h
        obtain ⟨⟨ref1, rest1⟩, hp, he⟩ := h
        simp only [Prod.mk.injEq] at he
        rw [← he.1]
        exact ih ref1 (he.2 ▸ hp)

/-- The first group of an image match is no longer than the first group of any way to
read an image reference at that place. -/
theorem imageBody_alt_le (a0 s0 r0 : Str) (hs : NoLT s0) (ref : ImageRef) (rest : Str)
    (h : imageBody (a0 ++ "](".toList ++ s0 ++ ")".toList ++ r0) = some (ref, rest)) :
    ref.alt.length ≤ a0.length := by
  induction a0 generalizing ref with
  | nil =>
    have h1 : stripPrefix "](".toList ("](".toList ++ (s0 ++ ")".toList ++ r0)) =
        some (s0 ++ ")".toList ++ r0) := stripPrefix_append _ _
    have h2 := lazyUntil_isSome ")".toList s0 r0 hs
    have e : [] ++ "](".toList ++ s0 ++ ")".toList ++ r0 =
        ']' :: '(' :: (s0 ++ ")".toList ++ r0) := by simp
    rw [e] at h
    obtain ⟨p, hp⟩ := Option.isSome_iff_exists.mp h2
    have h1' : stripPrefix "](".toList (']' :: '(' :: (s0 ++ ")".toList ++ r0)) =
        some (s0 ++ ")".toList ++ r0) := by simpa using h1
    simp only [imageBody, h1', Option.some_bind, hp, Option.some.injEq, Prod.mk.injEq] at h
    rw [← h.1]
  | cons c a0 ih =>
    simp only [List.cons_append] at h
    simp only [imageBody] at h
    split at h
    · simp only [Option.some.injEq, Prod.mk.injEq] at h
      rw [← h.1]
      simp
    · split at h
      · cases h
      · simp only [Option.map_eq_some'] at h
        obtain ⟨⟨ref1, rest1⟩, hp, he⟩ := h
        simp only [Prod.mk.injEq] at he
        rw [← he.1]
        have := ih ref1 (he.2 ▸ hp)
        simp only [List.length_cons]
        omega

/-- Claim C9: an image reference is a text `![alt](src)` with `alt` and `src` free of
line terminators.  For a text that holds none, the first step of `convertMarkdownToHTML`
changes nothing and the illustration path is null.  For a text that holds one, the first
step removes an image reference at its own position and leaves the text before and after
it as it is; that reference is the leftmost one (no image reference of the text starts
before it), read as the expression reads it (its `alt` is the shortest possible at that
place and its `src` ends at the first `)`), and `fetchBookDetails` builds the illustration
path `books/<folder>/<src>` from the `src` of that same reference. -/
theorem C9_first_image (folder : Str) (i : Nat) (text : Str) :
    ((∀ (pre : Str) (ref : ImageRef) (post : Str), NoLT ref.alt → NoLT ref.src →
        text ≠ pre ++ ref.text ++ post) →
      removeFirstImage text = text ∧
      (chapterOfText folder i text).illustrationPath = none) ∧
    ((∃ (pre : Str) (ref : ImageRef) (post : Str), NoLT ref.alt ∧ NoLT ref.src ∧
        text = pre ++ ref.text ++ post) →
      ∃ (pre : Str) (ref : ImageRef) (post : Str), text = pre ++ ref.text ++ post ∧
        NoLT ref.alt ∧ NoLT ref.src ∧
        ')' ∉ ref.src ∧
        (∀ (pre1 : Str) (ref1 : ImageRef) (post1 : Str), NoLT ref1.alt → NoLT ref1.src →
          text = pre1 ++ ref1.text ++ post1 →
          pre.length ≤ pre1.length ∧
          (pre1.length = pre.length → ref.alt.length ≤ ref1.alt.length)) ∧
        removeFirstImage text = pre ++ post ∧
        (chapterOfText folder i text).illustrationPath =
          some ("books/".toList ++ folder ++ "/".toList ++ ref.src)) := by
  constructor
  · intro hno
    cases h : execImage text with
    | none => exact ⟨by simp [removeFirstImage, h], by simp [chapterOfText, h]⟩
    | some ref =>
      exfalso
      obtain ⟨pre, post, e1, e2, -⟩ := execImage_some text ref h
      obtain ⟨-, ha, hs⟩ := matchImage_sound _ _ _ _ e2
      exact hno pre ref post ha hs e1
  · rintro ⟨pre0, ref0, post0, ha0, hs0, e0⟩
    cases h : execImage text with
    | none =>
      exfalso
      have h1 := execImage_none text h pre0 (ref0.text ++ post0) (by rw [e0]; simp)
      have h2 := matchImage_isSome true ref0 post0 ha0 hs0
      rw [h1] at h2
      cases h2
    | some ref =>
      obtain ⟨pre, post, e1, e2, e3⟩ := execImage_some text ref h
      obtain ⟨-, ha, hs⟩ := matchImage_sound _ _ _ _ e2
      have hsrc : ')' ∉ ref.src := by
        simp only [matchImage, Option.bind_eq_some] at e2
        obtain ⟨r1, -, hr2⟩ := e2
        exact imageBody_src _ _ _ hr2
      refine ⟨pre, ref, post, e1, ha, hs, hsrc, ?_, ?_, by simp [chapterOfText, h]⟩
      · intro pre1 ref1 post1 ha1 hs1 e1'
        have heq : pre ++ (ref.text ++ post) = pre1 ++ (ref1.text ++ post1) := by
          rw [← List.append_assoc, ← List.append_assoc, ← e1, ← e1']
        have hsame : ref.text ++ post = ref1.text ++ post1 → ref.alt.length ≤ ref1.alt.length := by
          intro hh
          rw [hh] at e2
          simp only [matchImage, Option.bind_eq_some] at e2
          obtain ⟨r1, hr1, hr2⟩ := e2
          rw [stripPrefix_eq_some] at hr1
          have hr1' : r1 = ref1.alt ++ "](".toList ++ ref1.src ++ ")".toList ++ post1 := by
            have : ref1.text ++ post1 =
                "![".toList ++ (ref1.alt ++ "](".toList ++ ref1.src ++ ")".toList ++ post1) := by
              simp [ImageRef.text]
            rw [this] at hr1
            exact (List.append_cancel_left hr1).symm
          rw [hr1'] at hr2
          exact imageBody_alt_le _ _ _ hs1 _ _ hr2
        rcases List.append_eq_append_iff.mp heq with ⟨a', hp1, hrest⟩ | ⟨c', hp, hrest⟩
        · refine ⟨by rw [hp1]; simp, fun hlen => ?_⟩
          have : a' = [] := by
            rw [hp1] at hlen
            simp only [List.length_append] at hlen
            exact List.length_eq_zero.mp (by omega)
          subst this
          exact hsame (by simpa using hrest)
        · cases c' with
          | nil =>
            rw [List.append_nil] at hp
            subst hp
            exact ⟨le_refl _, fun _ => hsame (by simpa using hrest.symm)⟩
          | cons x c' =>
            exfalso
            have h1 := e3 pre1 (x :: c') hp (by simp)
            have h2 := matchImage_isSome true ref1 post1 ha1 hs1
            rw [hrest, ← List.append_assoc] at h2
            rw [h1] at h2
            cases h2
      · simp only [removeFirstImage, h]
        rw [e1]
        have := replaceFirst_at ref.text [] pre post (fun a b hab hb => by
          cases hsp : stripPrefix ref.text (b ++ ref.text ++ post) with
          | none => rfl
          | some r =>
            exfalso
            rw [stripPrefix_eq_some] at hsp
            have h1 := e3 a b hab hb
            have h2 := matchImage_isSome true ref r ha hs
            rw [← hsp, h1] at h2
            cases h2)
        simpa using this

/-- Claim C9 on a text with two image references in one line, and on a text with none. -/
theorem C9_first_image_witness :
    removeFirstImage "a ![x](y) b ![z](w) c".toList = "a  b ![z](w) c".toList ∧
    (chapterOfText "f".toList 1 "a ![x](y) b ![z](w) c".toList).illustrationPath =
      some "books/f/y".toList ∧
    (∃ (pre : Str) (ref : ImageRef) (post : Str),
      "a ![x](y) b ![z](w) c".toList = pre ++ ref.text ++ post ∧
      NoLT ref.alt ∧ NoLT ref.src ∧ ')' ∉ ref.src ∧
      (∀ (pre1 : Str) (ref1 : ImageRef) (post1 : Str), NoLT ref1.alt → NoLT ref1.src →
        "a ![x](y) b ![z](w) c".toList = pre1 ++ ref1.text ++ post1 →
        pre.length ≤ pre1.length ∧
        (pre1.length = pre.length → ref.alt.length ≤ ref1.alt.length)) ∧
      removeFirstImage "a ![x](y) b ![z](w) c".toList = pre ++ post ∧
      (chapterOfText "f".toList 1 "a ![x](y) b ![z](w) c".toList).illustrationPath =
        some ("books/".toList ++ "f".toList ++ "/".toList ++ ref.src)) ∧
    (removeFirstImage "no image".toList = "no image".toList ∧
      (chapterOfText "f".toList 1 "no image".toList).illustrationPath = none) :=
  ⟨by decide, by decide,
    (C9_first_image "f".toList 1 "a ![x](y) b ![z](w) c".toList).2
      ⟨"a ".toList, ⟨"x".toList, "y".toList⟩, " b ![z](w) c".toList,
        by unfold NoLT; decide, by unfold NoLT; decide, by decide⟩,
    (C9_first_image "f".toList 1 "no image".toList).1 (fun pre ref post _ _ h => by
      have hm : '!' ∈ "no image".toList := by
        rw [h]
        simp [ImageRef.text]
      revert hm
      decide)⟩

theorem tagRun_cons (q : Nat) (c : Char) (cs : Str) :
    tagRun q (c :: cs) =
      match tagStep q c with
      | none => none
      | some (n1, q1) => (tagRun q1 cs).map (fun p => (n1 + p.1, p.2)) := rfl

theorem tagRun_append (q : Nat) (a b : Str) :
    tagRun q (a ++ b) =
      (tagRun q a).bind (fun p => (tagRun p.2 b).map (fun r => (p.1 + r.1, r.2))) := by
  induction a generalizing q with
  | nil => simp [tagRun]
  | cons c a ih =>
    rw [List.cons_append, tagRun_cons, tagRun_cons]
    cases hs : tagStep q c with
    | none => simp
    | some p =>
      obtain ⟨n1, q1⟩ := p
      simp only []
      rw [ih q1]
      cases h2 : tagRun q1 a with
      | none => simp
      | some p2 =>
        simp only [Option.map_some', Option.some_bind, Option.map_map]
        congr 1
        funext r
        simp [Nat.add_assoc]

theorem tagRun_plain (s : Str) (hs : '<' ∉ s) : tagRun 0 s = some (0, 0) := by
  induction s with
  | nil => rfl
  | cons c cs ih =>
    have hc : c ≠ '<' := fun h => hs (by simp [h])
    have hx : '<' ∉ cs := fun h => hs (by simp [h])
    simp [tagRun, tagStep, hc, ih hx]

/-- A character that starts no tag name can only be read outside a tag opening. -/
theorem tagStep_outside (q : Nat) (c : Char) (r : Nat × Nat) (h : tagStep q c = some r)
    (hc : c ≠ 'i' ∧ c ≠ 'm' ∧ c ≠ 'g' ∧ c ≠ 'h' ∧ c ≠ '/' ∧ c ≠ 's' ∧ c ≠ 'e' ∧ c ≠ 'p') :
    q = 0 := by
  obtain ⟨h1, h2, h3, h4, h5, h6, h7, h8⟩ := hc
  match q, h with
  | 0, _ => rfl
  | 1, h => simp [tagStep, h1, h4, h5, h6, h7, h8] at h
  | 2, h => simp [tagStep, h2] at h
  | 3, h => simp [tagStep, h3] at h
  | (k + 4), h => simp [tagStep] at h

theorem tagRun_cons_outside (q : Nat) (c : Char) (cs : Str) (r : Nat × Nat)
    (h : tagRun q (c :: cs) = some r)
    (hc : c ≠ 'i' ∧ c ≠ 'm' ∧ c ≠ 'g' ∧ c ≠ 'h' ∧ c ≠ '/' ∧ c ≠ 's' ∧ c ≠ 'e' ∧ c ≠ 'p') :
    q = 0 := by
  simp only [tagRun] at h
  cases hs : tagStep q c with
  | none => rw [hs] at h; cases h
  | some p => exact tagStep_outside q c p hs hc

/-- Reading a character other than `<` outside a tag opening changes nothing. -/
theorem tagRun_cons_plain (c : Char) (cs : Str) (hc : c ≠ '<') :
    tagRun 0 (c :: cs) = tagRun 0 cs := by
  simp only [tagRun, tagStep, hc, if_false]
  cases tagRun 0 cs <;> simp

theorem lineTerminator_outside (c : Char) (h : isLineTerminator c = true) :
    c ≠ 'i' ∧ c ≠ 'm' ∧ c ≠ 'g' ∧ c ≠ 'h' ∧ c ≠ '/' ∧ c ≠ 's' ∧ c ≠ 'e' ∧ c ≠ 'p' ∧ c ≠ '<' := by
  refine ⟨?_, ?_, ?_, ?_, ?_, ?_, ?_, ?_, ?_⟩ <;> (intro e; subst e; revert h; decide)

/-- On a text the automaton accepts, its count is the number of occurrences of `<img`,
apart from an occurrence begun before the text. -/
theorem tagRun_count (q : Nat) (s : Str) (n q' : Nat) (h : tagRun q s = some (n, q')) :
    n = countOcc "<img".toList s +
      (if 0 < q ∧ q < 4 ∧ (stripPrefix (pending q) s).isSome then 1 else 0) := by
  induction s generalizing q n with
  | nil =>
    simp only [tagRun, Option.some.injEq, Prod.mk.injEq] at h
    obtain ⟨rfl, rfl⟩ := h
    match q with
    | 0 => simp [countOcc]
    | 1 => simp [countOcc, pending, stripPrefix]
    | 2 => simp [countOcc, pending, stripPrefix]
    | 3 => simp [countOcc, pending, stripPrefix]
    | (k + 4) => simp [countOcc, pending, stripPrefix]
  | cons c cs ih =>
    simp only [tagRun] at h
    cases hs : tagStep q c with
    | none => rw [hs] at h; cases h
    | some p =>
      obtain ⟨n1, q1⟩ := p
      rw [hs] at h
      simp only [Option.map_eq_some'] at h
      obtain ⟨p2, hp2, he⟩ := h
      obtain ⟨n2, q2⟩ := p2
      simp only [Prod.mk.injEq] at he
      obtain ⟨rfl, rfl⟩ := he
      have ih' := ih q1 n2 hp2
      match q, hs with
      | 0, hs =>
        by_cases hc : c = '<'
        · subst hc
          simp only [tagStep, if_true, Option.some.injEq, Prod.mk.injEq] at hs
          obtain ⟨rfl, rfl⟩ := hs
          rw [ih']
          simp [countOcc, pending, stripPrefix]
          omega
        · simp only [tagStep, hc, if_false, Option.some.injEq, Prod.mk.injEq] at hs
          obtain ⟨rfl, rfl⟩ := hs
          rw [ih']
          simp [countOcc, stripPrefix, Ne.symm hc]
      | 1, hs =>
        by_cases hc : c = 'i'
        · subst hc
          simp only [tagStep, if_true, Option.some.injEq, Prod.mk.injEq] at hs
          obtain ⟨rfl, rfl⟩ := hs
          rw [ih']
          simp [countOcc, pending, stripPrefix]
        · simp only [tagStep, hc, if_false] at hs
          split at hs
          · rename_i hcc
            simp only [Option.some.injEq, Prod.mk.injEq] at hs
            obtain ⟨rfl, rfl⟩ := hs
            rw [ih']
            have hlt : c ≠ '<' := by
              rcases hcc with h | h | h | h | h <;> (subst h; decide)
            simp [countOcc, pending, stripPrefix, Ne.symm hc, Ne.symm hlt]
          · cases hs
      | 2, hs =>
        by_cases hc : c = 'm'
        · subst hc
          simp only [tagStep, if_true, Option.some.injEq, Prod.mk.injEq] at hs
          obtain ⟨rfl, rfl⟩ := hs
          rw [ih']
          simp [countOcc, pending, stripPrefix]
        · simp [tagStep, hc] at hs
      | 3, hs =>
        by_cases hc : c = 'g'
        · subst hc
          simp only [tagStep, if_true, Option.some.injEq, Prod.mk.injEq] at hs
          obtain ⟨rfl, rfl⟩ := hs
          rw [ih']
          simp [countOcc, pending, stripPrefix]
          omega
        · simp [tagStep, hc] at hs
      | (k + 4), hs => simp [tagStep] at hs

theorem imgCount_of_tagRun (s : Str) (n q' : Nat) (h : tagRun 0 s = some (n, q')) :
    imgCount s = n := by
  have := tagRun_count 0 s n q' h
  simp at this
  exact this.symm

theorem scanGo_hit_sound {α : Type} {m : Bool → Str → Option (α × Str)} {g : α → Str}
    (hs : Sound m g) (b : Bool) (s : Str) (a : α) (rest : Str) (h : m b s = some (a, rest)) :
    scanGo m 0 b s = Seg.hit a :: scanGo m 0 (bolAfter b (g a)) rest := by
  obtain ⟨e, hne⟩ := hs b s a rest h
  obtain ⟨c, p, hcp⟩ := List.exists_cons_of_ne_nil hne
  have e' : s = c :: (p ++ rest) := by rw [e, hcp]; rfl
  subst e'
  rw [scanGo_hit m b c p rest a h, hcp]

theorem tagRun_append_some {q : Nat} {a b : Str} {n1 q1 n2 q2 : Nat}
    (h1 : tagRun q a = some (n1, q1)) (h2 : tagRun q1 b = some (n2, q2)) :
    tagRun q (a ++ b) = some (n1 + n2, q2) := by
  rw [tagRun_append, h1]
  simp [h2]

theorem tagRun_append_inv {q : Nat} {a b : Str} {n q2 : Nat}
    (h : tagRun q (a ++ b) = some (n, q2)) :
    ∃ n1 q1 n2, tagRun q a = some (n1, q1) ∧ tagRun q1 b = some (n2, q2) ∧ n = n1 + n2 := by
  rw [tagRun_append] at h
  cases h1 : tagRun q a with
  | none => rw [h1] at h; cases h
  | some p =>
    obtain ⟨n1, q1⟩ := p
    rw [h1] at h
    simp only [Option.some_bind, Option.map_eq_some'] at h
    obtain ⟨r, hr, he⟩ := h
    obtain ⟨n2, q2'⟩ := r
    simp only [Prod.mk.injEq] at he
    obtain ⟨rfl, rfl⟩ := he
    exact ⟨n1, q1, n2, rfl, hr, rfl⟩

theorem tagRun_plain_append (a s : Str) (ha : '<' ∉ a) : tagRun 0 (a ++ s) = tagRun 0 s := by
  rw [tagRun_append, tagRun_plain a ha]
  cases h : tagRun 0 s <;> simp [h]

/-- The effect of one replace step on the automaton run: every match adds `δ` images. -/
theorem stage_run {α : Type} (m : Bool → Str → Option (α × Str)) (g f : α → Str) (δ : Nat)
    (hsound : Sound m g)
    (hloc : ∀ b s a rest, m b s = some (a, rest) → ∀ q n R' k, tagRun q s = some (n, 0) →
      (∀ q n', tagRun q rest = some (n', 0) → tagRun q R' = some (n' + k, 0)) →
      tagRun q (f a ++ R') = some (n + δ + k, 0)) :
    ∀ (len : Nat) (b : Bool) (s : Str), s.length ≤ len → ∀ q n, tagRun q s = some (n, 0) →
      tagRun q (render f (scanGo m 0 b s)) =
        some (n + δ * (hits (scanGo m 0 b s)).length, 0) := by
  intro len
  induction len with
  | zero =>
    intro b s hlen q n h
    have : s = [] := List.length_eq_zero.mp (Nat.le_zero.mp hlen)
    subst this
    simpa [scanGo_nil, render, hits] using h
  | succ len ih =>
    intro b s hlen q n h
    cases s with
    | nil => simpa [scanGo_nil, render, hits] using h
    | cons c cs =>
      cases hm : m b (c :: cs) with
      | none =>
        rw [scanGo_cons_none m b c cs hm]
        simp only [render, hits]
        rw [tagRun_cons] at h ⊢
        cases hs : tagStep q c with
        | none => rw [hs] at h; cases h
        | some p =>
          obtain ⟨n1, q1⟩ := p
          rw [hs] at h
          simp only [Option.map_eq_some'] at h ⊢
          obtain ⟨r, hr, he⟩ := h
          obtain ⟨n2, q2⟩ := r
          simp only [Prod.mk.injEq] at he
          obtain ⟨rfl, rfl⟩ := he
          have := ih (isLineTerminator c) cs (by simpa using hlen) q1 n2 hr
          exact ⟨_, this, by simp [Nat.add_assoc]⟩
      | some p =>
        obtain ⟨a, rest⟩ := p
        obtain ⟨e, hne⟩ := hsound b _ a rest hm
        rw [scanGo_hit_sound hsound b _ a rest hm]
        simp only [render, hits, List.length_cons]
        have hlt : rest.length ≤ len := by
          have h1 : (c :: cs).length = (g a).length + rest.length := by rw [e]; simp
          have h2 : 0 < (g a).length := List.length_pos.mpr hne
          simp only [List.length_cons] at h1 hlen
          omega
        have := hloc b _ a rest hm q n
          (render f (scanGo m 0 (bolAfter b (g a)) rest))
          (δ * (hits (scanGo m 0 (bolAfter b (g a)) rest)).length) h
          (fun q' n' h' => ih _ rest hlt q' n' h')
        rw [this]
        congr 2
        ring

theorem replaceAll_run {α : Type} (m : Bool → Str → Option (α × Str)) (g f : α → Str) (δ : Nat)
    (hsound : Sound m g)
    (hloc : ∀ b s a rest, m b s = some (a, rest) → ∀ q n R' k, tagRun q s = some (n, 0) →
      (∀ q n', tagRun q rest = some (n', 0) → tagRun q R' = some (n' + k, 0)) →
      tagRun q (f a ++ R') = some (n + δ + k, 0))
    (s : Str) (n : Nat) (h : tagRun 0 s = some (n, 0)) :
    tagRun 0 (replaceAll m f s) = some (n + δ * (hits (scan m s)).length, 0) :=
  stage_run m g f δ hsound hloc s.length true s (le_refl _) 0 n h

theorem sound_matchImage : Sound matchImage ImageRef.text := by
  intro b s a rest h
  exact ⟨(matchImage_sound b s a rest h).1, by simp [ImageRef.text]⟩

theorem sound_matchBold : Sound matchBold boldText := by
  intro b s a rest h
  simp only [matchBold, Option.bind_eq_some] at h
  obtain ⟨r1, h1, h2⟩ := h
  rw [stripPrefix_eq_some] at h1
  obtain ⟨e, -⟩ := lazyUntil_sound _ _ _ _ h2
  exact ⟨by rw [h1, e]; simp [boldText], by simp [boldText]⟩

theorem sound_matchItalic : Sound matchItalic italicText := by
  intro b s a rest h
  simp only [matchItalic, Option.bind_eq_some] at h
  obtain ⟨r1, h1, h2⟩ := h
  rw [stripPrefix_eq_some] at h1
  obtain ⟨e, -⟩ := lazyUntil_sound _ _ _ _ h2
  exact ⟨by rw [h1, e]; simp [italicText], by simp [italicText]⟩

theorem sound_matchBlankLine : Sound matchBlankLine (fun _ => "\n\n".toList) := by
  intro b s a rest h
  simp only [matchBlankLine, Option.map_eq_some'] at h
  obtain ⟨r1, h1, h2⟩ := h
  rw [stripPrefix_eq_some] at h1
  cases h2
  exact ⟨h1, by simp⟩

theorem sound_matchEmptyParagraph : Sound matchEmptyParagraph (fun _ => "<p></p>".toList) := by
  intro b s a rest h
  simp only [matchEmptyParagraph, Option.map_eq_some'] at h
  obtain ⟨r1, h1, h2⟩ := h
  rw [stripPrefix_eq_some] at h1
  cases h2
  exact ⟨h1, by simp⟩

/-- A header match ends at the end of its line. -/
theorem matchHeader_some (k : Nat) (b : Bool) (s t rest : Str)
    (h : matchHeader k b s = some (t, rest)) :
    b = true ∧ s = headerText k t ++ rest ∧ NoLT t ∧
      (rest = [] ∨ ∃ c r, rest = c :: r ∧ isLineTerminator c = true) := by
  unfold matchHeader at h
  split at h
  · rename_i hb
    simp only [Option.map_eq_some'] at h
    obtain ⟨r1, h1, h2⟩ := h
    rw [stripPrefix_eq_some] at h1
    simp only [Prod.mk.injEq] at h2
    obtain ⟨rfl, rfl⟩ := h2
    refine ⟨hb, ?_, ?_, ?_⟩
    · rw [h1]
      simp [headerText]
    · intro c hc
      have := List.mem_takeWhile_imp hc
      simpa using this
    · cases hd : List.dropWhile (fun c => !isLineTerminator c) r1 with
      | nil => exact Or.inl rfl
      | cons c r =>
        right
        refine ⟨c, r, rfl, ?_⟩
        have := List.head_dropWhile_not (fun c => !isLineTerminator c) r1 (by simp [hd])
        simpa [hd] using this
  · cases h

theorem sound_matchHeader (k : Nat) : Sound (matchHeader k) (headerText k) := by
  intro b s a rest h
  exact ⟨(matchHeader_some k b s a rest h).2.1, by simp [headerText]⟩

theorem outside_star : '*' ≠ 'i' ∧ '*' ≠ 'm' ∧ '*' ≠ 'g' ∧ '*' ≠ 'h' ∧ '*' ≠ '/' ∧ '*' ≠ 's' ∧
    '*' ≠ 'e' ∧ '*' ≠ 'p' := by decide

theorem outside_lt : '<' ≠ 'i' ∧ '<' ≠ 'm' ∧ '<' ≠ 'g' ∧ '<' ≠ 'h' ∧ '<' ≠ '/' ∧ '<' ≠ 's' ∧
    '<' ≠ 'e' ∧ '<' ≠ 'p' := by decide

theorem outside_nl : '\n' ≠ 'i' ∧ '\n' ≠ 'm' ∧ '\n' ≠ 'g' ∧ '\n' ≠ 'h' ∧ '\n' ≠ '/' ∧
    '\n' ≠ 's' ∧ '\n' ≠ 'e' ∧ '\n' ≠ 'p' := by decide

theorem outside_bang : '!' ≠ 'i' ∧ '!' ≠ 'm' ∧ '!' ≠ 'g' ∧ '!' ≠ 'h' ∧ '!' ≠ '/' ∧ '!' ≠ 's' ∧
    '!' ≠ 'e' ∧ '!' ≠ 'p' := by decide

theorem outside_rbracket : ']' ≠ 'i' ∧ ']' ≠ 'm' ∧ ']' ≠ 'g' ∧ ']' ≠ 'h' ∧ ']' ≠ '/' ∧
    ']' ≠ 's' ∧ ']' ≠ 'e' ∧ ']' ≠ 'p' := by decide

theorem outside_rparen : ')' ≠ 'i' ∧ ')' ≠ 'm' ∧ ')' ≠ 'g' ∧ ')' ≠ 'h' ∧ ')' ≠ '/' ∧
    ')' ≠ 's' ∧ ')' ≠ 'e' ∧ ')' ≠ 'p' := by decide

theorem outside_hash : '#' ≠ 'i' ∧ '#' ≠ 'm' ∧ '#' ≠ 'g' ∧ '#' ≠ 'h' ∧ '#' ≠ '/' ∧ '#' ≠ 's' ∧
    '#' ≠ 'e' ∧ '#' ≠ 'p' := by decide

theorem outside_space : ' ' ≠ 'i' ∧ ' ' ≠ 'm' ∧ ' ' ≠ 'g' ∧ ' ' ≠ 'h' ∧ ' ' ≠ '/' ∧ ' ' ≠ 's' ∧
    ' ' ≠ 'e' ∧ ' ' ≠ 'p' := by decide

/-- A group closed by a character that starts no tag name is read from outside a tag
opening to outside a tag opening. -/
theorem tagRun_group (t rest : Str) (c : Char) (n : Nat)
    (hc : c ≠ 'i' ∧ c ≠ 'm' ∧ c ≠ 'g' ∧ c ≠ 'h' ∧ c ≠ '/' ∧ c ≠ 's' ∧ c ≠ 'e' ∧ c ≠ 'p')
    (hlt : c ≠ '<') (h : tagRun 0 (t ++ c :: rest) = some (n, 0)) :
    ∃ nt n2, tagRun 0 t = some (nt, 0) ∧ tagRun 0 rest = some (n2, 0) ∧ n = nt + n2 := by
  obtain ⟨nt, qt, n2, ht, h2, rfl⟩ := tagRun_append_inv h
  have hq := tagRun_cons_outside qt c rest _ h2 hc
  subst hq
  rw [tagRun_cons_plain c rest hlt] at h2
  exact ⟨nt, n2, ht, h2, rfl⟩

theorem hloc_bold : ∀ b s a rest, matchBold b s = some (a, rest) → ∀ q n R' k,
    tagRun q s = some (n, 0) →
    (∀ q n', tagRun q rest = some (n', 0) → tagRun q R' = some (n' + k, 0)) →
    tagRun q ("<strong>".toList ++ a ++ "</strong>".toList ++ R') = some (n + 0 + k, 0) := by
  intro b s a rest hm q n R' k h hR
  obtain ⟨e, -⟩ := sound_matchBold b s a rest hm
  have e' : s = '*' :: '*' :: (a ++ '*' :: '*' :: rest) := by rw [e]; simp [boldText]
  subst e'
  have hq := tagRun_cons_outside q _ _ _ h outside_star
  subst hq
  rw [tagRun_cons_plain _ _ (by decide), tagRun_cons_plain _ _ (by decide)] at h
  obtain ⟨nt, n2, ht, h2, rfl⟩ := tagRun_group a _ '*' n outside_star (by decide) h
  rw [tagRun_cons_plain _ _ (by decide)] at h2
  have h3 := hR 0 n2 h2
  have o : tagRun 0 "<strong>".toList = some (0, 0) := by decide
  have c : tagRun 0 "</strong>".toList = some (0, 0) := by decide
  have := tagRun_append_some (tagRun_append_some (tagRun_append_some o ht) c) h3
  rw [this]
  simp only [Option.some.injEq, Prod.mk.injEq, and_true]
  omega

theorem hloc_italic : ∀ b s a rest, matchItalic b s = some (a, rest) → ∀ q n R' k,
    tagRun q s = some (n, 0) →
    (∀ q n', tagRun q rest = some (n', 0) → tagRun q R' = some (n' + k, 0)) →
    tagRun q ("<em>".toList ++ a ++ "</em>".toList ++ R') = some (n + 0 + k, 0) := by
  intro b s a rest hm q n R' k h hR
  obtain ⟨e, -⟩ := sound_matchItalic b s a rest hm
  have e' : s = '*' :: (a ++ '*' :: rest) := by rw [e]; simp [italicText]
  subst e'
  have hq := tagRun_cons_outside q _ _ _ h outside_star
  subst hq
  rw [tagRun_cons_plain _ _ (by decide)] at h
  obtain ⟨nt, n2, ht, h2, rfl⟩ := tagRun_group a _ '*' n outside_star (by decide) h
  have h3 := hR 0 n2 h2
  have o : tagRun 0 "<em>".toList = some (0, 0) := by decide
  have c : tagRun 0 "</em>".toList = some (0, 0) := by decide
  have := tagRun_append_some (tagRun_append_some (tagRun_append_some o ht) c) h3
  rw [this]
  simp only [Option.some.injEq, Prod.mk.injEq, and_true]
  omega

theorem hloc_blankLine : ∀ b s a rest, matchBlankLine b s = some (a, rest) → ∀ q n R' k,
    tagRun q s = some (n, 0) →
    (∀ q n', tagRun q rest = some (n', 0) → tagRun q R' = some (n' + k, 0)) →
    tagRun q ((fun _ => "</p><p>".toList) a ++ R') = some (n + 0 + k, 0) := by
  intro b s a rest hm q n R' k h hR
  obtain ⟨e, -⟩ := sound_matchBlankLine b s a rest hm
  have e' : s = '\n' :: '\n' :: rest := by rw [e]; simp
  subst e'
  have hq := tagRun_cons_outside q _ _ _ h outside_nl
  subst hq
  rw [tagRun_cons_plain _ _ (by decide), tagRun_cons_plain _ _ (by decide)] at h
  have h3 := hR 0 n h
  have o : tagRun 0 "</p><p>".toList = some (0, 0) := by decide
  have := tagRun_append_some o h3
  rw [this]
  simp

theorem hloc_emptyParagraph : ∀ b s a rest, matchEmptyParagraph b s = some (a, rest) →
    ∀ q n R' k, tagRun q s = some (n, 0) →
    (∀ q n', tagRun q rest = some (n', 0) → tagRun q R' = some (n' + k, 0)) →
    tagRun q ((fun _ => ([] : Str)) a ++ R') = some (n + 0 + k, 0) := by
  intro b s a rest hm q n R' k h hR
  obtain ⟨e, -⟩ := sound_matchEmptyParagraph b s a rest hm
  have e' : s = '<' :: ("p></p>".toList ++ rest) := by rw [e]; simp
  subst e'
  have hq := tagRun_cons_outside q _ _ _ h outside_lt
  subst hq
  have e2 : '<' :: ("p></p>".toList ++ rest) = "<p></p>".toList ++ rest := by simp
  rw [e2] at h
  obtain ⟨n1, q1, n2, h1, h2, rfl⟩ := tagRun_append_inv h
  have o : tagRun 0 "<p></p>".toList = some (0, 0) := by decide
  rw [o] at h1
  simp only [Option.some.injEq, Prod.mk.injEq] at h1
  obtain ⟨rfl, rfl⟩ := h1
  have h3 := hR 0 n2 h2
  simpa using h3

theorem hloc_header (k : Nat) (f : Str → Str) (o c : Str)
    (ho : tagRun 0 o = some (0, 0)) (hc : tagRun 0 c = some (0, 0))
    (hf : ∀ t, f t = o ++ t ++ c) :
    ∀ b s a rest, matchHeader k b s = some (a, rest) → ∀ q n R' k',
    tagRun q s = some (n, 0) →
    (∀ q n', tagRun q rest = some (n', 0) → tagRun q R' = some (n' + k', 0)) →
    tagRun q (f a ++ R') = some (n + 0 + k', 0) := by
  intro b s a rest hm q n R' k' h hR
  obtain ⟨-, e, -, hrest⟩ := matchHeader_some k b s a rest hm
  subst e
  have hq : q = 0 := by
    cases k with
    | zero => exact tagRun_cons_outside q ' ' _ _ h outside_space
    | succ k => exact tagRun_cons_outside q '#' _ _ h outside_hash
  subst hq
  have e2 : headerText k a ++ rest = (List.replicate k '#' ++ [' ']) ++ (a ++ rest) := by
    simp [headerText]
  rw [e2, tagRun_plain_append _ _ (by simp [List.mem_replicate])] at h
  obtain ⟨nt, qt, n2, ht, h2, rfl⟩ := tagRun_append_inv h
  have hqt : qt = 0 := by
    rcases hrest with rfl | ⟨x, r, rfl, hx⟩
    · simp only [tagRun, Option.some.injEq, Prod.mk.injEq] at h2
      exact h2.2
    · have := lineTerminator_outside x hx
      exact tagRun_cons_outside qt x r _ h2
        ⟨this.1, this.2.1, this.2.2.1, this.2.2.2.1, this.2.2.2.2.1, this.2.2.2.2.2.1,
          this.2.2.2.2.2.2.1, this.2.2.2.2.2.2.2.1⟩
  subst hqt
  have h3 := hR 0 n2 h2
  have := tagRun_append_some (tagRun_append_some (tagRun_append_some ho ht) hc) h3
  rw [hf, this]
  simp only [Option.some.injEq, Prod.mk.injEq, and_true]
  omega

theorem imageTag_run (d : Option BookDetails) (r : ImageRef) (R : Str) (ns na nR : Nat)
    (hfolder : ∀ b, d = some b → '<' ∉ b.folder)
    (hs : tagRun 0 r.src = some (ns, 0)) (ha : tagRun 0 r.alt = some (na, 0))
    (hR : tagRun 0 R = some (nR, 0)) :
    tagRun 0 (imageTag d r ++ R) = some (1 + ns + na + nR, 0) := by
  have hA : tagRun 0 "<img src=\"".toList = some (1, 0) := by decide
  have hB : tagRun 0 "\" alt=\"".toList = some (0, 0) := by decide
  have hC : tagRun 0
      "\" class=\"chapter-image\" onerror=\"this.onerror=null; this.style.display='none';\">".toList
      = some (0, 0) := by decide
  have key : ∀ path : Str, tagRun 0 path = some (ns, 0) →
      tagRun 0 ("<img src=\"".toList ++ path ++ "\" alt=\"".toList ++ r.alt ++
        "\" class=\"chapter-image\" onerror=\"this.onerror=null; this.style.display='none';\">".toList
        ++ R) = some (1 + ns + na + nR, 0) := by
    intro path hp
    have := tagRun_append_some (tagRun_append_some (tagRun_append_some
      (tagRun_append_some (tagRun_append_some hA hp) hB) ha) hC) hR
    rw [this]
    simp only [Option.some.injEq, Prod.mk.injEq, and_true]
    omega
  unfold imageTag
  cases d with
  | none => exact key _ hs
  | some bd =>
    simp only []
    split
    · apply key
      have hf := hfolder bd rfl
      have e : "books/".toList ++ bd.folder ++ "/".toList ++ r.src =
          ("books/".toList ++ bd.folder ++ "/".toList) ++ r.src := by simp
      rw [e, tagRun_plain_append _ _ (by simp [hf])]
      exact hs
    · exact key _ hs

theorem hloc_image (d : Option BookDetails) (hfolder : ∀ b, d = some b → '<' ∉ b.folder) :
    ∀ b s a rest, matchImage b s = some (a, rest) → ∀ q n R' k,
    tagRun q s = some (n, 0) →
    (∀ q n', tagRun q rest = some (n', 0) → tagRun q R' = some (n' + k, 0)) →
    tagRun q (imageTag d a ++ R') = some (n + 1 + k, 0) := by
  intro b s a rest hm q n R' k h hR
  obtain ⟨e, -⟩ := sound_matchImage b s a rest hm
  have e' : s = '!' :: '[' :: (a.alt ++ ']' :: '(' :: (a.src ++ ')' :: rest)) := by
    rw [e]; simp [ImageRef.text]
  subst e'
  have hq := tagRun_cons_outside q _ _ _ h outside_bang
  subst hq
  rw [tagRun_cons_plain _ _ (by decide), tagRun_cons_plain _ _ (by decide)] at h
  obtain ⟨na, n1, ha, h1, rfl⟩ := tagRun_group a.alt _ ']' n outside_rbracket (by decide) h
  rw [tagRun_cons_plain _ _ (by decide)] at h1
  obtain ⟨ns, n2, hs, h2, rfl⟩ := tagRun_group a.src _ ')' n1 outside_rparen (by decide) h1
  have h3 := hR 0 n2 h2
  rw [imageTag_run d a R' ns na (n2 + k) hfolder hs ha h3]
  simp only [Option.some.injEq, Prod.mk.injEq, and_true]
  omega

theorem mem_replaceFirst_nil (pat s : Str) (c : Char) (h : c ∈ replaceFirst pat [] s) :
    c ∈ s := by
  induction s with
  | nil =>
    simp only [replaceFirst] at h
    split at h
    · rename_i r hr
      rw [stripPrefix_eq_some] at hr
      have := List.append_eq_nil.mp hr.symm
      simp [this.2] at h
    · exact h
  | cons x xs ih =>
    simp only [replaceFirst] at h
    split at h
    · rename_i r hr
      rw [stripPrefix_eq_some] at hr
      rw [hr]
      simp only [List.nil_append] at h
      exact List.mem_append_right _ h
    · rcases List.mem_cons.mp h with rfl | h'
      · simp
      · exact List.mem_cons_of_mem _ (ih h')

theorem not_mem_removeFirstImage (text : Str) (c : Char) (h : c ∉ text) :
    c ∉ removeFirstImage text := by
  unfold removeFirstImage
  split
  · exact fun hc => h (mem_replaceFirst_nil _ _ _ hc)
  · exact h

theorem convertHeaders_run (s : Str) (n : Nat) (h : tagRun 0 s = some (n, 0)) :
    tagRun 0 (convertHeaders s) = some (n, 0) := by
  unfold convertHeaders
  have h1 := replaceAll_run (matchHeader 1) (headerText 1) (headerTag 1) 0 (sound_matchHeader 1)
    (hloc_header 1 _ "<h1>".toList "</h1>".toList (by decide) (by decide) headerTag_one) s n h
  simp only [Nat.zero_mul, Nat.add_zero] at h1
  have h2 := replaceAll_run (matchHeader 2) (headerText 2) (headerTag 2) 0 (sound_matchHeader 2)
    (hloc_header 2 _ "<h2>".toList "</h2>".toList (by decide) (by decide) headerTag_two) _ n h1
  simp only [Nat.zero_mul, Nat.add_zero] at h2
  have h3 := replaceAll_run (matchHeader 3) (headerText 3) (headerTag 3) 0 (sound_matchHeader 3)
    (hloc_header 3 _ "<h3>".toList "</h3>".toList (by decide) (by decide) headerTag_three) _ n h2
  simp only [Nat.zero_mul, Nat.add_zero] at h3
  have h4 := replaceAll_run (matchHeader 4) (headerText 4) (headerTag 4) 0 (sound_matchHeader 4)
    (hloc_header 4 _ "<h4>".toList "</h4>".toList (by decide) (by decide) headerTag_four) _ n h3
  simpa using h4

/-- The automaton accepts the output for a text without `<`, and counts one image for
each image reference met by the image rule. -/
theorem convert_run (d : Option BookDetails) (text : Str) (hlt : '<' ∉ text)
    (hfolder : ∀ b, d = some b → '<' ∉ b.folder) :
    tagRun 0 (convertMarkdownToHTML d text) =
      some ((hits (scan matchImage (convertHeaders (removeFirstImage text)))).length, 0) := by
  have h0 : tagRun 0 (removeFirstImage text) = some (0, 0) :=
    tagRun_plain _ (not_mem_removeFirstImage text '<' hlt)
  have h1 := convertHeaders_run _ 0 h0
  have h2 := replaceAll_run matchImage ImageRef.text (imageTag d) 1 sound_matchImage
    (hloc_image d hfolder) _ 0 h1
  have h3 := replaceAll_run matchBold boldText
    (fun t => "<strong>".toList ++ t ++ "</strong>".toList) 0 sound_matchBold hloc_bold _ _ h2
  have h4 := replaceAll_run matchItalic italicText
    (fun t => "<em>".toList ++ t ++ "</em>".toList) 0 sound_matchItalic hloc_italic _ _ h3
  have h5 := replaceAll_run matchBlankLine (fun _ => "\n\n".toList)
    (fun _ => "</p><p>".toList) 0 sound_matchBlankLine hloc_blankLine _ _ h4
  have ho : tagRun 0 "<p>".toList = some (0, 0) := by decide
  have hc : tagRun 0 "</p>".toList = some (0, 0) := by decide
  have h6 := tagRun_append_some (tagRun_append_some ho h5) hc
  have h7 := replaceAll_run matchEmptyParagraph (fun _ => "<p></p>".toList)
    (fun _ => ([] : Str)) 0 sound_matchEmptyParagraph hloc_emptyParagraph _ _ h6
  unfold convertMarkdownToHTML
  simp only []
  rw [h7]
  simp

theorem lazyUntil_single (x : Char) (s g r : Str) (h : lazyUntil [x] s = some (g, r)) :
    x ∉ g := by
  induction s generalizing g with
  | nil => simp [lazyUntil, stripPrefix] at h
  | cons c cs ih =>
    simp only [lazyUntil] at h
    split at h
    · cases h; simp
    · rename_i hsp
      split at h
      · cases h
      · simp only [Option.map_eq_some'] at h
        obtain ⟨p, hp, he⟩ := h
        cases he
        have hc : c ≠ x := by
          intro e
          subst e
          simp [stripPrefix] at hsp
        intro hm
        rcases List.mem_cons.mp hm with e | e
        · exact hc e.symm
        · exact ih p.1 hp e

theorem lazyUntil_ext (x : Char) (s g r0 : Str) (h : lazyUntil [x] s = some (g, r0)) (r : Str) :
    lazyUntil [x] (g ++ [x] ++ r) = some (g, r) :=
  lazyUntil_append x [] g r (lazyUntil_single x s g r0 h) (lazyUntil_sound _ _ _ _ h).2

theorem attempt_none_ext (c : Char) (w r0 X : Str) (hw : NoLT w) (hne : w ≠ [])
    (h : (stripPrefix "](".toList (c :: (w ++ ")".toList ++ r0))).bind (lazyUntil ")".toList) = none) :
    (stripPrefix "](".toList (c :: (w ++ ")".toList ++ X))).bind (lazyUntil ")".toList) = none := by
  obtain ⟨x, w', rfl⟩ := List.exists_cons_of_ne_nil hne
  by_cases hc : c = ']'
  · by_cases hx : x = '('
    · subst hc; subst hx
      exfalso
      have h1 : stripPrefix "](".toList (']' :: ('(' :: w' ++ ")".toList ++ r0)) =
          some (w' ++ ")".toList ++ r0) := by
        rw [stripPrefix_eq_some]; simp
      rw [h1] at h
      simp only [Option.some_bind] at h
      have := lazyUntil_isSome ")".toList w' r0 (noLT_cons.mp hw).2
      rw [h] at this
      cases this
    · have : stripPrefix "](".toList (c :: (x :: w' ++ ")".toList ++ X)) = none := by
        simp [stripPrefix, Ne.symm hx]
      rw [this]; rfl
  · have : stripPrefix "](".toList (c :: (x :: w' ++ ")".toList ++ X)) = none := by
      simp [stripPrefix, Ne.symm hc]
    rw [this]; rfl

theorem imageBody_ext (s0 : Str) (r : ImageRef) (r0 : Str) (h : imageBody s0 = some (r, r0))
    (X : Str) :
    imageBody (r.alt ++ "](".toList ++ r.src ++ ")".toList ++ X) = some (r, X) := by
  induction s0 generalizing r with
  | nil => simp [imageBody] at h
  | cons c cs ih =>
    simp only [imageBody] at h
    split at h
    · rename_i src rest' hm
      cases h
      simp only [Option.bind_eq_some] at hm
      obtain ⟨r1, hr1, hr2⟩ := hm
      have h2 := lazyUntil_ext ')' r1 src _ hr2 X
      have h1 : stripPrefix "](".toList (']' :: '(' :: (src ++ ")".toList ++ X)) =
          some (src ++ ")".toList ++ X) := by
        rw [stripPrefix_eq_some]; simp
      have e : ([] : Str) ++ "](".toList ++ src ++ ")".toList ++ X =
          ']' :: '(' :: (src ++ ")".toList ++ X) := by simp
      simp only []
      rw [e]
      simp only [imageBody, h1, Option.some_bind]
      have h2' : lazyUntil ")".toList (src ++ ")".toList ++ X) = some (src, X) := h2
      rw [h2']
    · rename_i hm
      split at h
      · cases h
      · rename_i hlt
        simp only [Option.map_eq_some'] at h
        obtain ⟨p, hp, he⟩ := h
        cases he
        obtain ⟨p1, p2⟩ := p
        have ih' := ih p1 hp
        obtain ⟨e1, e2, e3⟩ := imageBody_sound _ _ _ hp
        simp only [] at ih' e1 e2 e3 ⊢
        have hw : NoLT (p1.alt ++ "](".toList ++ p1.src) := by
          rw [noLT_append, noLT_append]
          exact ⟨⟨e2, by intro c hc; simp at hc; rcases hc with rfl | rfl <;> decide⟩, e3⟩
        have hm' : (stripPrefix "](".toList
            (c :: ((p1.alt ++ "](".toList ++ p1.src) ++ ")".toList ++ p2))).bind
            (lazyUntil ")".toList) = none := by
          rw [← e1]; exact hm
        have hn := attempt_none_ext c _ p2 X hw (by simp) hm'
        have e : (c :: p1.alt) ++ "](".toList ++ p1.src ++ ")".toList ++ X =
            c :: ((p1.alt ++ "](".toList ++ p1.src) ++ ")".toList ++ X) := by simp
        rw [e]
        simp only [imageBody, hn, hlt]
        rw [ih']
        simp

theorem matchImage_ext (b b' : Bool) (s0 : Str) (r : ImageRef) (r0 : Str)
    (h : matchImage b s0 = some (r, r0)) (X : Str) :
    matchImage b' (r.text ++ X) = some (r, X) := by
  simp only [matchImage, Option.bind_eq_some] at h
  obtain ⟨r1, hr1, hr2⟩ := h
  have h1 : stripPrefix "![".toList (r.text ++ X) =
      some (r.alt ++ "](".toList ++ r.src ++ ")".toList ++ X) := by
    rw [stripPrefix_eq_some]; simp [ImageRef.text]
  simp only [matchImage, h1, Option.some_bind]
  exact imageBody_ext r1 r r0 hr2 X

theorem text_getLast (r : ImageRef) : r.text.getLast? = some ')' := by
  rw [List.getLast?_eq_some_iff]
  exact ⟨"![".toList ++ r.alt ++ "](".toList ++ r.src, rfl⟩

theorem noLT_text (r : ImageRef) (ha : NoLT r.alt) (hs : NoLT r.src) : NoLT r.text := by
  unfold ImageRef.text
  simp only [noLT_append]
  refine ⟨⟨⟨⟨?_, ha⟩, ?_⟩, hs⟩, ?_⟩ <;>
    (intro c hc; simp at hc; rcases hc with rfl | rfl <;> decide)

/-- Text appended behind `u` that cannot complete an image reference does not change the
match at the start of `u`. -/
theorem matchImage_append_inert (b : Bool) (u y : Str) (hy : Inert y) :
    matchImage b (u ++ y) = (matchImage b u).map (fun p => (p.1, p.2 ++ y)) := by
  cases h : matchImage b u with
  | some p =>
    obtain ⟨r, rest⟩ := p
    obtain ⟨e, -, -⟩ := matchImage_sound b u r rest h
    have := matchImage_ext b b u r rest h (rest ++ y)
    rw [e]
    simpa using this
  | none =>
    simp only [Option.map_none']
    cases h2 : matchImage b (u ++ y) with
    | none => rfl
    | some p =>
      exfalso
      obtain ⟨r, rest'⟩ := p
      obtain ⟨e, ha, hs⟩ := matchImage_sound b _ r rest' h2
      rcases List.append_eq_append_iff.mp e with ⟨a', e1, e2⟩ | ⟨c', e1, e2⟩
      · -- r.text = u ++ a', y = a' ++ rest'
        have hn : NoLT a' := by
          have := noLT_text r ha hs
          rw [e1] at this
          exact (noLT_append.mp this).2
        have hno := hy a' rest' e2 hn
        cases ha' : a' with
        | nil =>
          rw [ha'] at e1
          simp only [List.append_nil] at e1
          have := matchImage_ext b b _ r rest' h2 []
          rw [List.append_nil, e1, h] at this
          cases this
        | cons x xs =>
          have hl := text_getLast r
          rw [e1, ha', List.getLast?_append_of_ne_nil _ (by simp)] at hl
          have : ')' ∈ a' := by
            rw [ha']
            exact List.mem_of_getLast?_eq_some hl
          exact hno this
      · -- u = r.text ++ c'
        have := matchImage_ext b b _ r rest' h2 c'
        rw [← e1, h] at this
        cases this

theorem hits_append {α : Type} (l1 l2 : List (Seg α)) : hits (l1 ++ l2) = hits l1 ++ hits l2 := by
  induction l1 with
  | nil => rfl
  | cons x l1 ih =>
    cases x with
    | chr c => simpa [hits] using ih
    | hit a => simp [hits, ih]

theorem hits_map_chr {α : Type} (s : Str) : hits (s.map (Seg.chr : Char → Seg α)) = [] := by
  induction s with
  | nil => rfl
  | cons c s ih => simpa [hits] using ih

theorem inert_nil : Inert [] := by
  intro y1 y2 h _
  have := (List.append_eq_nil.mp h.symm).1
  subst this
  simp

theorem inert_of_lineTerminator (x : Char) (r : Str) (hx : isLineTerminator x = true) :
    Inert (x :: r) := by
  intro y1 y2 h hn
  cases y1 with
  | nil => simp
  | cons c y1 =>
    simp only [List.cons_append, List.cons.injEq] at h
    have := hn c (by simp)
    rw [← h.1, hx] at this
    cases this

theorem inert_of_not_mem (y : Str) (hy : ')' ∉ y) : Inert y := by
  intro y1 y2 h _ hm
  exact hy (by rw [h]; exact List.mem_append_left _ hm)

/-- The image references found in `u ++ y` are those found in `u` followed by those found
in `y`, when `y` cannot complete a reference begun in `u`. -/
theorem imageHits_append (y : Str) (hy : Inert y) :
    ∀ (len : Nat) (u : Str) (b : Bool), u.length ≤ len →
      hits (scanGo matchImage 0 b (u ++ y)) =
        hits (scanGo matchImage 0 b u) ++ hits (scanGo matchImage 0 b y) := by
  intro len
  induction len with
  | zero =>
    intro u b hlen
    have : u = [] := List.length_eq_zero.mp (Nat.le_zero.mp hlen)
    subst this
    simp [scanGo_nil, hits]
  | succ len ih =>
    intro u b hlen
    cases u with
    | nil => simp [scanGo_nil, hits]
    | cons c cs =>
      have hD := matchImage_append_inert b (c :: cs) y hy
      cases hm : matchImage b (c :: cs) with
      | none =>
        rw [hm] at hD
        simp only [Option.map_none'] at hD
        rw [List.cons_append] at hD ⊢
        rw [scanGo_cons_none _ _ _ _ hD, scanGo_cons_none _ _ _ _ hm]
        simp only [hits]
        rw [ih cs _ (by simpa using hlen)]
        rw [scanGo_bolFree bolFree_matchImage 0 (isLineTerminator c) b y]
      | some p =>
        obtain ⟨r, rest⟩ := p
        rw [hm] at hD
        simp only [Option.map_some'] at hD
        obtain ⟨e, hne⟩ := sound_matchImage b _ r rest hm
        rw [scanGo_hit_sound sound_matchImage b _ r _ hD,
          scanGo_hit_sound sound_matchImage b _ r _ hm]
        simp only [hits, List.cons_append, List.cons.injEq, true_and]
        have hlt : rest.length ≤ len := by
          have h1 : (c :: cs).length = r.text.length + rest.length := by rw [e]; simp
          have h2 : 0 < r.text.length := List.length_pos.mpr hne
          simp only [List.length_cons] at h1 hlen
          omega
        rw [ih rest _ hlt]
        rw [scanGo_bolFree bolFree_matchImage 0 (bolAfter b r.text) b y]

/-- The image references of a text, whatever the line-start flag. -/
theorem imageRefs_eq (b : Bool) (s : Str) : hits (scanGo matchImage 0 b s) = imageRefs s := by
  unfold imageRefs scan
  rw [scanGo_bolFree bolFree_matchImage 0 b true]

theorem imageRefs_append (u y : Str) (hy : Inert y) :
    imageRefs (u ++ y) = imageRefs u ++ imageRefs y := by
  unfold imageRefs scan
  exact imageHits_append y hy u.length u true (le_refl _)

theorem imageRefs_of_not_mem (s : Str) (hs : '!' ∉ s) : imageRefs s = [] := by
  unfold imageRefs scan
  rw [scanGo_of_not_mem trigger_matchImage s true hs, hits_map_chr]

theorem imageRefs_prefix_not_mem (p s : Str) (hp : '!' ∉ p) : imageRefs (p ++ s) = imageRefs s := by
  unfold imageRefs scan
  rw [scanGo_append_of_not_mem trigger_matchImage p s true hp, hits_append, hits_map_chr,
    List.nil_append, scanGo_bolFree bolFree_matchImage 0 _ true]

theorem imageRefs_cons_lineTerminator (x : Char) (s : Str) (hx : isLineTerminator x = true) :
    imageRefs (x :: s) = imageRefs s := by
  have : x ≠ '!' := by
    intro e; subst e; revert hx; decide
  have := imageRefs_prefix_not_mem [x] s (by simp [Ne.symm this])
  simpa using this

theorem atLineEnd_dropWhile (s : Str) :
    AtLineEnd (s.dropWhile (fun c => !isLineTerminator c)) := by
  cases hd : List.dropWhile (fun c => !isLineTerminator c) s with
  | nil => exact Or.inl rfl
  | cons c r =>
    right
    refine ⟨c, r, rfl, ?_⟩
    have := List.head_dropWhile_not (fun c => !isLineTerminator c) s (by simp [hd])
    simpa [hd] using this

theorem inert_of_atLineEnd (s : Str) (h : AtLineEnd s) : Inert s := by
  rcases h with rfl | ⟨x, r, rfl, hx⟩
  · exact inert_nil
  · exact inert_of_lineTerminator x r hx

theorem matchHeader_lineTerminator (k : Nat) (b : Bool) (x : Char) (r : Str)
    (hx : isLineTerminator x = true) : matchHeader k b (x :: r) = none := by
  cases h : matchHeader k b (x :: r) with
  | none => rfl
  | some p =>
    exfalso
    obtain ⟨t, rest⟩ := p
    obtain ⟨-, e, -, -⟩ := matchHeader_some k b _ t rest h
    cases k with
    | zero =>
      simp only [headerText, List.replicate, List.nil_append, List.cons_append,
        List.cons.injEq] at e
      rw [e.1] at hx
      revert hx; decide
    | succ k =>
      simp only [headerText, List.replicate_succ, List.cons_append, List.cons.injEq] at e
      rw [e.1] at hx
      revert hx; decide

theorem headerScan_atLineEnd (k : Nat) (f : Str → Str) (b : Bool) (s : Str) (h : AtLineEnd s) :
    AtLineEnd (render f (scanGo (matchHeader k) 0 b s)) := by
  rcases h with rfl | ⟨x, r, rfl, hx⟩
  · exact Or.inl rfl
  · rw [scanGo_cons_none _ _ _ _ (matchHeader_lineTerminator k b x r hx)]
    exact Or.inr ⟨x, _, rfl, hx⟩

/-- A header rule does not change the image references of a text. -/
theorem headerStage_imageRefs (k : Nat) (o c : Str)
    (hf : ∀ t, headerTag k t = o ++ t ++ c) (ho : '!' ∉ o) (hc1 : '!' ∉ c) (hc2 : ')' ∉ c) :
    ∀ (len : Nat) (b : Bool) (s : Str), s.length ≤ len →
      imageRefs (render (headerTag k) (scanGo (matchHeader k) 0 b s)) = imageRefs s := by
  intro len
  induction len with
  | zero =>
    intro b s hlen
    have : s = [] := List.length_eq_zero.mp (Nat.le_zero.mp hlen)
    subst this
    rfl
  | succ len ih =>
    intro b s hlen
    cases s with
    | nil => rfl
    | cons c0 cs =>
      cases hm : matchHeader k b (c0 :: cs) with
      | some p =>
        obtain ⟨t, rest⟩ := p
        obtain ⟨-, e, -, hrest⟩ := matchHeader_some k b _ t rest hm
        have hlt : rest.length ≤ len := by
          have h1 : (c0 :: cs).length = (headerText k t).length + rest.length := by rw [e]; simp
          have h2 : 0 < (headerText k t).length := by simp [headerText]
          simp only [List.length_cons] at h1 hlen
          omega
        rw [scanGo_hit_sound (sound_matchHeader k) b _ t rest hm]
        simp only [render]
        have hR := headerScan_atLineEnd k (headerTag k) (bolAfter b (headerText k t)) rest hrest
        rw [imageRefs_append _ _ (inert_of_atLineEnd _ hR), ih _ rest hlt, hf,
          imageRefs_append _ c (inert_of_not_mem c hc2), imageRefs_of_not_mem c hc1,
          imageRefs_prefix_not_mem o t ho, List.append_nil]
        rw [e, imageRefs_append _ _ (inert_of_atLineEnd _ hrest)]
        have : headerText k t = (List.replicate k '#' ++ [' ']) ++ t := by simp [headerText]
        rw [this, imageRefs_prefix_not_mem _ t (by simp [List.mem_replicate])]
      | none =>
        rw [scanGo_cons_none _ _ _ _ hm]
        simp only [render]
        by_cases hx : isLineTerminator c0 = true
        · rw [imageRefs_cons_lineTerminator c0 _ hx, imageRefs_cons_lineTerminator c0 _ hx]
          exact ih _ cs (by simpa using hlen)
        · have hx' : isLineTerminator c0 = false := by simpa using hx
          rw [hx']
          have hsplit := List.takeWhile_append_dropWhile (fun c => !isLineTerminator c) cs
          have hu : ∀ x ∈ List.takeWhile (fun c => !isLineTerminator c) cs,
              isLineTerminator x = false := by
            intro x hxm
            have := List.mem_takeWhile_imp hxm
            simpa using this
          have hrest := atLineEnd_dropWhile cs
          have hlt : (List.dropWhile (fun c => !isLineTerminator c) cs).length ≤ len := by
            have h1 : cs.length = (List.takeWhile (fun c => !isLineTerminator c) cs).length +
                (List.dropWhile (fun c => !isLineTerminator c) cs).length := by
              have := congrArg List.length hsplit
              rw [List.length_append] at this
              exact this.symm
            simp only [List.length_cons] at hlen
            omega
          have e1 : scanGo (matchHeader k) 0 false cs =
              (List.takeWhile (fun c => !isLineTerminator c) cs).map Seg.chr ++
                scanGo (matchHeader k) 0 false
                  (List.dropWhile (fun c => !isLineTerminator c) cs) := by
            conv_lhs => rw [← hsplit]
            exact scanGo_header_midline k _ _ hu
          rw [e1, render_map_chr]
          have hR := headerScan_atLineEnd k (headerTag k) false _ hrest
          have e2 : c0 :: (List.takeWhile (fun c => !isLineTerminator c) cs ++
              render (headerTag k) (scanGo (matchHeader k) 0 false
                (List.dropWhile (fun c => !isLineTerminator c) cs))) =
              (c0 :: List.takeWhile (fun c => !isLineTerminator c) cs) ++
              render (headerTag k) (scanGo (matchHeader k) 0 false
                (List.dropWhile (fun c => !isLineTerminator c) cs)) := rfl
          rw [e2, imageRefs_append _ _ (inert_of_atLineEnd _ hR), ih _ _ hlt]
          have e3 : c0 :: cs = (c0 :: List.takeWhile (fun c => !isLineTerminator c) cs) ++
              List.dropWhile (fun c => !isLineTerminator c) cs := by
            rw [List.cons_append, hsplit]
          conv_rhs => rw [e3]
          rw [imageRefs_append _ _ (inert_of_atLineEnd _ hrest)]

theorem convertHeaders_imageRefs (s : Str) : imageRefs (convertHeaders s) = imageRefs s := by
  unfold convertHeaders replaceAll scan
  rw [headerStage_imageRefs 4 "<h4>".toList "</h4>".toList headerTag_four (by decide) (by decide)
      (by decide) _ true _ (le_refl _),
    headerStage_imageRefs 3 "<h3>".toList "</h3>".toList headerTag_three (by decide) (by decide)
      (by decide) _ true _ (le_refl _),
    headerStage_imageRefs 2 "<h2>".toList "</h2>".toList headerTag_two (by decide) (by decide)
      (by decide) _ true _ (le_refl _),
    headerStage_imageRefs 1 "<h1>".toList "</h1>".toList headerTag_one (by decide) (by decide)
      (by decide) _ true _ (le_refl _)]

theorem splitFirstImage_some (s pre : Str) (r : ImageRef) (post : Str)
    (h : splitFirstImage s = some (pre, r, post)) :
    s = pre ++ r.text ++ post ∧ matchImage true (r.text ++ post) = some (r, post) ∧
      (∀ a b, pre = a ++ b → b ≠ [] → matchImage true (b ++ r.text ++ post) = none) ∧
      execImage s = some r := by
  induction s generalizing pre with
  | nil => simp [splitFirstImage] at h
  | cons c cs ih =>
    simp only [splitFirstImage] at h
    split at h
    · rename_i r' rest hm
      simp only [Option.some.injEq, Prod.mk.injEq] at h
      obtain ⟨rfl, rfl, rfl⟩ := h
      obtain ⟨e1, -, -⟩ := matchImage_sound _ _ _ _ hm
      refine ⟨by simpa using e1, by rw [← e1]; exact hm, ?_, by simp [execImage, hm]⟩
      intro a b hab hb
      have := List.append_eq_nil.mp hab.symm
      exact absurd this.2 hb
    · rename_i hm
      simp only [Option.map_eq_some'] at h
      obtain ⟨p, hp, he⟩ := h
      obtain ⟨p1, p2, p3⟩ := p
      simp only [Prod.mk.injEq] at he
      obtain ⟨rfl, rfl, rfl⟩ := he
      obtain ⟨e1, e2, e3, e4⟩ := ih p1 hp
      refine ⟨by rw [e1]; simp, e2, ?_, by simp [execImage, hm, e4]⟩
      intro a b hab hb
      cases a with
      | nil =>
        simp only [List.nil_append] at hab
        subst hab
        have : (c :: p1) ++ p2.text ++ p3 = c :: cs := by rw [e1]; simp
        rw [this]
        exact hm
      | cons x a =>
        simp only [List.cons_append, List.cons.injEq] at hab
        exact e3 a b hab.2 hb

theorem splitFirstImage_none (s : Str) (h : splitFirstImage s = none) : execImage s = none := by
  induction s with
  | nil => rfl
  | cons c cs ih =>
    simp only [splitFirstImage] at h
    split at h
    · cases h
    · rename_i hm
      simp only [Option.map_eq_none'] at h
      simp [execImage, hm, ih h]

theorem removeFirstImage_of_split (pre : Str) (r : ImageRef) (post : Str)
    (e2 : matchImage true (r.text ++ post) = some (r, post))
    (e3 : ∀ a b, pre = a ++ b → b ≠ [] → matchImage true (b ++ r.text ++ post) = none)
    (e4 : execImage (pre ++ r.text ++ post) = some r) :
    removeFirstImage (pre ++ r.text ++ post) = pre ++ post := by
  obtain ⟨-, ha, hs⟩ := matchImage_sound _ _ _ _ e2
  simp only [removeFirstImage, e4]
  have := replaceFirst_at r.text [] pre post (fun a b hab hb => by
    cases hsp : stripPrefix r.text (b ++ r.text ++ post) with
    | none => rfl
    | some x =>
      exfalso
      rw [stripPrefix_eq_some] at hsp
      have h1 := e3 a b hab hb
      have h2 := matchImage_isSome true r x ha hs
      rw [← hsp, h1] at h2
      cases h2)
  simpa using this

theorem scanGo_prefix_none {α : Type} {m : Bool → Str → Option (α × Str)} (hb : BolFree m)
    (pre Y : Str) (bol : Bool)
    (h : ∀ a b, pre = a ++ b → b ≠ [] → m true (b ++ Y) = none) :
    scanGo m 0 bol (pre ++ Y) = pre.map Seg.chr ++ scanGo m 0 true Y := by
  induction pre generalizing bol with
  | nil => exact scanGo_bolFree hb 0 bol true Y
  | cons c pre ih =>
    have h0 : m bol (c :: (pre ++ Y)) = none := by
      rw [hb bol true]
      exact h [] (c :: pre) rfl (by simp)
    rw [List.cons_append, scanGo_cons_none m bol c _ h0,
      ih _ (fun a b hab hne => h (c :: a) b (by simp [hab]) hne)]
    rfl

/-- Unless the removal of the leftmost reference joins `!` and `[`, no image reference
starts in the text before it once it is removed. -/
theorem no_new_match (pre : Str) (r : ImageRef) (post : Str)
    (e2 : matchImage true (r.text ++ post) = some (r, post))
    (e3 : ∀ a b, pre = a ++ b → b ≠ [] → matchImage true (b ++ r.text ++ post) = none)
    (hj : ¬ (pre.getLast? = some '!' ∧ post.head? = some '[')) :
    ∀ a b, pre = a ++ b → b ≠ [] → matchImage true (b ++ post) = none := by
  intro a b hab hb
  obtain ⟨-, hra, hrs⟩ := matchImage_sound _ _ _ _ e2
  cases hm : matchImage true (b ++ post) with
  | none => rfl
  | some p =>
    exfalso
    obtain ⟨r', rest'⟩ := p
    obtain ⟨e, ha', hs'⟩ := matchImage_sound _ _ _ _ hm
    have hnone := e3 a b hab hb
    rcases List.append_eq_append_iff.mp e with ⟨a', e1, e5⟩ | ⟨c', e1, e5⟩
    · -- r'.text = b ++ a', post = a' ++ rest'
      have hbn : NoLT b := by
        have := noLT_text r' ha' hs'
        rw [e1] at this
        exact (noLT_append.mp this).1
      have htext : r'.text = '!' :: '[' :: (r'.alt ++ "](".toList ++ r'.src ++ ")".toList) := by
        simp [ImageRef.text]
      rw [htext] at e1
      cases b with
      | nil => exact hb rfl
      | cons b0 b1 =>
        simp only [List.cons_append, List.cons.injEq] at e1
        obtain ⟨rfl, e1⟩ := e1
        cases b1 with
        | nil =>
          simp only [List.nil_append] at e1
          apply hj
          constructor
          · rw [hab]; simp
          · rw [e5, ← e1]; rfl
        | cons b2 b3 =>
          simp only [List.cons_append, List.cons.injEq] at e1
          obtain ⟨rfl, e1⟩ := e1
          have hb3 : NoLT b3 := (noLT_cons.mp (noLT_cons.mp hbn).2).2
          have hsome := matchImage_isSome true
            ⟨b3 ++ "![".toList ++ r.alt, r.src⟩ post
            (by
              simp only [noLT_append]
              refine ⟨⟨hb3, ?_⟩, hra⟩
              intro c hc; simp at hc; rcases hc with rfl | rfl <;> decide)
            hrs
          have heq : (⟨b3 ++ "![".toList ++ r.alt, r.src⟩ : ImageRef).text ++ post =
              '!' :: '[' :: b3 ++ r.text ++ post := by
            simp [ImageRef.text]
          rw [heq, hnone] at hsome
          cases hsome
    · -- b = r'.text ++ c'
      have hsome := matchImage_isSome true r' (c' ++ r.text ++ post) ha' hs'
      have heq : r'.text ++ (c' ++ r.text ++ post) = b ++ r.text ++ post := by
        rw [e1]; simp
      rw [heq, hnone] at hsome
      cases hsome

theorem imageRefs_split (pre : Str) (r : ImageRef) (post : Str)
    (e2 : matchImage true (r.text ++ post) = some (r, post))
    (e3 : ∀ a b, pre = a ++ b → b ≠ [] → matchImage true (b ++ r.text ++ post) = none) :
    imageRefs (pre ++ r.text ++ post) = r :: imageRefs post := by
  unfold imageRefs scan
  rw [List.append_assoc, scanGo_prefix_none bolFree_matchImage pre _ true
    (fun a b hab hb => by rw [← List.append_assoc]; exact e3 a b hab hb),
    hits_append, hits_map_chr, List.nil_append,
    scanGo_hit_sound sound_matchImage true _ r post e2]
  simp only [hits, List.cons.injEq, true_and]
  exact imageRefs_eq _ post

theorem imageRefs_removed (pre : Str) (r : ImageRef) (post : Str)
    (e2 : matchImage true (r.text ++ post) = some (r, post))
    (e3 : ∀ a b, pre = a ++ b → b ≠ [] → matchImage true (b ++ r.text ++ post) = none)
    (hj : ¬ (pre.getLast? = some '!' ∧ post.head? = some '[')) :
    imageRefs (pre ++ post) = imageRefs post := by
  unfold imageRefs scan
  rw [scanGo_prefix_none bolFree_matchImage pre _ true (no_new_match pre r post e2 e3 hj),
    hits_append, hits_map_chr, List.nil_append]

/-- Unless the removal of the leftmost reference joins `!` and `[`, the text after the
first step has one image reference less (none less when it has none). -/
theorem imageRefs_removeFirstImage (text : Str) (hj : firstImageJoins text = false) :
    (imageRefs (removeFirstImage text)).length = (imageRefs text).length - 1 := by
  cases hsp : splitFirstImage text with
  | none =>
    have hn := splitFirstImage_none text hsp
    have hrefs : imageRefs text = [] := by
      unfold imageRefs scan
      have := scanGo_prefix_none bolFree_matchImage text [] true
        (fun a b hab _ => by
          rw [List.append_nil]
          exact execImage_none text hn a b hab)
      rw [List.append_nil] at this
      rw [this, scanGo_nil, List.append_nil, hits_map_chr]
    simp [removeFirstImage, hn, hrefs]
  | some p =>
    obtain ⟨pre, r, post⟩ := p
    obtain ⟨e1, e2, e3, e4⟩ := splitFirstImage_some text pre r post hsp
    have hj' : ¬ (pre.getLast? = some '!' ∧ post.head? = some '[') := by
      intro h
      simp [firstImageJoins, hsp, h.1, h.2] at hj
    rw [e1, removeFirstImage_of_split pre r post e2 e3 (e1 ▸ e4),
      imageRefs_removed pre r post e2 e3 hj', imageRefs_split pre r post e2 e3]
    simp

/-- Claim C1, as amended: for a text without `<` (and an open book whose folder name has
no `<`), the output contains exactly as many inline image elements `<img` as the text has
image references once the first step has removed the leftmost one; that number is N - 1,
N being the number of image references of the text, unless the leftmost reference stands
directly between a `!` and a `[`, which its removal joins into the start of a new
reference.  In particular a text with one image reference, not so placed, renders with no
inline image. -/
theorem C1_inline_images (d : Option BookDetails) (text : Str) (hlt : '<' ∉ text)
    (hfolder : ∀ b, d = some b → '<' ∉ b.folder) :
    imgCount (convertMarkdownToHTML d text) = (imageRefs (removeFirstImage text)).length ∧
    (firstImageJoins text = false →
      imgCount (convertMarkdownToHTML d text) = (imageRefs text).length - 1) := by
  have h := convert_run d text hlt hfolder
  have e := imgCount_of_tagRun _ _ _ h
  have e2 : (hits (scan matchImage (convertHeaders (removeFirstImage text)))).length =
      (imageRefs (removeFirstImage text)).length := by
    have := convertHeaders_imageRefs (removeFirstImage text)
    unfold imageRefs at this
    rw [this]
    rfl
  rw [e2] at e
  exact ⟨e, fun hj => by rw [e, imageRefs_removeFirstImage text hj]⟩

/-- Claim C1, as amended, on a text with two image references and the sample book open:
one inline image, whose source is rewritten into the folder of the book. -/
theorem C1_inline_images_witness :
    '<' ∉ "# T\n\n![a](illustrations/a.png) one ![b](illustrations/b.png) two".toList ∧
    (∀ b, some sampleDetails = some b → '<' ∉ b.folder) ∧
    firstImageJoins "# T\n\n![a](illustrations/a.png) one ![b](illustrations/b.png) two".toList
      = false ∧
    (imageRefs "# T\n\n![a](illustrations/a.png) one ![b](illustrations/b.png) two".toList).length
      = 2 ∧
    (imgCount (convertMarkdownToHTML (some sampleDetails)
        "# T\n\n![a](illustrations/a.png) one ![b](illustrations/b.png) two".toList) =
      (imageRefs (removeFirstImage
        "# T\n\n![a](illustrations/a.png) one ![b](illustrations/b.png) two".toList)).length ∧
     (firstImageJoins "# T\n\n![a](illustrations/a.png) one ![b](illustrations/b.png) two".toList
        = false →
      imgCount (convertMarkdownToHTML (some sampleDetails)
        "# T\n\n![a](illustrations/a.png) one ![b](illustrations/b.png) two".toList) =
      (imageRefs
        "# T\n\n![a](illustrations/a.png) one ![b](illustrations/b.png) two".toList).length - 1)) :=
  ⟨by decide, by intro b hb; cases hb; decide, by decide, by decide,
    C1_inline_images (some sampleDetails) _ (by decide) (by intro b hb; cases hb; decide)⟩

/-- Claim C1 as stated fails: in `!![a](b)[c](d)` the one image reference is `![a](b)`,
its removal leaves `![c](d)`, and the output holds one inline image instead of none; in
`<i![a](b)mg` the removal of the one reference leaves a literal `<img` in the output.
Neither text contains `<img`. -/
theorem C1_inline_images_not_one_less :
    ((imageRefs "!![a](b)[c](d)".toList).length = 1 ∧
      imgCount "!![a](b)[c](d)".toList = 0 ∧
      imgCount (convertMarkdownToHTML none "!![a](b)[c](d)".toList) = 1) ∧
    ((imageRefs "<i![a](b)mg".toList).length = 1 ∧
      imgCount "<i![a](b)mg".toList = 0 ∧
      imgCount (convertMarkdownToHTML none "<i![a](b)mg".toList) = 1) := by
  decide

/-- What `displayChapter` followed by further statements leaves untouched among the
preferences. -/
theorem displayChapter_prefs (s : Session) (ch : Option Chapter) (f : Session → Outcome) :
    ((displayChapter s ch).andThen f).state.fontSizeIndex = s.fontSizeIndex ∧
    ((displayChapter s ch).andThen f).state.bookmarks = s.bookmarks ∧
    ((displayChapter s ch).andThen f).state.storedBookmarks = s.storedBookmarks := by
  cases ch <;> exact ⟨rfl, rfl, rfl⟩

theorem prefs_prev (s : Session) :
    (prevChapterClick s).state.fontSizeIndex = s.fontSizeIndex ∧
    (prevChapterClick s).state.bookmarks = s.bookmarks ∧
    (prevChapterClick s).state.storedBookmarks = s.storedBookmarks := by
  unfold prevChapterClick
  split
  · simp only []
    split
    · exact ⟨rfl, rfl, rfl⟩
    · exact displayChapter_prefs _ _ _
  · exact ⟨rfl, rfl, rfl⟩

theorem prefs_next (s : Session) :
    (nextChapterClick s).state.fontSizeIndex = s.fontSizeIndex ∧
    (nextChapterClick s).state.bookmarks = s.bookmarks ∧
    (nextChapterClick s).state.storedBookmarks = s.storedBookmarks := by
  unfold nextChapterClick
  split
  · exact ⟨rfl, rfl, rfl⟩
  · split
    · exact displayChapter_prefs _ _ _
    · exact ⟨rfl, rfl, rfl⟩

theorem prefs_hideTimer (s : Session) :
    (hideTimerFires s).state.fontSizeIndex = s.fontSizeIndex ∧
    (hideTimerFires s).state.bookmarks = s.bookmarks ∧
    (hideTimerFires s).state.storedBookmarks = s.storedBookmarks := by
  unfold hideTimerFires
  split <;> exact ⟨rfl, rfl, rfl⟩

theorem prefs_key (s : Session) (k : Key) :
    (keydown s k).state.fontSizeIndex = s.fontSizeIndex ∧
    (keydown s k).state.bookmarks = s.bookmarks ∧
    (keydown s k).state.storedBookmarks = s.storedBookmarks := by
  by_cases hm : s.modalDisplayBlock = true
  · cases k with
    | escape =>
      have : keydown s Key.escape = closeModal s := by simp [keydown, hm]
      rw [this]; exact ⟨rfl, rfl, rfl⟩
    | arrowLeft => rw [keydown_arrowLeft s hm]; exact prefs_prev s
    | arrowRight => rw [keydown_arrowRight s hm]; exact prefs_next s
    | other =>
      have : keydown s Key.other = { state := s, error := none } := by simp [keydown, hm]
      rw [this]; exact ⟨rfl, rfl, rfl⟩
  · have : keydown s k = { state := s, error := none } := by simp [keydown, hm]
    rw [this]; exact ⟨rfl, rfl, rfl⟩

theorem prefs_chapterItem (s : Session) (item : Nat) :
    (chapterItemClick s item).state.fontSizeIndex = s.fontSizeIndex ∧
    (chapterItemClick s item).state.bookmarks = s.bookmarks ∧
    (chapterItemClick s item).state.storedBookmarks = s.storedBookmarks := by
  unfold chapterItemClick
  split
  · exact ⟨rfl, rfl, rfl⟩
  · exact displayChapter_prefs _ _ _

theorem prefs_startReading (s : Session) :
    (startReadingClick s).state.fontSizeIndex = s.fontSizeIndex ∧
    (startReadingClick s).state.bookmarks = s.bookmarks ∧
    (startReadingClick s).state.storedBookmarks = s.storedBookmarks := by
  unfold startReadingClick
  split
  · rename_i details _
    cases details.chapters[0]? <;> exact ⟨rfl, rfl, rfl⟩
  · exact ⟨rfl, rfl, rfl⟩

theorem prefs_bookInfo (s : Session) :
    (bookInfoClick s).state.fontSizeIndex = s.fontSizeIndex ∧
    (bookInfoClick s).state.bookmarks = s.bookmarks ∧
    (bookInfoClick s).state.storedBookmarks = s.storedBookmarks := by
  unfold bookInfoClick
  split <;> exact ⟨rfl, rfl, rfl⟩

theorem prefs_loadSettles (s : Session) (k : Nat) :
    (loadSettles s k).state.fontSizeIndex = s.fontSizeIndex ∧
    (loadSettles s k).state.bookmarks = s.bookmarks ∧
    (loadSettles s k).state.storedBookmarks = s.storedBookmarks := by
  unfold loadSettles
  split
  · exact ⟨rfl, rfl, rfl⟩
  · split <;> exact ⟨rfl, rfl, rfl⟩

/-- The bookmark handler leaves the font size alone and stores the bookmarks it leaves in
memory. -/
theorem prefs_toggle (s : Session) (h : readBookmarks s.storedBookmarks = s.bookmarks) :
    (toggleBookmark s).state.fontSizeIndex = s.fontSizeIndex ∧
    readBookmarks (toggleBookmark s).state.storedBookmarks = (toggleBookmark s).state.bookmarks := by
  unfold toggleBookmark
  split
  · exact ⟨rfl, h⟩
  · simp only []
    split <;> exact ⟨rfl, rfl⟩

/-- Every event of the reading session leaves the font size alone and keeps the stored
bookmarks equal to the bookmarks in memory. -/
theorem prefs_step (s : Session) (e : Event) (h : readBookmarks s.storedBookmarks = s.bookmarks) :
    (step s e).fontSizeIndex = s.fontSizeIndex ∧
    readBookmarks (step s e).storedBookmarks = (step s e).bookmarks := by
  have key : ∀ t : Session, t.fontSizeIndex = s.fontSizeIndex ∧ t.bookmarks = s.bookmarks ∧
      t.storedBookmarks = s.storedBookmarks →
      t.fontSizeIndex = s.fontSizeIndex ∧ readBookmarks t.storedBookmarks = t.bookmarks :=
    fun t ht => ⟨ht.1, by rw [ht.2.2, ht.2.1]; exact h⟩
  cases e with
  | openBook book src order => exact key _ ⟨rfl, rfl, rfl⟩
  | loadSettles k => exact key _ (prefs_loadSettles s k)
  | prevClick => exact key _ (prefs_prev s)
  | nextClick => exact key _ (prefs_next s)
  | key k => exact key _ (prefs_key s k)
  | chapterItem item => exact key _ (prefs_chapterItem s item)
  | startReading => exact key _ (prefs_startReading s)
  | bookInfo => exact key _ (prefs_bookInfo s)
  | bookmarkClick => exact prefs_toggle s h
  | close => exact key _ ⟨rfl, rfl, rfl⟩
  | hideTimer => exact key _ (prefs_hideTimer s)

/-- The stored bookmarks equal the bookmarks in memory after every event of a page, and so
does the stored font size when the page has an element `.book-main`. -/
theorem prefs_pageStep (p : Page) (e : PageEvent)
    (hb : readBookmarks p.session.storedBookmarks = p.session.bookmarks) :
    (pageStep p e).bookMain = p.bookMain ∧
    readBookmarks (pageStep p e).session.storedBookmarks = (pageStep p e).session.bookmarks ∧
    (p.bookMain = true →
      readFontSizeIndex p.storedFontSizeIndex = p.session.fontSizeIndex →
      readFontSizeIndex (pageStep p e).storedFontSizeIndex =
        (pageStep p e).session.fontSizeIndex) := by
  cases e with
  | session e =>
    refine ⟨rfl, (prefs_step p.session e hb).2, fun _ hf => ?_⟩
    exact hf.trans (prefs_step p.session e hb).1.symm
  | fontSize =>
    cases hm : p.bookMain with
    | true => simp [pageStep, fontSizeClick, hm, hb, readFontSizeIndex]
    | false => simp [pageStep, fontSizeClick, hm, hb]

theorem prefs_pageRun (events : List PageEvent) (p : Page)
    (hb : readBookmarks p.session.storedBookmarks = p.session.bookmarks) :
    readBookmarks (pageRun p events).session.storedBookmarks =
      (pageRun p events).session.bookmarks ∧
    (p.bookMain = true →
      readFontSizeIndex p.storedFontSizeIndex = p.session.fontSizeIndex →
      readFontSizeIndex (pageRun p events).storedFontSizeIndex =
        (pageRun p events).session.fontSizeIndex) := by
  induction events generalizing p with
  | nil => exact ⟨hb, fun _ hf => hf⟩
  | cons e rest ih =>
    obtain ⟨h1, h2, h3⟩ := prefs_pageStep p e hb
    obtain ⟨i1, i2⟩ := ih (pageStep p e) h2
    refine ⟨i1, fun hm hf => ?_⟩
    exact i2 (h1.trans hm) (h3 hm hf)

/-- C13 (amended): after any sequence of font size clicks, bookmark clicks, navigation,
book openings, load completions and closings from the start of the page, reading the item
`bookmarks` of the store as the start of the page does yields the bookmarks in memory; and
when the page has the element `.book-main`, inside whose test the font size handler writes
the store, reading the item `fontSizeIndex` (default 1) yields the font size in memory. -/
theorem C13_preferences_persisted (storedBookmarks : Option Bookmarks)
    (storedFontSizeIndex : Option Nat) (bookMain : Bool) (events : List PageEvent) :
    readBookmarks (pageRun (startPage storedBookmarks storedFontSizeIndex bookMain)
        events).session.storedBookmarks =
      (pageRun (startPage storedBookmarks storedFontSizeIndex bookMain) events).session.bookmarks ∧
    (bookMain = true →
      readFontSizeIndex (pageRun (startPage storedBookmarks storedFontSizeIndex bookMain)
          events).storedFontSizeIndex =
        (pageRun (startPage storedBookmarks storedFontSizeIndex bookMain)
          events).session.fontSizeIndex) := by
  obtain ⟨h1, h2⟩ := prefs_pageRun events (startPage storedBookmarks storedFontSizeIndex bookMain) rfl
  exact ⟨h1, fun hm => h2 hm rfl⟩

/-- C13 at a concrete run: with `.book-main` present, two font size clicks from an empty
store, between them a book that opens and loads and a bookmark click, leave level 0 both
in memory and in the store. -/
theorem C13_preferences_persisted_witness :
    readFontSizeIndex (pageRun (startPage none none true)
        [PageEvent.fontSize, PageEvent.session (Event.openBook bookFive sourceTwo [0, 1]),
         PageEvent.session (Event.loadSettles 0), PageEvent.session Event.bookmarkClick,
         PageEvent.fontSize]).storedFontSizeIndex =
      (pageRun (startPage none none true)
        [PageEvent.fontSize, PageEvent.session (Event.openBook bookFive sourceTwo [0, 1]),
         PageEvent.session (Event.loadSettles 0), PageEvent.session Event.bookmarkClick,
         PageEvent.fontSize]).session.fontSizeIndex ∧
    (pageRun (startPage none none true)
        [PageEvent.fontSize, PageEvent.session (Event.openBook bookFive sourceTwo [0, 1]),
         PageEvent.session (Event.loadSettles 0), PageEvent.session Event.bookmarkClick,
         PageEvent.fontSize]).session.fontSizeIndex = 0 :=
  ⟨(C13_preferences_persisted none none true _).2 rfl, by decide⟩

/-- C13 as stated fails without the element `.book-main`: one font size click from an
empty store moves the level in memory to 2 and writes nothing, so reading the store again
yields the default 1. -/
theorem C13_font_size_not_persisted :
    (pageRun (startPage none none false) [PageEvent.fontSize]).session.fontSizeIndex = 2 ∧
    (pageRun (startPage none none false) [PageEvent.fontSize]).storedFontSizeIndex = none ∧
    readFontSizeIndex
      (pageRun (startPage none none false) [PageEvent.fontSize]).storedFontSizeIndex = 1 := by
  decide

/-- C15: the font size handler moves level `i` to `(i + 1) mod 3`, which is again one of
0, 1, 2, and for `i` among 0, 1, 2 three clicks in a row bring the level back to `i`. -/
theorem C15_font_size_cycle (p : Page) (h : p.session.fontSizeIndex < 3) :
    (fontSizeClick p).session.fontSizeIndex = (p.session.fontSizeIndex + 1) % 3 ∧
    (fontSizeClick p).session.fontSizeIndex < 3 ∧
    (fontSizeClick (fontSizeClick (fontSizeClick p))).session.fontSizeIndex =
      p.session.fontSizeIndex := by
  have h1 : ∀ q : Page, (fontSizeClick q).session.fontSizeIndex =
      (q.session.fontSizeIndex + 1) % 3 := by
    intro q
    unfold fontSizeClick
    split <;> rfl
  refine ⟨h1 p, ?_, ?_⟩
  · rw [h1]
    exact Nat.mod_lt _ (by decide)
  · rw [h1, h1, h1]
    omega

/-- C15 at the start of the page over an empty store: level 1 (medium) goes to 2 (large),
and three clicks return to 1. -/
theorem C15_font_size_cycle_witness :
    (fontSizeClick (startPage none none true)).session.fontSizeIndex = (1 + 1) % 3 ∧
    (fontSizeClick (startPage none none true)).session.fontSizeIndex < 3 ∧
    (fontSizeClick (fontSizeClick (fontSizeClick (startPage none none true)))).session.fontSizeIndex
      = 1 :=
  C15_font_size_cycle (startPage none none true) (by decide)

/-- C14 (defect): `updateBookmarkState` raises a ReferenceError in every session and
changes nothing, so every `displayChapter` of a chapter ends with that error and leaves
the bookmark indicator as it was.  In the sample book: bookmark the first chapter (the
indicator turns active), press next: the second chapter is shown, it is not bookmarked,
and the indicator is still active. -/
theorem C14_bookmark_state_raises :
    (∀ s : Session, (updateBookmarkState s).error = some JsError.referenceError ∧
      (updateBookmarkState s).state = s) ∧
    (∀ (s : Session) (ch : Chapter),
      (displayChapter s (some ch)).error = some JsError.referenceError ∧
      (displayChapter s (some ch)).state.bookmarkIconActive = s.bookmarkIconActive) ∧
    (toggleBookmark sampleSession).state.bookmarkIconActive = true ∧
    (nextChapterClick (toggleBookmark sampleSession).state).error =
      some JsError.referenceError ∧
    (nextChapterClick (toggleBookmark sampleSession).state).state.currentChapterIndex = 1 ∧
    displayedNumber (nextChapterClick (toggleBookmark sampleSession).state).state = some 2 ∧
    (nextChapterClick (toggleBookmark sampleSession).state).state.bookmarkIconActive = true ∧
    isBookmarked (nextChapterClick (toggleBookmark sampleSession).state).state.bookmarks
      sampleDetails 1 = false := by
  refine ⟨fun s => ⟨rfl, rfl⟩, fun s ch => ⟨rfl, rfl⟩, ?_, ?_, ?_, ?_, ?_, ?_⟩ <;> decide

theorem numbered_sampleDetails : numbered sampleDetails.chapters := by
  intro k c hc
  have hk : k < 5 := by
    have := (List.getElem?_eq_some_iff.mp hc).1
    simpa [sampleDetails] using this
  interval_cases k <;> (simp [sampleDetails, sampleChapter] at hc; rw [← hc])

/-- C16: with a book of `n` chapters open whose chapters, numbered 1 to `n` as
`fetchBookDetails` numbers them, are the entries of the sidebar, a click on the sidebar
entry of index `i` with `i < n` sets the current chapter index to `i` (the book stays the
current one); for `i` outside that range there is no entry, the request changes nothing
and the current chapter index is left as it was. -/
theorem C16_chapter_selection (s : Session) (d : BookDetails) (i : Nat)
    (hd : s.currentBookDetails = some d) (hs : s.sidebar = d.chapters)
    (hn : numbered d.chapters) :
    (i < d.chapters.length →
      (chapterItemClick s i).state.currentChapterIndex = i ∧
      (chapterItemClick s i).state.currentBookDetails = some d) ∧
    (d.chapters.length ≤ i →
      chapterItemClick s i = { state := s, error := none } ∧
      (chapterItemClick s i).state.currentChapterIndex = s.currentChapterIndex) := by
  refine ⟨fun hi => ?_, fun hi => ?_⟩
  · have hc : s.sidebar[i]? = some (d.chapters.get ⟨i, hi⟩) := by
      rw [hs]
      exact List.getElem?_eq_getElem hi
    have hnum := hn i _ (hs ▸ hc)
    unfold chapterItemClick
    rw [hc]
    simp only []
    rw [(displayChapter_frame _ _ _).1, (displayChapter_frame _ _ _).2.1]
    exact ⟨by simp only [hnum, Nat.add_sub_cancel], hd⟩
  · have hnone : s.sidebar[i]? = none := by
      rw [hs]
      exact List.getElem?_eq_none hi
    have e : chapterItemClick s i = { state := s, error := none } := by
      unfold chapterItemClick
      rw [hnone]
    exact ⟨e, by rw [e]⟩

/-- C16 in the sample book of five chapters, open at index 0: a click on the third entry
sets the index to 2, and a request for index 7 changes nothing; the same after a book of
five chapters has been opened and loaded from the start of the page. -/
theorem C16_chapter_selection_witness :
    ((chapterItemClick sampleSession 2).state.currentChapterIndex = 2 ∧
      (chapterItemClick sampleSession 2).state.currentBookDetails = some sampleDetails) ∧
    (chapterItemClick sampleSession 7 = { state := sampleSession, error := none } ∧
      (chapterItemClick sampleSession 7).state.currentChapterIndex =
        sampleSession.currentChapterIndex) ∧
    (run (initialSession none 1) [Event.openBook bookFive sourceFive [4, 2, 0, 1, 3],
      Event.loadSettles 0, Event.chapterItem 3]).currentChapterIndex = 3 ∧
    (run (initialSession none 1) [Event.openBook bookFive sourceFive [4, 2, 0, 1, 3],
      Event.loadSettles 0, Event.chapterItem 3, Event.chapterItem 5]).currentChapterIndex = 3 :=
  ⟨(C16_chapter_selection sampleSession sampleDetails 2 rfl rfl numbered_sampleDetails).1
      (by decide),
    (C16_chapter_selection sampleSession sampleDetails 7 rfl rfl numbered_sampleDetails).2
      (by decide),
    by decide, by decide⟩

/-- C17 (defect): in the sample book, after going to the third chapter and back to the
overview, Start Reading shows chapter 1 but ends with an error before the index is
assigned: the index is still 2 and the highlighted sidebar entry is entry 2.  In general
the handler leaves the index as it was, and the highlight is computed from the index as
it was. -/
theorem C17_start_reading_keeps_index :
    (∀ s : Session, (startReadingClick s).state.currentChapterIndex = s.currentChapterIndex) ∧
    (∀ (s : Session) (ch : Chapter),
      (displayChapter s (some ch)).state.highlighted =
        (s.sidebar.map (fun c => c.number - 1)).filter (fun k => k = s.currentChapterIndex)) ∧
    displayedNumber (run sampleSession startReadingTrace) = some 1 ∧
    (run sampleSession startReadingTrace).currentChapterIndex = 2 ∧
    (run sampleSession startReadingTrace).highlighted = [2] ∧
    (startReadingClick (run sampleSession [Event.nextClick, Event.nextClick,
      Event.bookInfo])).error = some JsError.referenceError := by
  refine ⟨fun s => ?_, fun s ch => rfl, ?_, ?_, ?_, ?_⟩
  · unfold startReadingClick
    split
    · rename_i details _
      cases details.chapters[0]? <;> rfl
    · rfl
  all_goals decide

/-- C18 (defect): after a failed load with no book loaded before, no book is current and
the next-chapter handler ends with a TypeError, as does the ArrowRight key; after a failed
load that follows a successful one, the earlier book is still current, and the
next-chapter handler moves the index from 0 to 1 and replaces the failure message by
chapter 2 of the earlier book. -/
theorem C18_failed_open_navigation :
    (run (initialSession none 1) failedLoadTrace).currentBookDetails = none ∧
    (run (initialSession none 1) failedLoadTrace).modalContent = View.failed bookFive.title ∧
    (nextChapterClick (run (initialSession none 1) failedLoadTrace)).error =
      some JsError.typeError ∧
    (keydown (run (initialSession none 1) failedLoadTrace) Key.arrowRight).error =
      some JsError.typeError ∧
    (run (initialSession none 1) failedAfterLoadTrace).modalContent =
      View.failed bookFive.title ∧
    (run (initialSession none 1) failedAfterLoadTrace).currentChapterIndex = 0 ∧
    ((run (initialSession none 1) failedAfterLoadTrace).currentBookDetails.map
      (fun d => d.chapters.length)) = some 2 ∧
    (nextChapterClick (run (initialSession none 1)
      failedAfterLoadTrace)).state.currentChapterIndex = 1 ∧
    displayedNumber (nextChapterClick (run (initialSession none 1)
      failedAfterLoadTrace)).state = some 2 := by
  refine ⟨?_, ?_, ?_, ?_, ?_, ?_, ?_, ?_, ?_⟩ <;> decide

theorem details_prev (s : Session) :
    (prevChapterClick s).state.currentBookDetails = s.currentBookDetails := by
  unfold prevChapterClick
  split
  · simp only []
    split
    · rfl
    · exact (displayChapter_frame _ _ _).2.1
  · rfl

theorem details_next (s : Session) :
    (nextChapterClick s).state.currentBookDetails = s.currentBookDetails := by
  unfold nextChapterClick
  split
  · rfl
  · split
    · exact (displayChapter_frame _ _ _).2.1
    · rfl

theorem details_key (s : Session) (k : Key) :
    (keydown s k).state.currentBookDetails = s.currentBookDetails := by
  by_cases hm : s.modalDisplayBlock = true
  · cases k with
    | escape =>
      have : keydown s Key.escape = closeModal s := by simp [keydown, hm]
      rw [this]; rfl
    | arrowLeft => rw [keydown_arrowLeft s hm]; exact details_prev s
    | arrowRight => rw [keydown_arrowRight s hm]; exact details_next s
    | other =>
      have : keydown s Key.other = { state := s, error := none } := by simp [keydown, hm]
      rw [this]
  · have : keydown s k = { state := s, error := none } := by simp [keydown, hm]
    rw [this]

/-- The current book changes only in the callback of a load that has succeeded. -/
theorem details_step (s : Session) (e : Event) :
    (step s e).currentBookDetails = s.currentBookDetails ∨
    ∃ k book details, e = Event.loadSettles k ∧
      s.pendingLoads[k]? = some (book, Except.ok details) ∧
      (step s e).currentBookDetails = some details := by
  cases e with
  | openBook book src order => exact Or.inl rfl
  | loadSettles k =>
    cases hk : s.pendingLoads[k]? with
    | none =>
      left
      simp only [step, loadSettles, hk]
    | some p =>
      obtain ⟨book, r⟩ := p
      cases r with
      | error err =>
        left
        simp only [step, loadSettles, hk]
      | ok details =>
        right
        refine ⟨k, book, details, rfl, hk, ?_⟩
        simp only [step, loadSettles, hk]
        rfl
  | prevClick => exact Or.inl (details_prev s)
  | nextClick => exact Or.inl (details_next s)
  | key k => exact Or.inl (details_key s k)
  | chapterItem item =>
    left
    simp only [step]
    unfold chapterItemClick
    split
    · rfl
    · exact (displayChapter_frame _ _ _).2.1
  | startReading =>
    left
    simp only [step]
    unfold startReadingClick
    split
    · rename_i details _
      cases details.chapters[0]? <;> rfl
    · rfl
  | bookInfo =>
    left
    simp only [step]
    unfold bookInfoClick
    split <;> rfl
  | bookmarkClick =>
    left
    simp only [step]
    unfold toggleBookmark
    split
    · rfl
    · simp only []
      split <;> rfl
  | close => exact Or.inl rfl
  | hideTimer =>
    left
    simp only [step]
    unfold hideTimerFires
    split <;> rfl

/-- C19 (amended): `closeModal` keeps the book in memory: it completes without error and
changes nothing in the session but the count of running hide timers, so the current
book, the chapter index and the bookmarks (in memory and stored) are as before; when the
timer fires the modal is hidden, the book is still current, and the keyboard handler then
ignores every key.  In every state, an event changes the current book only if it is the
completion of a successful load, which makes the loaded book current. -/
theorem C19_close_keeps_state (s : Session) :
    (closeModal s).state = { s with hideTimers := s.hideTimers + 1 } ∧
    (closeModal s).error = none ∧
    (closeModal s).state.currentBookDetails = s.currentBookDetails ∧
    (closeModal s).state.currentChapterIndex = s.currentChapterIndex ∧
    (closeModal s).state.bookmarks = s.bookmarks ∧
    (closeModal s).state.storedBookmarks = s.storedBookmarks ∧
    (hideTimerFires (closeModal s).state).state.modalDisplayBlock = false ∧
    (hideTimerFires (closeModal s).state).state.currentBookDetails = s.currentBookDetails ∧
    (∀ k, keydown (hideTimerFires (closeModal s).state).state k =
      { state := (hideTimerFires (closeModal s).state).state, error := none }) ∧
    (∀ e : Event, (step s e).currentBookDetails = s.currentBookDetails ∨
      ∃ k book details, e = Event.loadSettles k ∧
        s.pendingLoads[k]? = some (book, Except.ok details) ∧
        (step s e).currentBookDetails = some details) := by
  have h : hideTimerFires (closeModal s).state =
      { state := { (closeModal s).state with
          modalDisplayBlock := false, hideTimers := (closeModal s).state.hideTimers - 1 }
        error := none } := by
    have hpos : (closeModal s).state.hideTimers > 0 := Nat.succ_pos _
    unfold hideTimerFires
    rw [if_pos hpos]
  refine ⟨rfl, rfl, rfl, rfl, rfl, rfl, ?_, ?_, fun k => ?_, details_step s⟩
  · rw [h]
  · rw [h]; rfl
  · rw [h]; simp [keydown]

/-- C4 as stated fails for the keys: after a book of five chapters has been opened and
loaded and the modal has been closed and hidden, the book is still current at index 0;
the next-chapter button moves the index to 1, which is `min (0 + 1) (5 - 1)`, but the key
ArrowRight leaves it at 0. -/
theorem C4_arrow_key_ignored_when_hidden :
    ((run (initialSession none 1) [Event.openBook bookFive sourceFive [4, 2, 0, 1, 3],
      Event.loadSettles 0, Event.close, Event.hideTimer]).currentBookDetails.map
        (fun d => d.chapters.length)) = some 5 ∧
    (run (initialSession none 1) [Event.openBook bookFive sourceFive [4, 2, 0, 1, 3],
      Event.loadSettles 0, Event.close, Event.hideTimer]).currentChapterIndex = 0 ∧
    (nextChapterClick (run (initialSession none 1)
      [Event.openBook bookFive sourceFive [4, 2, 0, 1, 3], Event.loadSettles 0, Event.close,
        Event.hideTimer])).state.currentChapterIndex = 1 ∧
    (keydown (run (initialSession none 1)
      [Event.openBook bookFive sourceFive [4, 2, 0, 1, 3], Event.loadSettles 0, Event.close,
        Event.hideTimer]) Key.arrowRight).state.currentChapterIndex = 0 ∧
    min ((0 : Int) + 1) ((5 : Int) - 1) = 1 := by
  refine ⟨?_, ?_, ?_, ?_, ?_⟩ <;> decide

/-- C19 as stated fails: after `closeModal`, and still after the modal is hidden, the
sample book is the current book, and pressing next then shows its second chapter. -/
theorem C19_close_does_not_discard :
    (closeModal sampleSession).state.currentBookDetails = some sampleDetails ∧
    (run sampleSession [Event.close, Event.hideTimer]).currentBookDetails =
      some sampleDetails ∧
    (run sampleSession [Event.close, Event.hideTimer, Event.nextClick]).currentChapterIndex
      = 1 := by
  refine ⟨?_, ?_, ?_⟩ <;> decide

/-- A text without `x` that lies in `A ++ x :: B` lies in `A` or in `B`. -/
theorem infix_split_char {T A B : Str} {x : Char} (hx : x ∉ T) (h : T <:+: A ++ x :: B) :
    T <:+: A ∨ T <:+: B := by
  obtain ⟨s, t, e⟩ := h
  rcases List.append_eq_append_iff.mp e with ⟨a', ha, -⟩ | ⟨c', hc, hB⟩
  · exact Or.inl ⟨s, a', ha.symm⟩
  · cases c' with
    | nil =>
      rw [List.append_nil] at hc
      exact Or.inl ⟨s, [], by rw [List.append_nil]; exact hc⟩
    | cons y c2 =>
      simp only [List.cons_append, List.cons.injEq] at hB
      obtain ⟨rfl, hB⟩ := hB
      rcases List.append_eq_append_iff.mp hc with ⟨a', -, hT⟩ | ⟨c3, hs, hc3⟩
      · exact absurd (by rw [hT]; simp) hx
      · cases c3 with
        | nil =>
          simp only [List.nil_append] at hc3
          exact absurd (by rw [← hc3]; simp) hx
        | cons z c4 =>
          simp only [List.cons_append, List.cons.injEq] at hc3
          exact Or.inr ⟨c4, t, by rw [hB, hc3.2]⟩

theorem infix_cons_skip {T s : Str} {c : Char} (hp : ¬ T <+: c :: s) (h : T <:+: c :: s) :
    T <:+: s := by
  rcases List.infix_cons_iff.mp h with h | h
  · exact absurd h hp
  · exact h

/-- The replacement of a match is a part of the rendering. -/
theorem infix_render_of_mem_hits {α : Type} (f : α → Str) (segs : List (Seg α)) (a : α)
    (h : a ∈ hits segs) : f a <:+: render f segs := by
  induction segs with
  | nil => simp [hits] at h
  | cons seg segs ih =>
    cases seg with
    | chr c =>
      simp only [hits] at h
      simp only [render]
      exact (ih h).trans (List.infix_cons List.infix_rfl)
    | hit a' =>
      simp only [hits, List.mem_cons] at h
      simp only [render]
      rcases h with rfl | h
      · exact (List.prefix_append _ _).isInfix
      · exact (ih h).trans (List.suffix_append _ _).isInfix

/-- A replace step whose matches start and end with `x` keeps every part of its input that
is free of `x`, as long as the replacement keeps the parts of the match that are. -/
theorem stage_infix {α : Type} (m : Bool → Str → Option (α × Str)) (g f : α → Str) (x : Char)
    (htrig : Trigger m x) (hsound : Sound m g)
    (hend : ∀ a, ∃ A0, g a = A0 ++ [x])
    (hloc : ∀ a T, x ∉ T → T <:+: g a → T <:+: f a) (T : Str) (hx : x ∉ T) :
    ∀ (len : Nat) (b : Bool) (s : Str), s.length ≤ len → T <:+: s →
      T <:+: render f (scanGo m 0 b s) := by
  intro len
  induction len with
  | zero =>
    intro b s hlen h
    have : s = [] := List.length_eq_zero.mp (Nat.le_zero.mp hlen)
    subst this
    simpa [scanGo_nil, render] using h
  | succ len ih =>
    intro b s hlen h
    cases s with
    | nil => simpa [scanGo_nil, render] using h
    | cons c cs =>
      cases hm : m b (c :: cs) with
      | none =>
        rcases List.infix_cons_iff.mp h with hp | hi
        · obtain ⟨r, hr⟩ := hp
          rw [← hr, scanGo_append_of_not_mem htrig T r b hx, render_map_chr]
          exact (List.prefix_append _ _).isInfix
        · rw [scanGo_cons_none m b c cs hm]
          simp only [render]
          exact (ih _ cs (by simpa using hlen) hi).trans (List.infix_cons List.infix_rfl)
      | some p =>
        obtain ⟨a, rest⟩ := p
        obtain ⟨e, hne⟩ := hsound b _ a rest hm
        rw [scanGo_hit_sound hsound b _ a rest hm]
        simp only [render]
        have hlt : rest.length ≤ len := by
          have h1 : (c :: cs).length = (g a).length + rest.length := by rw [e]; simp
          have h2 : 0 < (g a).length := List.length_pos.mpr hne
          simp only [List.length_cons] at h1 hlen
          omega
        obtain ⟨A0, hA⟩ := hend a
        rw [e, hA, List.append_assoc, List.singleton_append] at h
        rcases infix_split_char hx h with h1 | h2
        · have : T <:+: g a := by
            rw [hA]
            exact h1.trans (List.prefix_append _ _).isInfix
          exact (hloc a T hx this).trans (List.prefix_append _ _).isInfix
        · exact (ih _ rest hlt h2).trans (List.suffix_append _ _).isInfix

theorem replaceAll_infix {α : Type} (m : Bool → Str → Option (α × Str)) (g f : α → Str)
    (x : Char) (htrig : Trigger m x) (hsound : Sound m g)
    (hend : ∀ a, ∃ A0, g a = A0 ++ [x])
    (hloc : ∀ a T, x ∉ T → T <:+: g a → T <:+: f a) (T s : Str) (hx : x ∉ T)
    (h : T <:+: s) : T <:+: replaceAll m f s :=
  stage_infix m g f x htrig hsound hend hloc T hx s.length true s (le_refl _) h

/-- The bold rule keeps every part of its input that has no `*`. -/
theorem bold_infix (T s : Str) (hx : '*' ∉ T) (h : T <:+: s) :
    T <:+: replaceAll matchBold (fun t => "<strong>".toList ++ t ++ "</strong>".toList) s := by
  refine replaceAll_infix matchBold boldText _ '*' trigger_matchBold sound_matchBold
    (fun a => ⟨"**".toList ++ a ++ "*".toList, by simp [boldText]⟩) (fun a T hT hg => ?_) T s hx h
  have e : boldText a = [] ++ '*' :: ([] ++ '*' :: (a ++ '*' :: ([] ++ '*' :: []))) := by
    simp [boldText]
  rw [e] at hg
  have hnil : ∀ {X : Str}, T <:+: [] → T <:+: X := fun h0 => by
    rw [List.infix_nil.mp h0]; exact List.nil_infix
  rcases infix_split_char hT hg with h0 | hg
  · exact hnil h0
  rcases infix_split_char hT hg with h0 | hg
  · exact hnil h0
  rcases infix_split_char hT hg with h1 | hg
  · exact h1.trans (List.infix_append "<strong>".toList a "</strong>".toList)
  rcases infix_split_char hT hg with h0 | h0
  · exact hnil h0
  · exact hnil h0

/-- The italic rule keeps every part of its input that has no `*`. -/
theorem italic_infix (T s : Str) (hx : '*' ∉ T) (h : T <:+: s) :
    T <:+: replaceAll matchItalic (fun t => "<em>".toList ++ t ++ "</em>".toList) s := by
  refine replaceAll_infix matchItalic italicText _ '*' trigger_matchItalic sound_matchItalic
    (fun a => ⟨"*".toList ++ a, by simp [italicText]⟩) (fun a T hT hg => ?_) T s hx h
  have e : italicText a = [] ++ '*' :: (a ++ '*' :: []) := by
    simp [italicText]
  rw [e] at hg
  have hnil : ∀ {X : Str}, T <:+: [] → T <:+: X := fun h0 => by
    rw [List.infix_nil.mp h0]; exact List.nil_infix
  rcases infix_split_char hT hg with h0 | hg
  · exact hnil h0
  rcases infix_split_char hT hg with h1 | h0
  · exact h1.trans (List.infix_append "<em>".toList a "</em>".toList)
  · exact hnil h0

/-- The paragraph rule keeps every part of its input that has no line feed. -/
theorem blankLine_infix (T s : Str) (hx : '\n' ∉ T) (h : T <:+: s) :
    T <:+: replaceAll matchBlankLine (fun _ => "</p><p>".toList) s := by
  refine replaceAll_infix matchBlankLine (fun _ => "\n\n".toList) _ '\n' trigger_matchBlankLine
    sound_matchBlankLine (fun _ => ⟨"\n".toList, by simp⟩) (fun a T hT hg => ?_) T s hx h
  have e : "\n\n".toList = [] ++ '\n' :: ([] ++ '\n' :: []) := by simp
  rw [e] at hg
  have hnil : ∀ {X : Str}, T <:+: [] → T <:+: X := fun h0 => by
    rw [List.infix_nil.mp h0]; exact List.nil_infix
  rcases infix_split_char hT hg with h0 | hg
  · exact hnil h0
  rcases infix_split_char hT hg with h0 | h0
  · exact hnil h0
  · exact hnil h0

theorem mem_hits_scanGo {α : Type} (m : Bool → Str → Option (α × Str)) (a : α) :
    ∀ (s : Str) (k : Nat) (b : Bool), a ∈ hits (scanGo m k b s) →
      ∃ b' s' rest, m b' s' = some (a, rest) := by
  intro s
  induction s with
  | nil =>
    intro k b h
    rw [scanGo_nil] at h
    simp [hits] at h
  | cons c cs ih =>
    intro k b h
    cases k with
    | succ k =>
      rw [scanGo_succ_cons] at h
      exact ih _ _ h
    | zero =>
      cases hm : m b (c :: cs) with
      | none =>
        rw [scanGo_cons_none m b c cs hm] at h
        simp only [hits] at h
        exact ih _ _ h
      | some p =>
        obtain ⟨a', rest⟩ := p
        rw [scanGo_cons_some m b c cs rest a' hm] at h
        simp only [hits, List.mem_cons] at h
        rcases h with rfl | h
        · exact ⟨b, _, rest, hm⟩
        · exact ih _ _ h

/-- An image reference found in a text has no line terminator in its parts. -/
theorem imageRefs_noLT (s : Str) (r : ImageRef) (h : r ∈ imageRefs s) :
    NoLT r.alt ∧ NoLT r.src := by
  obtain ⟨b, s', rest, hm⟩ := mem_hits_scanGo matchImage r s 0 true h
  exact (matchImage_sound b s' r rest hm).2

/-- The cleanup rule keeps every part of its input that starts with `<i` and has no
other `<`. -/
theorem cleanup_infix (T : Str) (hT : '<' ∉ T) :
    ∀ (len : Nat) (b : Bool) (s : Str), s.length ≤ len → ('<' :: 'i' :: T) <:+: s →
      ('<' :: 'i' :: T) <:+:
        render (fun _ => ([] : Str)) (scanGo matchEmptyParagraph 0 b s) := by
  intro len
  induction len with
  | zero =>
    intro b s hlen h
    have : s = [] := List.length_eq_zero.mp (Nat.le_zero.mp hlen)
    subst this
    simp at h
  | succ len ih =>
    intro b s hlen h
    cases s with
    | nil => simp at h
    | cons c cs =>
      cases hm : matchEmptyParagraph b (c :: cs) with
      | none =>
        rw [scanGo_cons_none _ b c cs hm]
        simp only [render]
        rcases List.infix_cons_iff.mp h with hp | hi
        · obtain ⟨r, hr⟩ := hp
          simp only [List.cons_append, List.cons.injEq] at hr
          obtain ⟨rfl, rfl⟩ := hr
          have hx : '<' ∉ 'i' :: T := by simp [hT]
          have := scanGo_append_of_not_mem trigger_matchEmptyParagraph ('i' :: T) r
            (isLineTerminator '<') hx
          rw [List.cons_append] at this
          rw [this, render_map_chr]
          exact (List.prefix_append _ _).isInfix
        · exact (ih _ cs (by simpa using hlen) hi).trans (List.infix_cons List.infix_rfl)
      | some p =>
        obtain ⟨a, rest⟩ := p
        obtain ⟨e, hne⟩ := sound_matchEmptyParagraph b _ a rest hm
        rw [scanGo_hit_sound sound_matchEmptyParagraph b _ a rest hm]
        simp only [render, List.nil_append]
        have hlt : rest.length ≤ len := by
          have h1 : (c :: cs).length = 7 + rest.length := by rw [e]; simp; omega
          simp only [List.length_cons] at h1 hlen
          omega
        have e' : c :: cs = '<' :: 'p' :: '>' :: '<' :: '/' :: 'p' :: '>' :: rest := by
          rw [e]; simp
        rw [e'] at h
        have h := infix_cons_skip (by simp [List.cons_prefix_cons]) h
        have h := infix_cons_skip (by simp [List.cons_prefix_cons]) h
        have h := infix_cons_skip (by simp [List.cons_prefix_cons]) h
        have h := infix_cons_skip (by simp [List.cons_prefix_cons]) h
        have h := infix_cons_skip (by simp [List.cons_prefix_cons]) h
        have h := infix_cons_skip (by simp [List.cons_prefix_cons]) h
        have h := infix_cons_skip (by simp [List.cons_prefix_cons]) h
        exact ih _ rest hlt h

/-- What the image rule has written stays in the output if it starts with `<i` and has
no other `<`, no `*` and no line feed. -/
theorem infix_output (d : Option BookDetails) (text T : Str) (hlt : '<' ∉ T) (hstar : '*' ∉ T)
    (hnl : '\n' ∉ T)
    (h : ('<' :: 'i' :: T) <:+:
      replaceAll matchImage (imageTag d) (convertHeaders (removeFirstImage text))) :
    ('<' :: 'i' :: T) <:+: convertMarkdownToHTML d text := by
  have hs : '*' ∉ '<' :: 'i' :: T := by simp [hstar]
  have hn : '\n' ∉ '<' :: 'i' :: T := by simp [hnl]
  have h3 := bold_infix _ _ hs h
  have h4 := italic_infix _ _ hs h3
  have h5 := blankLine_infix _ _ hn h4
  have h6 : ('<' :: 'i' :: T) <:+: "<p>".toList ++ replaceAll matchBlankLine
      (fun _ => "</p><p>".toList) (replaceAll matchItalic
        (fun t => "<em>".toList ++ t ++ "</em>".toList) (replaceAll matchBold
          (fun t => "<strong>".toList ++ t ++ "</strong>".toList) (replaceAll matchImage
            (imageTag d) (convertHeaders (removeFirstImage text))))) ++ "</p>".toList :=
    h5.trans (List.infix_append _ _ _)
  exact cleanup_infix T hlt _ true _ (le_refl _) h6

theorem imageTag_eq_imgElement (d : Option BookDetails) (r : ImageRef) :
    imageTag d r = imgElement
      (match d with
        | some bd =>
          if (stripPrefix "illustrations/".toList r.src).isSome then
            "books/".toList ++ bd.folder ++ "/".toList ++ r.src
          else r.src
        | none => r.src) r.alt := by
  cases d <;> rfl

theorem stripPrefix_isSome_iff (p s : Str) : (stripPrefix p s).isSome = true ↔ p <+: s := by
  rw [Option.isSome_iff_exists]
  constructor
  · rintro ⟨r, hr⟩
    exact ⟨r, (stripPrefix_eq_some.mp hr).symm⟩
  · rintro ⟨r, hr⟩
    exact ⟨r, stripPrefix_eq_some.mpr hr.symm⟩

/-- An image element with attribute values free of `<`, `*` and line feeds stays in the
output once the image rule has written it. -/
theorem imgElement_infix_output (d : Option BookDetails) (text src alt : Str)
    (hsrc : '<' ∉ src ∧ '*' ∉ src ∧ '\n' ∉ src) (halt : '<' ∉ alt ∧ '*' ∉ alt ∧ '\n' ∉ alt)
    (h : imgElement src alt <:+:
      replaceAll matchImage (imageTag d) (convertHeaders (removeFirstImage text))) :
    imgElement src alt <:+: convertMarkdownToHTML d text := by
  have e : imgElement src alt = '<' :: 'i' :: ("mg src=\"".toList ++ src ++ "\" alt=\"".toList
      ++ alt ++
      "\" class=\"chapter-image\" onerror=\"this.onerror=null; this.style.display='none';\">".toList)
      := by
    simp [imgElement]
  rw [e] at h ⊢
  refine infix_output d text _ ?_ ?_ ?_ h
  · simp [hsrc.1, halt.1]
  · simp [hsrc.2.1, halt.2.1]
  · simp [hsrc.2.2, halt.2.2]

theorem lf_not_mem_of_noLT {s : Str} (h : NoLT s) : '\n' ∉ s := fun hm => by
  have := h _ hm
  simp [isLineTerminator] at this

/-- The element written for an image reference of the text after the first step stays in
the output, if the parts of the reference have neither `*` nor `<` and the folder of the
open book has neither of them nor a line feed. -/
theorem imageTag_infix_output (d : Option BookDetails) (text : Str) (r : ImageRef)
    (hr : r ∈ imageRefs (removeFirstImage text))
    (halt : '*' ∉ r.alt ∧ '<' ∉ r.alt) (hsrc : '*' ∉ r.src ∧ '<' ∉ r.src)
    (hfolder : ∀ b, d = some b → '*' ∉ b.folder ∧ '<' ∉ b.folder ∧ '\n' ∉ b.folder) :
    imageTag d r <:+: convertMarkdownToHTML d text := by
  obtain ⟨na, ns⟩ := imageRefs_noLT _ r hr
  have hr' : r ∈ hits (scan matchImage (convertHeaders (removeFirstImage text))) := by
    have := convertHeaders_imageRefs (removeFirstImage text)
    unfold imageRefs at this
    rw [this]
    exact hr
  have hin : imageTag d r <:+:
      replaceAll matchImage (imageTag d) (convertHeaders (removeFirstImage text)) :=
    infix_render_of_mem_hits (imageTag d) _ r hr'
  rw [imageTag_eq_imgElement] at hin ⊢
  refine imgElement_infix_output d text _ _ ?_
    ⟨halt.2, halt.1, lf_not_mem_of_noLT na⟩ hin
  have hs3 : '<' ∉ r.src ∧ '*' ∉ r.src ∧ '\n' ∉ r.src := ⟨hsrc.2, hsrc.1, lf_not_mem_of_noLT ns⟩
  cases d with
  | none => exact hs3
  | some bd =>
    obtain ⟨f1, f2, f3⟩ := hfolder bd rfl
    simp only []
    split
    · simp [hs3.1, hs3.2.1, hs3.2.2, f1, f2, f3]
    · exact hs3

/-- Unless the removal of the leftmost reference joins `!` and `[`, the image references of
the text after the first step are those of the text other than the first. -/
theorem imageRefs_removeFirstImage_tail (text : Str) (hj : firstImageJoins text = false) :
    imageRefs (removeFirstImage text) = (imageRefs text).tail := by
  cases hsp : splitFirstImage text with
  | none =>
    have hn := splitFirstImage_none text hsp
    have hrefs : imageRefs text = [] := by
      unfold imageRefs scan
      have := scanGo_prefix_none bolFree_matchImage text [] true
        (fun a b hab _ => by
          rw [List.append_nil]
          exact execImage_none text hn a b hab)
      rw [List.append_nil] at this
      rw [this, scanGo_nil, List.append_nil, hits_map_chr]
    simp [removeFirstImage, hn, hrefs]
  | some p =>
    obtain ⟨pre, r, post⟩ := p
    obtain ⟨e1, e2, e3, e4⟩ := splitFirstImage_some text pre r post hsp
    have hj' : ¬ (pre.getLast? = some '!' ∧ post.head? = some '[') := by
      intro h
      simp [firstImageJoins, hsp, h.1, h.2] at hj
    rw [e1, removeFirstImage_of_split pre r post e2 e3 (e1 ▸ e4),
      imageRefs_removed pre r post e2 e3 hj', imageRefs_split pre r post e2 e3]
    rfl

/-- C11 (amended): the element that the image rule writes for an image reference of the
text left by the first step appears verbatim in the output, provided the alt text and the
source of the reference contain neither `*` nor `<` and the folder of the open book
contains neither of them nor a line feed.  Those references are the references of the
text other than the first, unless the first stands directly between a `!` and a `[`. -/
theorem C11_image_element_verbatim (d : Option BookDetails) (text : Str) (r : ImageRef)
    (hr : r ∈ imageRefs (removeFirstImage text))
    (halt : '*' ∉ r.alt ∧ '<' ∉ r.alt) (hsrc : '*' ∉ r.src ∧ '<' ∉ r.src)
    (hfolder : ∀ b, d = some b → '*' ∉ b.folder ∧ '<' ∉ b.folder ∧ '\n' ∉ b.folder) :
    imageTag d r <:+: convertMarkdownToHTML d text ∧
    (firstImageJoins text = false →
      imageRefs (removeFirstImage text) = (imageRefs text).tail) :=
  ⟨imageTag_infix_output d text r hr halt hsrc hfolder,
    imageRefs_removeFirstImage_tail text⟩

/-- C11 on a text with two image references and bold and italic text around the second,
with the sample book open. -/
theorem C11_image_element_verbatim_witness :
    (⟨"b".toList, "illustrations/b.png".toList⟩ : ImageRef) ∈
      imageRefs (removeFirstImage "![a](a.png) **one ![b](illustrations/b.png)** *two*".toList) ∧
    (imageTag (some sampleDetails) ⟨"b".toList, "illustrations/b.png".toList⟩ <:+:
      convertMarkdownToHTML (some sampleDetails)
        "![a](a.png) **one ![b](illustrations/b.png)** *two*".toList ∧
     (firstImageJoins "![a](a.png) **one ![b](illustrations/b.png)** *two*".toList = false →
      imageRefs (removeFirstImage "![a](a.png) **one ![b](illustrations/b.png)** *two*".toList)
        = (imageRefs "![a](a.png) **one ![b](illustrations/b.png)** *two*".toList).tail)) :=
  ⟨by decide,
    C11_image_element_verbatim (some sampleDetails) _ _ (by decide) (by decide) (by decide)
      (by intro b hb; cases hb; decide)⟩

set_option maxRecDepth 100000 in
/-- C11 as stated fails: in `![f](g) ![a*](b*)` the second reference has `*` in its parts;
the image rule writes an element for it, and the italic rule then replaces the text
between the two `*`, so the element is no part of the output. -/
theorem C11_italic_rule_alters_element :
    imageRefs (removeFirstImage "![f](g) ![a*](b*)".toList) =
      [⟨"a*".toList, "b*".toList⟩] ∧
    imageTag none ⟨"a*".toList, "b*".toList⟩ <:+:
      replaceAll matchImage (imageTag none)
        (convertHeaders (removeFirstImage "![f](g) ![a*](b*)".toList)) ∧
    ¬ imageTag none ⟨"a*".toList, "b*".toList⟩ <:+:
      convertMarkdownToHTML none "![f](g) ![a*](b*)".toList ∧
    convertMarkdownToHTML none "![f](g) ![a*](b*)".toList =
      ("<p> <img src=\"b<em>\" alt=\"a</em>\" class=\"chapter-image\" " ++
        "onerror=\"this.onerror=null; this.style.display='none';\"></p>").toList := by
  refine ⟨by decide, by decide, ?_, by decide⟩
  intro h
  have h1 : '*' ∈ imageTag none ⟨"a*".toList, "b*".toList⟩ := by decide
  have h2 : '*' ∉ convertMarkdownToHTML none "![f](g) ![a*](b*)".toList := by decide
  exact h2 (h.subset h1)

/-- C20 (amended): with a book of folder `F` open, the element that the image rule writes
for an image reference of the text left by the first step is the image element with
attribute `alt` the alt text and attribute `src` the text `books/F/` followed by the
source when the source begins with `illustrations/`, and the source itself otherwise;
the attribute values contain no quote and the element appears verbatim in the output,
provided alt text and source contain none of `*`, `"`, `<` and the folder none of them and
no line feed.  The references of the text left by the first step are the references of
the text other than the first, unless the first stands directly between a `!` and a
`[`. -/
theorem C20_image_path_rewriting (bd : BookDetails) (text : Str) (r : ImageRef)
    (hr : r ∈ imageRefs (removeFirstImage text))
    (halt : '*' ∉ r.alt ∧ '"' ∉ r.alt ∧ '<' ∉ r.alt)
    (hsrc : '*' ∉ r.src ∧ '"' ∉ r.src ∧ '<' ∉ r.src)
    (hfolder : '*' ∉ bd.folder ∧ '"' ∉ bd.folder ∧ '<' ∉ bd.folder ∧ '\n' ∉ bd.folder) :
    ("illustrations/".toList <+: r.src →
      imageTag (some bd) r =
        imgElement ("books/".toList ++ bd.folder ++ "/".toList ++ r.src) r.alt ∧
      '"' ∉ "books/".toList ++ bd.folder ++ "/".toList ++ r.src) ∧
    (¬ "illustrations/".toList <+: r.src → imageTag (some bd) r = imgElement r.src r.alt) ∧
    imageTag (some bd) r <:+: convertMarkdownToHTML (some bd) text ∧
    (firstImageJoins text = false →
      imageRefs (removeFirstImage text) = (imageRefs text).tail) := by
  refine ⟨fun hp => ⟨?_, ?_⟩, fun hp => ?_, ?_, imageRefs_removeFirstImage_tail text⟩
  · rw [imageTag_eq_imgElement]
    simp only []
    rw [if_pos ((stripPrefix_isSome_iff _ _).mpr hp)]
  · simp [hsrc.2.1, hfolder.2.1]
  · rw [imageTag_eq_imgElement]
    simp only []
    rw [if_neg (fun h => hp ((stripPrefix_isSome_iff _ _).mp h))]
  · exact imageTag_infix_output (some bd) text r hr ⟨halt.1, halt.2.2⟩ ⟨hsrc.1, hsrc.2.2⟩
      (fun b hb => by cases hb; exact ⟨hfolder.1, hfolder.2.2.1, hfolder.2.2.2⟩)

/-- C20 on a text with three image references and the sample book open: the source of
the second is rewritten into the folder of the book. -/
theorem C20_image_path_rewriting_witness :
    (⟨"b".toList, "illustrations/b.png".toList⟩ : ImageRef) ∈
      imageRefs (removeFirstImage "![a](a.png) ![b](illustrations/b.png) ![c](c.png)".toList) ∧
    "illustrations/".toList <+: "illustrations/b.png".toList ∧
    imageTag (some sampleDetails) ⟨"b".toList, "illustrations/b.png".toList⟩ =
      imgElement "books/book_about_sample/illustrations/b.png".toList "b".toList ∧
    imageTag (some sampleDetails) ⟨"b".toList, "illustrations/b.png".toList⟩ <:+:
      convertMarkdownToHTML (some sampleDetails)
        "![a](a.png) ![b](illustrations/b.png) ![c](c.png)".toList :=
  ⟨by decide, by decide,
    ((C20_image_path_rewriting sampleDetails
      "![a](a.png) ![b](illustrations/b.png) ![c](c.png)".toList
      ⟨"b".toList, "illustrations/b.png".toList⟩ (by decide) (by decide) (by decide)
      (by decide)).1 (by decide)).1,
    (C20_image_path_rewriting sampleDetails
      "![a](a.png) ![b](illustrations/b.png) ![c](c.png)".toList
      ⟨"b".toList, "illustrations/b.png".toList⟩ (by decide) (by decide) (by decide)
      (by decide)).2.2.1⟩

set_option maxRecDepth 100000 in
/-- C20 as stated fails: in `![f](g) ![<p></p>](illustrations/s)` the alt text of the
second reference is `<p></p>`, free of `*` and of quotes; the image rule writes an element
with that alt attribute, the last rule removes the `<p></p>` inside it, and the element of
the output has an empty alt attribute. -/
theorem C20_alt_removed_by_cleanup :
    imageRefs (removeFirstImage "![f](g) ![<p></p>](illustrations/s)".toList) =
      [⟨"<p></p>".toList, "illustrations/s".toList⟩] ∧
    imageTag (some sampleDetails) ⟨"<p></p>".toList, "illustrations/s".toList⟩ =
      imgElement "books/book_about_sample/illustrations/s".toList "<p></p>".toList ∧
    convertMarkdownToHTML (some sampleDetails) "![f](g) ![<p></p>](illustrations/s)".toList =
      "<p> ".toList ++ imgElement "books/book_about_sample/illustrations/s".toList [] ++
        "</p>".toList ∧
    ¬ imgElement "books/book_about_sample/illustrations/s".toList "<p></p>".toList <:+:
      convertMarkdownToHTML (some sampleDetails)
        "![f](g) ![<p></p>](illustrations/s)".toList := by
  refine ⟨by decide, by decide, by decide, by decide⟩

theorem markRun_cons (q : Nat) (c : Char) (cs : Str) :
    markRun q (c :: cs) = (markStep q c).bind (fun q1 => markRun q1 cs) := rfl

theorem markRun_append (q : Nat) (a b : Str) :
    markRun q (a ++ b) = (markRun q a).bind (fun q1 => markRun q1 b) := by
  induction a generalizing q with
  | nil => simp [markRun]
  | cons c a ih =>
    rw [List.cons_append, markRun_cons, markRun_cons]
    cases hs : markStep q c with
    | none => simp
    | some q1 => simp [ih q1]

theorem markRun_plain (s : Str) (hs : '<' ∉ s) : markRun 0 s = some 0 := by
  induction s with
  | nil => rfl
  | cons c cs ih =>
    have hc : c ≠ '<' := fun h => hs (by simp [h])
    have hx : '<' ∉ cs := fun h => hs (by simp [h])
    simp [markRun, markStep, hc, ih hx]

/-- A character that starts no tag name can only be read outside a tag opening. -/
theorem markStep_outside (q : Nat) (c : Char) (r : Nat) (h : markStep q c = some r)
    (hc : c ≠ 'i' ∧ c ≠ 'h' ∧ c ≠ '/' ∧ c ≠ 's' ∧ c ≠ 'e') : q = 0 := by
  obtain ⟨h1, h2, h3, h4, h5⟩ := hc
  match q, h with
  | 0, _ => rfl
  | 1, h => simp [markStep, h1, h2, h3, h4, h5] at h
  | 2, h => simp [markStep, h2, h4, h5] at h
  | (k + 3), h => simp [markStep] at h

theorem markRun_cons_outside (q : Nat) (c : Char) (cs : Str) (r : Nat)
    (h : markRun q (c :: cs) = some r)
    (hc : c ≠ 'i' ∧ c ≠ 'h' ∧ c ≠ '/' ∧ c ≠ 's' ∧ c ≠ 'e') : q = 0 := by
  rw [markRun_cons] at h
  cases hs : markStep q c with
  | none => rw [hs] at h; cases h
  | some p => exact markStep_outside q c p hs hc

theorem markRun_cons_plain (c : Char) (cs : Str) (hc : c ≠ '<') :
    markRun 0 (c :: cs) = markRun 0 cs := by
  simp [markRun, markStep, hc]

theorem markRun_append_some {q : Nat} {a b : Str} {q1 q2 : Nat}
    (h1 : markRun q a = some q1) (h2 : markRun q1 b = some q2) :
    markRun q (a ++ b) = some q2 := by
  rw [markRun_append, h1]
  simpa using h2

theorem markRun_append_inv {q : Nat} {a b : Str} {q2 : Nat}
    (h : markRun q (a ++ b) = some q2) :
    ∃ q1, markRun q a = some q1 ∧ markRun q1 b = some q2 := by
  rw [markRun_append] at h
  cases h1 : markRun q a with
  | none => rw [h1] at h; cases h
  | some q1 =>
    rw [h1] at h
    exact ⟨q1, rfl, by simpa using h⟩

theorem markRun_plain_append (a s : Str) (ha : '<' ∉ a) : markRun 0 (a ++ s) = markRun 0 s := by
  rw [markRun_append, markRun_plain a ha]
  rfl

/-- A group closed by a character that starts no tag name is read from outside a tag
opening to outside a tag opening. -/
theorem markRun_group (t rest : Str) (c : Char)
    (hc : c ≠ 'i' ∧ c ≠ 'h' ∧ c ≠ '/' ∧ c ≠ 's' ∧ c ≠ 'e')
    (hlt : c ≠ '<') (h : markRun 0 (t ++ c :: rest) = some 0) :
    markRun 0 t = some 0 ∧ markRun 0 rest = some 0 := by
  obtain ⟨qt, ht, h2⟩ := markRun_append_inv h
  have hq := markRun_cons_outside qt c rest _ h2 hc
  subst hq
  rw [markRun_cons_plain c rest hlt] at h2
  exact ⟨ht, h2⟩

/-- The effect of one replace step on the automaton run: if each replacement is read like
the match it replaces, the output is read like the input. -/
theorem stage_mark {α : Type} (m : Bool → Str → Option (α × Str)) (g f : α → Str)
    (hsound : Sound m g)
    (hloc : ∀ b s a rest, m b s = some (a, rest) → ∀ q R', markRun q s = some 0 →
      (∀ q, markRun q rest = some 0 → markRun q R' = some 0) →
      markRun q (f a ++ R') = some 0) :
    ∀ (len : Nat) (b : Bool) (s : Str), s.length ≤ len → ∀ q, markRun q s = some 0 →
      markRun q (render f (scanGo m 0 b s)) = some 0 := by
  intro len
  induction len with
  | zero =>
    intro b s hlen q h
    have : s = [] := List.length_eq_zero.mp (Nat.le_zero.mp hlen)
    subst this
    simpa [scanGo_nil, render] using h
  | succ len ih =>
    intro b s hlen q h
    cases s with
    | nil => simpa [scanGo_nil, render] using h
    | cons c cs =>
      cases hm : m b (c :: cs) with
      | none =>
        rw [scanGo_cons_none m b c cs hm]
        simp only [render]
        rw [markRun_cons] at h ⊢
        cases hs : markStep q c with
        | none => rw [hs] at h; cases h
        | some q1 =>
          rw [hs] at h
          simp only [Option.some_bind] at h ⊢
          exact ih (isLineTerminator c) cs (by simpa using hlen) q1 h
      | some p =>
        obtain ⟨a, rest⟩ := p
        obtain ⟨e, hne⟩ := hsound b _ a rest hm
        rw [scanGo_hit_sound hsound b _ a rest hm]
        simp only [render]
        have hlt : rest.length ≤ len := by
          have h1 : (c :: cs).length = (g a).length + rest.length := by rw [e]; simp
          have h2 : 0 < (g a).length := List.length_pos.mpr hne
          simp only [List.length_cons] at h1 hlen
          omega
        exact hloc b _ a rest hm q _ h (fun q' h' => ih _ rest hlt q' h')

theorem replaceAll_mark {α : Type} (m : Bool → Str → Option (α × Str)) (g f : α → Str)
    (hsound : Sound m g)
    (hloc : ∀ b s a rest, m b s = some (a, rest) → ∀ q R', markRun q s = some 0 →
      (∀ q, markRun q rest = some 0 → markRun q R' = some 0) →
      markRun q (f a ++ R') = some 0)
    (s : Str) (h : markRun 0 s = some 0) : markRun 0 (replaceAll m f s) = some 0 :=
  stage_mark m g f hsound hloc s.length true s (le_refl _) 0 h

theorem mloc_bold : ∀ b s a rest, matchBold b s = some (a, rest) → ∀ q R',
    markRun q s = some 0 →
    (∀ q, markRun q rest = some 0 → markRun q R' = some 0) →
    markRun q ("<strong>".toList ++ a ++ "</strong>".toList ++ R') = some 0 := by
  intro b s a rest hm q R' h hR
  obtain ⟨e, -⟩ := sound_matchBold b s a rest hm
  have e' : s = '*' :: '*' :: (a ++ '*' :: '*' :: rest) := by rw [e]; simp [boldText]
  subst e'
  have hq := markRun_cons_outside q _ _ _ h (by decide)
  subst hq
  rw [markRun_cons_plain _ _ (by decide), markRun_cons_plain _ _ (by decide)] at h
  obtain ⟨ht, h2⟩ := markRun_group a _ '*' (by decide) (by decide) h
  rw [markRun_cons_plain _ _ (by decide)] at h2
  have h3 := hR 0 h2
  have o : markRun 0 "<strong>".toList = some 0 := by decide
  have c : markRun 0 "</strong>".toList = some 0 := by decide
  exact markRun_append_some (markRun_append_some (markRun_append_some o ht) c) h3

theorem mloc_italic : ∀ b s a rest, matchItalic b s = some (a, rest) → ∀ q R',
    markRun q s = some 0 →
    (∀ q, markRun q rest = some 0 → markRun q R' = some 0) →
    markRun q ("<em>".toList ++ a ++ "</em>".toList ++ R') = some 0 := by
  intro b s a rest hm q R' h hR
  obtain ⟨e, -⟩ := sound_matchItalic b s a rest hm
  have e' : s = '*' :: (a ++ '*' :: rest) := by rw [e]; simp [italicText]
  subst e'
  have hq := markRun_cons_outside q _ _ _ h (by decide)
  subst hq
  rw [markRun_cons_plain _ _ (by decide)] at h
  obtain ⟨ht, h2⟩ := markRun_group a _ '*' (by decide) (by decide) h
  have h3 := hR 0 h2
  have o : markRun 0 "<em>".toList = some 0 := by decide
  have c : markRun 0 "</em>".toList = some 0 := by decide
  exact markRun_append_some (markRun_append_some (markRun_append_some o ht) c) h3

theorem mloc_header (k : Nat) (f : Str → Str) (o c : Str)
    (ho : markRun 0 o = some 0) (hc : markRun 0 c = some 0)
    (hf : ∀ t, f t = o ++ t ++ c) :
    ∀ b s a rest, matchHeader k b s = some (a, rest) → ∀ q R',
    markRun q s = some 0 →
    (∀ q, markRun q rest = some 0 → markRun q R' = some 0) →
    markRun q (f a ++ R') = some 0 := by
  intro b s a rest hm q R' h hR
  obtain ⟨-, e, -, hrest⟩ := matchHeader_some k b s a rest hm
  subst e
  have hq : q = 0 := by
    cases k with
    | zero => exact markRun_cons_outside q ' ' _ _ h (by decide)
    | succ k => exact markRun_cons_outside q '#' _ _ h (by decide)
  subst hq
  have e2 : headerText k a ++ rest = (List.replicate k '#' ++ [' ']) ++ (a ++ rest) := by
    simp [headerText]
  rw [e2, markRun_plain_append _ _ (by simp [List.mem_replicate])] at h
  obtain ⟨qt, ht, h2⟩ := markRun_append_inv h
  have hqt : qt = 0 := by
    rcases hrest with rfl | ⟨x, r, rfl, hx⟩
    · simpa [markRun] using h2
    · have := lineTerminator_outside x hx
      exact markRun_cons_outside qt x r _ h2
        ⟨this.1, this.2.2.2.1, this.2.2.2.2.1, this.2.2.2.2.2.1, this.2.2.2.2.2.2.1⟩
  subst hqt
  have h3 := hR 0 h2
  rw [hf]
  exact markRun_append_some (markRun_append_some (markRun_append_some ho ht) hc) h3

theorem imageTag_mark (d : Option BookDetails) (r : ImageRef) (R : Str)
    (hfolder : ∀ b, d = some b → '<' ∉ b.folder)
    (hs : markRun 0 r.src = some 0) (ha : markRun 0 r.alt = some 0)
    (hR : markRun 0 R = some 0) : markRun 0 (imageTag d r ++ R) = some 0 := by
  have hA : markRun 0 "<img src=\"".toList = some 0 := by decide
  have hB : markRun 0 "\" alt=\"".toList = some 0 := by decide
  have hC : markRun 0
      "\" class=\"chapter-image\" onerror=\"this.onerror=null; this.style.display='none';\">".toList
      = some 0 := by decide
  have key : ∀ path : Str, markRun 0 path = some 0 →
      markRun 0 (imgElement path r.alt ++ R) = some 0 := by
    intro path hp
    exact markRun_append_some (markRun_append_some (markRun_append_some
      (markRun_append_some (markRun_append_some hA hp) hB) ha) hC) hR
  rw [imageTag_eq_imgElement]
  cases d with
  | none => exact key _ hs
  | some bd =>
    simp only []
    split
    · apply key
      have hf := hfolder bd rfl
      have e : "books/".toList ++ bd.folder ++ "/".toList ++ r.src =
          ("books/".toList ++ bd.folder ++ "/".toList) ++ r.src := by simp
      rw [e, markRun_plain_append _ _ (by simp [hf])]
      exact hs
    · exact key _ hs

theorem mloc_image (d : Option BookDetails) (hfolder : ∀ b, d = some b → '<' ∉ b.folder) :
    ∀ b s a rest, matchImage b s = some (a, rest) → ∀ q R',
    markRun q s = some 0 →
    (∀ q, markRun q rest = some 0 → markRun q R' = some 0) →
    markRun q (imageTag d a ++ R') = some 0 := by
  intro b s a rest hm q R' h hR
  obtain ⟨e, -⟩ := sound_matchImage b s a rest hm
  have e' : s = '!' :: '[' :: (a.alt ++ ']' :: '(' :: (a.src ++ ')' :: rest)) := by
    rw [e]; simp [ImageRef.text]
  subst e'
  have hq := markRun_cons_outside q _ _ _ h (by decide)
  subst hq
  rw [markRun_cons_plain _ _ (by decide), markRun_cons_plain _ _ (by decide)] at h
  obtain ⟨ha, h1⟩ := markRun_group a.alt _ ']' (by decide) (by decide) h
  rw [markRun_cons_plain _ _ (by decide)] at h1
  obtain ⟨hs, h2⟩ := markRun_group a.src _ ')' (by decide) (by decide) h1
  exact imageTag_mark d a R' hfolder hs ha (hR 0 h2)

theorem convertHeaders_mark (s : Str) (h : markRun 0 s = some 0) :
    markRun 0 (convertHeaders s) = some 0 := by
  unfold convertHeaders
  have h1 := replaceAll_mark (matchHeader 1) (headerText 1) (headerTag 1) (sound_matchHeader 1)
    (mloc_header 1 _ "<h1>".toList "</h1>".toList (by decide) (by decide) headerTag_one) s h
  have h2 := replaceAll_mark (matchHeader 2) (headerText 2) (headerTag 2) (sound_matchHeader 2)
    (mloc_header 2 _ "<h2>".toList "</h2>".toList (by decide) (by decide) headerTag_two) _ h1
  have h3 := replaceAll_mark (matchHeader 3) (headerText 3) (headerTag 3) (sound_matchHeader 3)
    (mloc_header 3 _ "<h3>".toList "</h3>".toList (by decide) (by decide) headerTag_three) _ h2
  exact replaceAll_mark (matchHeader 4) (headerText 4) (headerTag 4) (sound_matchHeader 4)
    (mloc_header 4 _ "<h4>".toList "</h4>".toList (by decide) (by decide) headerTag_four) _ h3

/-- For a text without `<`, the text that reaches the paragraph rule is read by the
automaton: its tags are those of headers, images, bold and italic spans. -/
theorem beforeParagraphs_mark (d : Option BookDetails) (text : Str) (hlt : '<' ∉ text)
    (hfolder : ∀ b, d = some b → '<' ∉ b.folder) :
    markRun 0 (replaceAll matchItalic (fun t => "<em>".toList ++ t ++ "</em>".toList)
      (replaceAll matchBold (fun t => "<strong>".toList ++ t ++ "</strong>".toList)
        (replaceAll matchImage (imageTag d) (convertHeaders (removeFirstImage text))))) =
      some 0 := by
  have h0 : markRun 0 (removeFirstImage text) = some 0 :=
    markRun_plain _ (not_mem_removeFirstImage text '<' hlt)
  have h1 := convertHeaders_mark _ h0
  have h2 := replaceAll_mark matchImage ImageRef.text (imageTag d) sound_matchImage
    (mloc_image d hfolder) _ h1
  have h3 := replaceAll_mark matchBold boldText
    (fun t => "<strong>".toList ++ t ++ "</strong>".toList) sound_matchBold mloc_bold _ h2
  exact replaceAll_mark matchItalic italicText
    (fun t => "<em>".toList ++ t ++ "</em>".toList) sound_matchItalic mloc_italic _ h3

theorem convert_eq_cleanup (d : Option BookDetails) (text : Str) :
    convertMarkdownToHTML d text =
      cleanup ("<p>".toList ++ paragraphs
        (replaceAll matchItalic (fun t => "<em>".toList ++ t ++ "</em>".toList)
          (replaceAll matchBold (fun t => "<strong>".toList ++ t ++ "</strong>".toList)
            (replaceAll matchImage (imageTag d) (convertHeaders (removeFirstImage text)))))
        ++ "</p>".toList) := rfl

theorem paragraphs_hit (rest : Str) :
    paragraphs ('\n' :: '\n' :: rest) = '<' :: '/' :: 'p' :: '>' :: '<' :: 'p' :: '>' ::
      paragraphs rest := by
  have hbl : matchBlankLine true ('\n' :: (['\n'] ++ rest)) = some ((), rest) := rfl
  unfold paragraphs replaceAll scan
  rw [show '\n' :: '\n' :: rest = '\n' :: (['\n'] ++ rest) from rfl,
    render_scanGo_hit bolFree_matchBlankLine _ '\n' ['\n'] rest () true hbl]
  simp

theorem paragraphs_char (c : Char) (cs : Str) (h : matchBlankLine true (c :: cs) = none) :
    paragraphs (c :: cs) = c :: paragraphs cs :=
  render_scanGo_none bolFree_matchBlankLine _ c cs true h

theorem paragraphs_char_ne (c : Char) (cs : Str) (h : c ≠ '\n') :
    paragraphs (c :: cs) = c :: paragraphs cs :=
  paragraphs_char c cs (trigger_matchBlankLine true c cs h)

theorem cleanup_hit (rest : Str) :
    cleanup ('<' :: 'p' :: '>' :: '<' :: '/' :: 'p' :: '>' :: rest) = cleanup rest := by
  have hm : matchEmptyParagraph true ('<' :: ("p></p>".toList ++ rest)) = some ((), rest) := by
    simp [matchEmptyParagraph, stripPrefix]
  unfold cleanup replaceAll scan
  rw [show '<' :: 'p' :: '>' :: '<' :: '/' :: 'p' :: '>' :: rest =
      '<' :: ("p></p>".toList ++ rest) from by simp,
    render_scanGo_hit bolFree_matchEmptyParagraph _ '<' "p></p>".toList rest () true hm]
  simp

theorem cleanup_cons (c : Char) (cs : Str) (h : matchEmptyParagraph true (c :: cs) = none) :
    cleanup (c :: cs) = c :: cleanup cs :=
  cleanup_char _ c cs true h

theorem cleanup_cons_ne (c : Char) (cs : Str) (h : c ≠ '<') :
    cleanup (c :: cs) = c :: cleanup cs :=
  cleanup_cons c cs (trigger_matchEmptyParagraph true c cs h)

theorem cleanup_lt_ne (y : Char) (cs : Str) (h : y ≠ 'p') :
    cleanup ('<' :: y :: cs) = '<' :: cleanup (y :: cs) :=
  cleanup_cons _ _ (by simp [matchEmptyParagraph, stripPrefix, Ne.symm h])

theorem markStep_one (y : Char) (r : Nat) (h : markStep 1 y = some r) :
    y ≠ 'p' ∧ y ≠ '\n' ∧ y ≠ '<' ∧ (y = '/' → r = 2) ∧ (y ≠ '/' → r = 0) := by
  simp only [markStep] at h
  split at h
  · rename_i hy
    subst hy
    simp only [Option.some.injEq] at h
    exact ⟨by decide, by decide, by decide, fun _ => h.symm, fun hn => absurd rfl hn⟩
  · rename_i hy
    split at h
    · rename_i hy2
      simp only [Option.some.injEq] at h
      refine ⟨?_, ?_, ?_, fun e => absurd e hy, fun _ => h.symm⟩ <;>
        (intro e; subst e; revert hy2; decide)
    · cases h

theorem markStep_two (z : Char) (r : Nat) (h : markStep 2 z = some r) :
    z ≠ 'p' ∧ z ≠ '\n' ∧ z ≠ '<' ∧ r = 0 := by
  simp only [markStep] at h
  split at h
  · rename_i hz
    simp only [Option.some.injEq] at h
    refine ⟨?_, ?_, ?_, h.symm⟩ <;> (intro e; subst e; revert hz; decide)
  · cases h

theorem markStep_lt (q r : Nat) (h : markStep q '<' = some r) : q = 0 ∧ r = 1 := by
  have hq := markStep_outside q '<' r h (by decide)
  subst hq
  simp [markStep] at h
  exact ⟨rfl, h.symm⟩

/-- In a text that the automaton reads, `</p>` starts nowhere outside a tag opening, also after
the paragraph rule. -/
theorem no_close_ahead (c : Char) (cs X : Str) (h : markRun 0 (c :: cs) = some 0) :
    stripPrefix ['<', '/', 'p', '>'] (c :: (paragraphs cs ++ X)) = none := by
  by_cases hc : c = '<'
  · subst hc
    have h1 : markRun 1 cs = some 0 := by simpa [markRun, markStep] using h
    cases cs with
    | nil => simp [markRun] at h1
    | cons y cs1 =>
      rw [markRun_cons] at h1
      cases hs : markStep 1 y with
      | none => rw [hs] at h1; cases h1
      | some r =>
        rw [hs] at h1
        simp only [Option.some_bind] at h1
        obtain ⟨yp, yn, -, y1, y2⟩ := markStep_one y r hs
        rw [paragraphs_char_ne y cs1 yn]
        by_cases hy : y = '/'
        · subst hy
          have hr := y1 rfl
          subst hr
          cases cs1 with
          | nil => simp [markRun] at h1
          | cons z cs2 =>
            rw [markRun_cons] at h1
            cases hs2 : markStep 2 z with
            | none => rw [hs2] at h1; cases h1
            | some r2 =>
              obtain ⟨zp, zn, -, -⟩ := markStep_two z r2 hs2
              rw [paragraphs_char_ne z cs2 zn]
              simp [stripPrefix, Ne.symm zp]
        · simp [stripPrefix, Ne.symm hy]
  · simp [stripPrefix, Ne.symm hc]

theorem cleanup_close (X : Str) :
    cleanup ('<' :: '/' :: 'p' :: '>' :: X) = '<' :: '/' :: 'p' :: '>' :: cleanup X := by
  rw [cleanup_lt_ne '/' _ (by decide), cleanup_cons_ne '/' _ (by decide),
    cleanup_cons_ne 'p' _ (by decide), cleanup_cons_ne '>' _ (by decide)]

theorem cleanup_open (c : Char) (X : Str) (h : stripPrefix ['<', '/', 'p', '>'] (c :: X) = none) :
    cleanup ('<' :: 'p' :: '>' :: c :: X) = '<' :: 'p' :: '>' :: cleanup (c :: X) := by
  have hm : matchEmptyParagraph true ('<' :: 'p' :: '>' :: c :: X) = none := by
    simp only [matchEmptyParagraph, Option.map_eq_none']
    have : stripPrefix "<p></p>".toList ('<' :: 'p' :: '>' :: c :: X) =
        stripPrefix ['<', '/', 'p', '>'] (c :: X) := by
      simp [stripPrefix]
    rw [this, h]
  rw [cleanup_cons _ _ hm, cleanup_cons_ne 'p' _ (by decide), cleanup_cons_ne '>' _ (by decide)]

theorem not_infix_cons {T s : Str} {c : Char} (hp : ¬ T <+: c :: s) (hi : ¬ T <:+: s) :
    ¬ T <:+: c :: s := fun h => hi (infix_cons_skip hp h)

/-- The step of the induction below at a character that the paragraph rule copies. -/
theorem paragraphs_cleanup_char (c : Char) (cs : Str) (q q1 : Nat)
    (hs : markStep q c = some q1) (h1 : markRun q1 cs = some 0)
    (hb : matchBlankLine true (c :: cs) = none)
    (ih : ¬ ['<', 'p', '>', '<', '/', 'p', '>'] <:+: cleanup (paragraphs cs ++ ['<', '/', 'p', '>']) ∧
      (q1 = 1 → ¬ ['p'] <+: cleanup (paragraphs cs ++ ['<', '/', 'p', '>']) ∧
        ¬ ['/', 'p'] <+: cleanup (paragraphs cs ++ ['<', '/', 'p', '>'])) ∧
      (q1 = 2 → ¬ ['p'] <+: cleanup (paragraphs cs ++ ['<', '/', 'p', '>']))) :
    cleanup (paragraphs (c :: cs) ++ ['<', '/', 'p', '>']) =
      c :: cleanup (paragraphs cs ++ ['<', '/', 'p', '>']) ∧
    ¬ ['<', 'p', '>', '<', '/', 'p', '>'] <:+:
      c :: cleanup (paragraphs cs ++ ['<', '/', 'p', '>']) ∧
    (q = 1 → ¬ ['p'] <+: c :: cleanup (paragraphs cs ++ ['<', '/', 'p', '>']) ∧
      ¬ ['/', 'p'] <+: c :: cleanup (paragraphs cs ++ ['<', '/', 'p', '>'])) ∧
    (q = 2 → ¬ ['p'] <+: c :: cleanup (paragraphs cs ++ ['<', '/', 'p', '>'])) ∧
    (q = 0 → ¬ ['<', '/', 'p'] <+: c :: cleanup (paragraphs cs ++ ['<', '/', 'p', '>'])) := by
  obtain ⟨ih0, ih1, ih2⟩ := ih
  have hcopy : cleanup (paragraphs (c :: cs) ++ ['<', '/', 'p', '>']) =
      c :: cleanup (paragraphs cs ++ ['<', '/', 'p', '>']) := by
    rw [paragraphs_char c cs hb, List.cons_append]
    by_cases hc : c = '<'
    · subst hc
      obtain ⟨-, rfl⟩ := markStep_lt q q1 hs
      cases cs with
      | nil => simp [markRun] at h1
      | cons y cs1 =>
        rw [markRun_cons] at h1
        cases hs1 : markStep 1 y with
        | none => rw [hs1] at h1; cases h1
        | some r =>
          obtain ⟨yp, yn, -, -, -⟩ := markStep_one y r hs1
          rw [paragraphs_char_ne y cs1 yn, List.cons_append]
          exact cleanup_lt_ne y _ yp
    · exact cleanup_cons_ne c _ hc
  refine ⟨hcopy, ?_, ?_, ?_, ?_⟩
  · refine not_infix_cons ?_ ih0
    by_cases hc : c = '<'
    · subst hc
      obtain ⟨-, rfl⟩ := markStep_lt q q1 hs
      intro hp
      rw [List.cons_prefix_cons] at hp
      exact (ih1 rfl).1 ((List.prefix_append ['p'] ['>', '<', '/', 'p', '>']).trans hp.2)
    · intro hp
      rw [List.cons_prefix_cons] at hp
      exact hc hp.1.symm
  · intro hq
    subst hq
    obtain ⟨cp, -, -, c1, -⟩ := markStep_one c q1 hs
    refine ⟨fun hp => ?_, fun hp => ?_⟩
    · rw [List.cons_prefix_cons] at hp
      exact cp hp.1.symm
    · rw [List.cons_prefix_cons] at hp
      have hq1 := c1 hp.1.symm
      exact ih2 hq1 hp.2
  · intro hq
    subst hq
    obtain ⟨cp, -, -, -⟩ := markStep_two c q1 hs
    intro hp
    rw [List.cons_prefix_cons] at hp
    exact cp hp.1.symm
  · intro hq
    subst hq
    intro hp
    rw [List.cons_prefix_cons] at hp
    have hc : c = '<' := hp.1.symm
    subst hc
    obtain ⟨-, rfl⟩ := markStep_lt 0 q1 hs
    exact (ih1 rfl).2 hp.2

/-- The paragraph rule, the wrapping and the last rule over a text that the automaton
reads: the part of the output from inside a paragraph on (first statement, with what its
first characters cannot be) and from the start of a paragraph on (second statement)
contains no `<p></p>`. -/
theorem paragraphs_cleanup : ∀ (len : Nat) (s : Str), s.length ≤ len →
    (∀ q, markRun q s = some 0 →
      ¬ ['<', 'p', '>', '<', '/', 'p', '>'] <:+: cleanup (paragraphs s ++ ['<', '/', 'p', '>']) ∧
      (q = 1 → ¬ ['p'] <+: cleanup (paragraphs s ++ ['<', '/', 'p', '>']) ∧
        ¬ ['/', 'p'] <+: cleanup (paragraphs s ++ ['<', '/', 'p', '>'])) ∧
      (q = 2 → ¬ ['p'] <+: cleanup (paragraphs s ++ ['<', '/', 'p', '>'])) ∧
      (q = 0 → s ≠ [] → matchBlankLine true s = none →
        ¬ ['<', '/', 'p'] <+: cleanup (paragraphs s ++ ['<', '/', 'p', '>']))) ∧
    (markRun 0 s = some 0 →
      ¬ ['<', 'p', '>', '<', '/', 'p', '>'] <:+:
        cleanup (['<', 'p', '>'] ++ paragraphs s ++ ['<', '/', 'p', '>'])) := by
  have hnil : (∀ q, markRun q [] = some 0 →
      ¬ ['<', 'p', '>', '<', '/', 'p', '>'] <:+: cleanup (paragraphs [] ++ ['<', '/', 'p', '>']) ∧
      (q = 1 → ¬ ['p'] <+: cleanup (paragraphs [] ++ ['<', '/', 'p', '>']) ∧
        ¬ ['/', 'p'] <+: cleanup (paragraphs [] ++ ['<', '/', 'p', '>'])) ∧
      (q = 2 → ¬ ['p'] <+: cleanup (paragraphs [] ++ ['<', '/', 'p', '>'])) ∧
      (q = 0 → ([] : Str) ≠ [] → matchBlankLine true [] = none →
        ¬ ['<', '/', 'p'] <+: cleanup (paragraphs [] ++ ['<', '/', 'p', '>']))) ∧
    (markRun 0 [] = some 0 →
      ¬ ['<', 'p', '>', '<', '/', 'p', '>'] <:+:
        cleanup (['<', 'p', '>'] ++ paragraphs [] ++ ['<', '/', 'p', '>'])) := by
    refine ⟨fun q h => ?_, fun _ => by decide⟩
    have hq : q = 0 := by simpa [markRun] using h
    subst hq
    exact ⟨by decide, fun h => absurd h (by decide), fun h => absurd h (by decide),
      fun _ hne => absurd rfl hne⟩
  intro len
  induction len with
  | zero =>
    intro s hlen
    have : s = [] := List.length_eq_zero.mp (Nat.le_zero.mp hlen)
    subst this
    exact hnil
  | succ len ih =>
    intro s hlen
    cases s with
    | nil => exact hnil
    | cons c cs =>
      cases hb : matchBlankLine true (c :: cs) with
      | some p =>
        obtain ⟨u, rest⟩ := p
        obtain ⟨e, -⟩ := sound_matchBlankLine true _ u rest hb
        have e' : c :: cs = '\n' :: '\n' :: rest := by rw [e]; simp
        rw [e'] at hlen ⊢
        have hlen' : rest.length ≤ len := by simp at hlen; omega
        have hout := (ih rest hlen').2
        refine ⟨fun q h => ?_, fun h => ?_⟩
        · have hq := markRun_cons_outside q _ _ _ h (by decide)
          subst hq
          rw [markRun_cons_plain _ _ (by decide), markRun_cons_plain _ _ (by decide)] at h
          refine ⟨?_, fun h1 => absurd h1 (by decide), fun h1 => absurd h1 (by decide),
            fun _ _ hnone => ?_⟩
          · rw [paragraphs_hit]
            simp only [List.cons_append]
            rw [cleanup_close]
            refine not_infix_cons (by simp [List.cons_prefix_cons]) (not_infix_cons
              (by simp [List.cons_prefix_cons]) (not_infix_cons (by simp [List.cons_prefix_cons])
              (not_infix_cons (by simp [List.cons_prefix_cons]) ?_)))
            exact hout h
          · cases hnone
        · rw [markRun_cons_plain _ _ (by decide), markRun_cons_plain _ _ (by decide)] at h
          rw [paragraphs_hit]
          simp only [List.cons_append, List.nil_append]
          rw [cleanup_hit]
          exact hout h
      | none =>
        have hlen' : cs.length ≤ len := by simpa using hlen
        have hmid : ∀ q, markRun q (c :: cs) = some 0 →
            cleanup (paragraphs (c :: cs) ++ ['<', '/', 'p', '>']) =
              c :: cleanup (paragraphs cs ++ ['<', '/', 'p', '>']) ∧
            ¬ ['<', 'p', '>', '<', '/', 'p', '>'] <:+:
              c :: cleanup (paragraphs cs ++ ['<', '/', 'p', '>']) ∧
            (q = 1 → ¬ ['p'] <+: c :: cleanup (paragraphs cs ++ ['<', '/', 'p', '>']) ∧
              ¬ ['/', 'p'] <+: c :: cleanup (paragraphs cs ++ ['<', '/', 'p', '>'])) ∧
            (q = 2 → ¬ ['p'] <+: c :: cleanup (paragraphs cs ++ ['<', '/', 'p', '>'])) ∧
            (q = 0 → ¬ ['<', '/', 'p'] <+:
              c :: cleanup (paragraphs cs ++ ['<', '/', 'p', '>'])) := by
          intro q h
          rw [markRun_cons] at h
          cases hs : markStep q c with
          | none => rw [hs] at h; cases h
          | some q1 =>
            rw [hs] at h
            simp only [Option.some_bind] at h
            obtain ⟨i0, i1, i2, -⟩ := (ih cs hlen').1 q1 h
            exact paragraphs_cleanup_char c cs q q1 hs h hb ⟨i0, i1, i2⟩
        refine ⟨fun q h => ?_, fun h => ?_⟩
        · obtain ⟨m0, m1, m2, m3, m4⟩ := hmid q h
          rw [m0]
          exact ⟨m1, m2, m3, fun hq _ _ => m4 hq⟩
        · obtain ⟨m0, m1, -, -, m4⟩ := hmid 0 h
          rw [paragraphs_char c cs hb]
          simp only [List.cons_append, List.nil_append]
          rw [cleanup_open c _ (no_close_ahead c cs _ h)]
          rw [paragraphs_char c cs hb, List.cons_append] at m0
          rw [m0]
          refine not_infix_cons ?_ (not_infix_cons (by simp [List.cons_prefix_cons])
            (not_infix_cons (by simp [List.cons_prefix_cons]) m1))
          intro hp
          simp only [List.cons_prefix_cons, true_and] at hp
          refine m4 rfl ?_
          rw [List.cons_prefix_cons]
          exact ⟨hp.1, (List.prefix_append ['/', 'p'] ['>']).trans hp.2⟩

/-- On a text without `#`, `!` and `*` only the paragraph rule, the wrapping and the last
rule act. -/
theorem convert_of_no_markup (d : Option BookDetails) (s : Str) (h1 : '#' ∉ s) (h2 : '!' ∉ s)
    (h3 : '*' ∉ s) :
    convertMarkdownToHTML d s = cleanup ("<p>".toList ++ paragraphs s ++ "</p>".toList) := by
  rw [convert_eq_cleanup, removeFirstImage_of_not_mem s h2, convertHeaders_of_not_mem s h1,
    replaceAll_of_not_mem trigger_matchImage _ s h2,
    replaceAll_of_not_mem trigger_matchBold _ s h3,
    replaceAll_of_not_mem trigger_matchItalic _ s h3]

/-- C12 (amended): for a text without `<` (and an open book whose folder name has no
`<`), the output contains no `<p></p>`.  In particular the empty text and the texts made
of blank-line separators only render to the empty string. -/
theorem C12_no_empty_paragraph (d : Option BookDetails) (text : Str) (hlt : '<' ∉ text)
    (hfolder : ∀ b, d = some b → '<' ∉ b.folder) :
    ¬ "<p></p>".toList <:+: convertMarkdownToHTML d text ∧
    convertMarkdownToHTML d [] = [] ∧
    convertMarkdownToHTML d "\n\n".toList = [] ∧
    convertMarkdownToHTML d "\n\n\n\n".toList = [] := by
  refine ⟨?_, ?_, ?_, ?_⟩
  rotate_left
  · rw [convert_of_no_markup d [] (by decide) (by decide) (by decide)]
    decide
  · rw [convert_of_no_markup d _ (by decide) (by decide) (by decide)]
    decide
  · rw [convert_of_no_markup d _ (by decide) (by decide) (by decide)]
    decide
  have h := beforeParagraphs_mark d text hlt hfolder
  rw [convert_eq_cleanup]
  exact (paragraphs_cleanup _ _ (le_refl _)).2 h

/-- C12 on a text with an empty block between two blocks, with the sample book open: the
empty paragraph is discarded. -/
theorem C12_no_empty_paragraph_witness :
    '<' ∉ "one\n\n\n\ntwo".toList ∧
    convertMarkdownToHTML (some sampleDetails) "one\n\n\n\ntwo".toList =
      "<p>one</p><p>two</p>".toList ∧
    ¬ "<p></p>".toList <:+: convertMarkdownToHTML (some sampleDetails) "one\n\n\n\ntwo".toList :=
  ⟨by decide, by decide,
    (C12_no_empty_paragraph (some sampleDetails) "one\n\n\n\ntwo".toList (by decide)
      (by intro b hb; cases hb; decide)).1⟩

/-- C12 as stated fails: the text `<p></p>` is wrapped into `<p><p></p></p>`, the last rule
removes the inner `<p></p>` in its one pass, and the output is `<p></p>`. -/
theorem C12_empty_paragraph_remains :
    convertMarkdownToHTML none "<p></p>".toList = "<p></p>".toList ∧
    "<p></p>".toList <:+: convertMarkdownToHTML none "<p></p>".toList := by
  decide

theorem trigger_matchUnderscore : Trigger matchUnderscore '_' := by
  intro bol c cs hc
  have : stripPrefix "_".toList (c :: cs) = none := stripPrefix_cons_ne _ _ hc
  simp only [matchUnderscore, this, Option.map_none']

theorem bolFree_matchUnderscore : BolFree matchUnderscore := fun _ _ _ => rfl

/-- The call `s.replace(/_/g, ' ')` replaces every underscore by a space. -/
theorem replaceAll_underscore (s : Str) :
    replaceAll matchUnderscore (fun _ => " ".toList) s = spaced s := by
  unfold replaceAll scan
  induction s with
  | nil => rfl
  | cons c cs ih =>
    by_cases hc : c = '_'
    · subst hc
      have hm : matchUnderscore true ('_' :: ([] ++ cs)) = some ((), cs) := by
        simp [matchUnderscore, stripPrefix]
      have := render_scanGo_hit bolFree_matchUnderscore (fun _ => " ".toList) '_' [] cs ()
        true hm
      rw [List.nil_append] at this
      rw [this, ih]
      simp [spaced]
    · rw [render_scanGo_none bolFree_matchUnderscore _ c cs true
        (trigger_matchUnderscore true c cs hc), ih]
      simp [spaced, hc]

theorem not_mem_spaced (s : Str) : '_' ∉ spaced s := by
  intro h
  simp only [spaced, List.mem_map] at h
  obtain ⟨c, -, hc⟩ := h
  split at hc
  · exact absurd hc (by decide)
  · rename_i hne
    exact hne hc

/-- A string replace whose pattern holds a character that the text lacks changes nothing. -/
theorem replaceFirst_of_not_mem (pat repl t : Str) (x : Char) (hp : x ∈ pat) (ht : x ∉ t) :
    replaceFirst pat repl t = t := by
  have hnone : ∀ u : Str, x ∉ u → stripPrefix pat u = none := by
    intro u hu
    cases h : stripPrefix pat u with
    | none => rfl
    | some r =>
      rw [stripPrefix_eq_some] at h
      exact absurd (by rw [h]; exact List.mem_append_left _ hp) hu
  induction t with
  | nil => simp [replaceFirst, hnone [] ht]
  | cons c cs ih =>
    have hcs : x ∉ cs := fun h => ht (List.mem_cons_of_mem _ h)
    simp [replaceFirst, hnone _ ht, ih hcs]

/-- C21 (defect): the fallback title of every folder is the folder name with each
underscore replaced by a space and nothing removed, because the underscores are replaced
before `book_about_` is searched: for a folder `book_about_` + X the title is
`book about ` followed by X with spaces for underscores, not X with spaces for
underscores.  The folder `book_about_dark_romance` gets the title
`book about dark romance`.  Description, id and folder are as the claim says. -/
theorem C21_fallback_title_keeps_prefix :
    (∀ folder : Str, (fallbackEntry folder).title = spaced folder) ∧
    (∀ X : Str, (fallbackEntry ("book_about_".toList ++ X)).title =
      "book about ".toList ++ spaced X) ∧
    (∀ X : Str, (fallbackEntry ("book_about_".toList ++ X)).title ≠ spaced X) ∧
    (fallbackEntry "book_about_dark_romance".toList).title =
      "book about dark romance".toList ∧
    (∀ folder ∈ bookFolders, "book about ".toList <+: (fallbackEntry folder).title) ∧
    (∀ folder : Str, (fallbackEntry folder).description = "A generated story".toList ∧
      (fallbackEntry folder).id = folder ∧ (fallbackEntry folder).folder = folder) := by
  have h1 : ∀ folder : Str, (fallbackEntry folder).title = spaced folder := by
    intro folder
    unfold fallbackEntry
    simp only []
    rw [replaceAll_underscore]
    exact replaceFirst_of_not_mem _ _ _ '_' (by decide) (not_mem_spaced folder)
  have h2 : ∀ X : Str, (fallbackEntry ("book_about_".toList ++ X)).title =
      "book about ".toList ++ spaced X := by
    intro X
    rw [h1]
    simp [spaced]
  refine ⟨h1, h2, fun X h => ?_, ?_, ?_, fun folder => ⟨rfl, rfl, rfl⟩⟩
  · rw [h2] at h
    have := congrArg List.length h
    simp at this
    omega
  · rw [h1]
    decide
  · intro folder hf
    simp only [bookFolders, List.mem_cons, List.mem_singleton, List.not_mem_nil, or_false] at hf
    rcases hf with rfl | rfl | rfl | rfl | rfl | rfl <;> (rw [h1]; decide)

end EditorHouse
